import Mathlib

/-!
A verification development for the syntactic front end of the Hasdrubal/Hanno
compiler: the EOL-inference pass (`src/hanno/lex/eol_inference.py`) and the
Pratt expression parser (`src/hanno/parse.py`), together with the AST node
model (`src/hasdrubal/ast_.py`, `src/hanno/asts/typed.py`).

The Python code is embedded shallowly: token streams become `List Token`,
generators become recursive functions producing lists, exceptions become
`Except ParseError`, and the mutual recursion of the Pratt parser is made
total with an explicit fuel parameter (`ParseError.outOfFuel` only signals
fuel exhaustion of the embedding; it corresponds to no Python behaviour).
Machine integers stay `Int` (Python ints are unbounded, so no wrap-around
modelling is needed).

Parts of the repository referenced by the parser but whose source files are
absent (the `TokenStream` class, the `TokenTypes` enum of `hanno/lex`, the
`base` AST module, the error classes of `errors.py` and the type layer
`asts/types_.py`) are modelled from the specification; each such definition
carries a doc comment saying so.
-/

namespace Hanno

/-- A half-open `(start, end)` character-offset interval, as in
`src/hasdrubal/ast_.py` spans are plain pairs of Python ints. -/
abbrev Span := Int × Int

/-- `merge` from `src/hasdrubal/ast_.py` lines 9-13: the merge of two spans is
the pair (min of starts, max of ends). -/
def merge (left_span right_span : Span) : Span :=
  (min left_span.1 right_span.1, max left_span.2 right_span.2)

/-- Modelled from the spec: the `TokenTypes` enumeration of `hanno/lex/tokens.py`
(absent from the sources; spec section 3 lists the closed vocabulary).  Members
whose Python name is a Lean keyword or a Bool literal get a trailing
underscore, as the Python source itself does for `if_`, `not_`, `else_`,
`and_`, `or_`, `float_` and `name_`. -/
inductive TokenTypes where
  | lparen | rparen | lbracket | rbracket | comma | dot | colon | colon_equal
  | arrow
  | let_ | if_ | then_ | else_ | end_ | in_ | not_ | and_ | or_ | true_
  | false_
  | integer | float_ | string | name_
  | equal | question_equal | greater | less | greater_equal | less_equal
  | plus | dash | asterisk | fslash | percent | caret | diamond | tilde
  | bslash
  | whitespace | eol | comment
  deriving DecidableEq, Repr

/-- Modelled from the spec: the enum's string `value` for each member
(operator lexemes and keyword spellings; spec section 3).  The parser reads it
only for the infix-operator token types, where it is the operator's lexeme. -/
def TokenTypes.value : TokenTypes → String
  | .lparen => "(" | .rparen => ")" | .lbracket => "[" | .rbracket => "]"
  | .comma => "," | .dot => "." | .colon => ":" | .colon_equal => ":="
  | .arrow => "->"
  | .let_ => "let" | .if_ => "if" | .then_ => "then" | .else_ => "else"
  | .end_ => "end" | .in_ => "in" | .not_ => "not" | .and_ => "and"
  | .or_ => "or" | .true_ => "True" | .false_ => "False"
  | .integer => "integer" | .float_ => "float" | .string => "string"
  | .name_ => "name"
  | .equal => "=" | .question_equal => "?=" | .greater => ">" | .less => "<"
  | .greater_equal => ">=" | .less_equal => "<="
  | .plus => "+" | .dash => "-" | .asterisk => "*" | .fslash => "/"
  | .percent => "%" | .caret => "^" | .diamond => "<>" | .tilde => "~"
  | .bslash => "\\"
  | .whitespace => "whitespace" | .eol => "<eol>" | .comment => "comment"

/-- Modelled from the spec: the `Token` record of `hanno/lex/main.py` (absent
from the sources; spec section 3): an immutable
`{span, type_, value : optional string}`. -/
structure Token where
  span : Span
  type_ : TokenTypes
  value : Option String
  deriving DecidableEq, Repr

/-! ## The EOL inference engine, from `src/hanno/lex/eol_inference.py` -/

/-- `OPENERS` from `src/hanno/lex/eol_inference.py` line 6. -/
def OPENERS : List TokenTypes := [.lbracket, .lparen]

/-- `CLOSERS` from `src/hanno/lex/eol_inference.py` line 7. -/
def CLOSERS : List TokenTypes := [.rbracket, .rparen]

/-- `VALID_STARTS` from `src/hanno/lex/eol_inference.py` lines 9-24. -/
def VALID_STARTS : List TokenTypes :=
  [.bslash, .end_, .false_, .float_, .if_, .integer, .lbracket, .let_,
   .lparen, .not_, .name_, .string, .tilde, .true_]

/-- `VALID_ENDS` from `src/hanno/lex/eol_inference.py` lines 25-35. -/
def VALID_ENDS : List TokenTypes :=
  [.end_, .false_, .float_, .integer, .name_, .rbracket, .rparen, .string,
   .true_]

/-- `can_add_eol` from `src/hanno/lex/eol_inference.py` lines 38-70: an EOL
may be inserted at a whitespace token iff the bracket depth is zero, the
whitespace's text holds a line break, the previous forwarded token is a valid
statement ender and the upcoming token (if any) is a valid statement
starter.  Python's `"\n" in current.value` is single-character containment. -/
def can_add_eol (prev current : Token) (next_ : Option Token)
    (stack_size : Int) : Bool :=
  (stack_size == 0)
    && (match current.value with
        | none => false
        | some v => v.data.contains '\n')
    && VALID_ENDS.contains prev.type_
    && (match next_ with
        | none => true
        | some n => VALID_STARTS.contains n.type_)

/-- The bracket-depth contribution of one token, as in the
`paren_stack_size` update of `insert_eols` (lines 121-123): +1 on openers,
-1 on closers, 0 otherwise. -/
def bracketDelta (t : Token) : Int :=
  if OPENERS.contains t.type_ then 1
  else if CLOSERS.contains t.type_ then -1 else 0

/-- The `for token in stream` loop of `insert_eols`
(`src/hanno/lex/eol_inference.py` lines 108-124): returns the forwarded
tokens and the final value of `prev_token`.  A whitespace token either
becomes a fresh `eol` token (which then becomes `prev_token`) or is dropped;
any other token is forwarded unchanged, adjusting the bracket depth. -/
def insertEolsLoop (prev : Token) (depth : Int) :
    List Token → List Token × Token
  | [] => ([], prev)
  | t :: rest =>
    if t.type_ == .whitespace then
      if can_add_eol prev t rest.head? depth then
        (⟨t.span, .eol, none⟩ ::
            (insertEolsLoop ⟨t.span, .eol, none⟩ depth rest).1,
          (insertEolsLoop ⟨t.span, .eol, none⟩ depth rest).2)
      else insertEolsLoop prev depth rest
    else
      (t :: (insertEolsLoop t (depth + bracketDelta t) rest).1,
        (insertEolsLoop t (depth + bracketDelta t) rest).2)

/-- `insert_eols` from `src/hanno/lex/eol_inference.py` lines 91-129: run the
loop starting from the synthetic `prev` token `((0,0), eol, None)` at depth 0,
then (per lines 126-129) if the stream was non-empty and the *last raw token
of the input* (Python's leaked loop variable `token`) is not an `eol`, append
one trailing `eol` token one position past the final `prev_token`. -/
def insert_eols (stream : List Token) : List Token :=
  match stream.getLast? with
  | none => []
  | some lastRaw =>
    (insertEolsLoop ⟨(0, 0), .eol, none⟩ 0 stream).1 ++
      (if lastRaw.type_ == .eol then []
       else
        [⟨((insertEolsLoop ⟨(0, 0), .eol, none⟩ 0 stream).2.span.2,
            (insertEolsLoop ⟨(0, 0), .eol, none⟩ 0 stream).2.span.2 + 1),
          .eol, none⟩])

/-- Whether a token list holds two consecutive `eol` tokens. -/
def hasConsecutiveEols : List Token → Bool
  | t1 :: t2 :: rest =>
    (t1.type_ == .eol && t2.type_ == .eol) || hasConsecutiveEols (t2 :: rest)
  | _ => false

/-- The net bracket depth after a token list. -/
def bracketDepth (ts : List Token) : Int :=
  ts.foldl (fun d t => d + bracketDelta t) 0

/-- Starting from depth `d`, every `eol` token in the list sits at depth 0. -/
def eolsFromDepth (d : Int) : List Token → Bool
  | [] => true
  | t :: rest =>
    (if t.type_ == .eol then d == 0 else true)
      && eolsFromDepth (d + bracketDelta t) rest

/-! ## The AST node model -/

/-- Modelled from the spec: the type layer `hanno/asts/types_.py` (absent from
the sources; the parser only builds type values and never inspects them).
`TypeFunc` stands for `TypeApply.func` and `TypeTuple` for
`TypeApply.tuple_`. -/
inductive Ty where
  | TypeName (span : Span) (value : Option String)
  | TypeVar (span : Span) (value : String)
  | TypeApply (span : Span) (caller callee : Ty)
  | TypeFunc (span : Span) (arg ret : Ty)
  | TypeTuple (span : Span) (args : List Ty)

/-- The span attribute of a type value. -/
def Ty.span : Ty → Span
  | .TypeName s _ => s
  | .TypeVar s _ => s
  | .TypeApply s _ _ => s
  | .TypeFunc s _ _ => s
  | .TypeTuple s _ => s

/-- Modelled from the spec: `types.TypeApply.func` builds a function type from
an argument type and a return type. -/
def TypeApply.func (span : Span) (arg ret : Ty) : Ty := .TypeFunc span arg ret

/-- Modelled from the spec: `types.TypeApply.tuple_` builds a tuple type. -/
def TypeApply.tuple_ (span : Span) (args : List Ty) : Ty := .TypeTuple span args

/-- Modelled from the spec: `types.TypeName.unit` is the unit type. -/
def TypeName.unit (span : Span) : Ty := .TypeName span (some "Unit")

/-- Modelled from the spec: `types.TypeVar.unknown` makes a fresh type
variable.  The Python class draws its name from a process-wide counter (spec
section 9 directs reimplementations to avoid that global); the name is left
symbolic here, as no claim observes it. -/
def TypeVar.unknown (span : Span) : Ty := .TypeVar span "?"

/-- The Python value held by a `Scalar` node (`bool | int | float | str`).
Floats are kept symbolic as their source text, since no claim involves
float arithmetic. -/
inductive ScalarValue where
  | bool (b : Bool)
  | int (n : Int)
  | float (text : String)
  | str (s : String)

/-- Modelled from the spec: the AST node variants of `hanno/asts/base.py`
(absent from the sources; spec section 3 lists the data model, and
`src/hasdrubal/ast_.py` holds the earlier generation of the same classes).
`Name.value` is `Option String` because the parser passes `token.value`
straight through.  `TypedName`/`TypedDefine` are the `typed.Name` and
`typed.Define` subclasses of `src/hanno/asts/typed.py`. -/
inductive ASTNode where
  | Name (span : Span) (value : Option String)
  | TypedName (span : Span) (type_ : Ty) (value : String)
  | Scalar (span : Span) (value : ScalarValue)
  | Unit (span : Span)
  | Apply (span : Span) (func arg : ASTNode)
  | Function (span : Span) (param body : ASTNode)
  | Define (span : Span) (target value : ASTNode)
  | TypedDefine (span : Span) (type_ : Ty) (target value : ASTNode)
  | Cond (span : Span) (pred cons else_ : ASTNode)
  | Block (span : Span) (body : List ASTNode)
  | List (span : Span) (elements : List ASTNode)
  | Pair (span : Span) (first second : ASTNode)

/-- The span attribute of an AST node. -/
def ASTNode.span : ASTNode → Span
  | .Name s _ => s
  | .TypedName s _ _ => s
  | .Scalar s _ => s
  | .Unit s => s
  | .Apply s _ _ => s
  | .Function s _ _ => s
  | .Define s _ _ => s
  | .TypedDefine s _ _ _ => s
  | .Cond s _ _ _ => s
  | .Block s _ => s
  | .List s _ => s
  | .Pair s _ _ => s

/-- Assignment to a node's `span` attribute (Python mutates the object in
place; in the value semantics the node is rebuilt with the new span). -/
def ASTNode.withSpan (s : Span) : ASTNode → ASTNode
  | .Name _ v => .Name s v
  | .TypedName _ t v => .TypedName s t v
  | .Scalar _ v => .Scalar s v
  | .Unit _ => .Unit s
  | .Apply _ f a => .Apply s f a
  | .Function _ p b => .Function s p b
  | .Define _ t v => .Define s t v
  | .TypedDefine _ ty t v => .TypedDefine s ty t v
  | .Cond _ p c e => .Cond s p c e
  | .Block _ b => .Block s b
  | .List _ e => .List s e
  | .Pair _ f sec => .Pair s f sec

/-- `Function.curry` from `src/hasdrubal/ast_.py` lines 117-130: the loop
`for param in reversed(params): body = cls(span, param, body)` rewrites a
parameter list and body into nested single-parameter functions. -/
def Function.curry (span : Span) (params : List ASTNode) (body : ASTNode) :
    ASTNode :=
  params.reverse.foldl (fun b p => ASTNode.Function span p b) body

/-- Python `int()` on the lexer's integer lexemes (`[0-9][0-9_]*`):
decimal digits with ignored underscores. -/
def pyInt (s : String) : Int :=
  s.data.foldl
    (fun acc c => if c = '_' then acc else acc * 10 + ((c.toNat : Int) - 48))
    0

/-- Python's slice `value[1:-1]` used by `parse_scalar` on string tokens. -/
def pySliceInner (s : String) : String :=
  String.mk ((s.data.drop 1).dropLast)

/-! ## Errors and the token stream, from the spec -/

/-- Modelled from the spec: the two fatal error kinds of `errors.py` (absent
from the sources; spec section 7): `UnexpectedEOFError` carries no token,
`UnexpectedTokenError` carries the offending token and the acceptable types.
The remaining constructors are embedding artifacts: `outOfFuel` signals
exhaustion of the recursion fuel; `noneAttribute`, `assertionFailed`,
`typeError` and `valueError` stand for the corresponding Python crashes
(`None.span`, `assert False`, `TypeError`, `ValueError`) on paths no
well-formed stream reaches. -/
inductive ParseError where
  | UnexpectedEOFError
  | UnexpectedTokenError (token : Token) (expected : List TokenTypes)
  | outOfFuel
  | noneAttribute
  | assertionFailed
  | typeError
  | valueError
  deriving DecidableEq, Repr

/-- Modelled from the spec: `TokenStream.peek(types...)` — true iff the
current token's type is one of `types`; false (never an error) at end. -/
def peek (ts : List Token) (types : List TokenTypes) : Bool :=
  match ts.head? with
  | some t => types.contains t.type_
  | none => false

/-- Modelled from the spec: `TokenStream.preview()` — the upcoming token
without consuming it, or `none` at end of stream. -/
def preview (ts : List Token) : Option Token :=
  ts.head?

/-- Modelled from the spec: `TokenStream.consume(types...)` — return and
advance past the current token if its type is among `types`, otherwise fail
with a structured error naming the offending token and the expected types
(`UnexpectedEOFError` when nothing is left). -/
def consume (ts : List Token) (types : List TokenTypes) :
    Except ParseError (Token × List Token) :=
  match ts with
  | [] => .error .UnexpectedEOFError
  | t :: rest =>
    if types.contains t.type_ then .ok (t, rest)
    else .error (.UnexpectedTokenError t types)

/-- Modelled from the spec: `TokenStream.consume_if(types...)` — like
`consume` but reports a Boolean instead of erroring on a mismatch. -/
def consume_if (ts : List Token) (types : List TokenTypes) :
    Bool × List Token :=
  match ts with
  | [] => (false, ts)
  | t :: rest =>
    if types.contains t.type_ then (true, rest) else (false, t :: rest)

/-! ## The Pratt parser, from `src/hanno/parse.py`

Each function takes a fuel argument and passes its predecessor to every
callee, making the Python mutual recursion structural; `0` fuel yields
`ParseError.outOfFuel`. -/

/-- `precedence_table` from `src/hanno/parse.py` lines 332-355: binding
powers of the infix-capable token types (`none` for absent keys). -/
def precedence_table : TokenTypes → Option Int
  | .let_ => some 0
  | .comma => some 10
  | .bslash => some 20
  | .if_ => some 30
  | .and_ => some 40
  | .or_ => some 50
  | .not_ => some 60
  | .greater => some 70
  | .less => some 70
  | .greater_equal => some 70
  | .less_equal => some 70
  | .question_equal => some 70
  | .equal => some 70
  | .plus => some 80
  | .dash => some 80
  | .diamond => some 80
  | .fslash => some 90
  | .asterisk => some 90
  | .percent => some 90
  | .caret => some 100
  | .lparen => some 110
  | .dot => some 120
  | _ => none

/-- `parse_name` from `src/hanno/parse.py` lines 236-238. -/
def parse_name (ts : List Token) : Except ParseError (ASTNode × List Token) := do
  let (token, ts1) ← consume ts [.name_]
  .ok (.Name token.span token.value, ts1)

/-- `parse_scalar` from `src/hanno/parse.py` lines 263-283: a literal token
becomes a `Scalar` node; bools ignore the token value, integers go through
`int()`, floats through `float()` (kept symbolic) and strings are sliced
`[1:-1]`.  A `None` value where Python would call `int`/`float`/slice is the
`TypeError` crash. -/
def parse_scalar (ts : List Token) : Except ParseError (ASTNode × List Token) := do
  let (token, ts1) ← consume ts [.false_, .float_, .integer, .string, .true_]
  match token.type_, token.value with
  | .false_, _ => .ok (.Scalar token.span (.bool false), ts1)
  | .float_, some v => .ok (.Scalar token.span (.float v), ts1)
  | .float_, none => .error .typeError
  | .integer, some v => .ok (.Scalar token.span (.int (pyInt v)), ts1)
  | .integer, none => .error .typeError
  | .string, some v => .ok (.Scalar token.span (.str (pySliceInner v)), ts1)
  | .string, none => .error .typeError
  | .true_, _ => .ok (.Scalar token.span (.bool true), ts1)
  | _, _ => .error .assertionFailed

/-- `parse_dot` from `src/hanno/parse.py` lines 204-208: field access builds
a reversed application `Apply(fieldName, object)`. -/
def parse_dot (left : ASTNode) (ts : List Token) :
    Except ParseError (ASTNode × List Token) := do
  let (_, ts1) ← consume ts [.dot]
  let (name_token, ts2) ← consume ts1 [.name_]
  let right := ASTNode.Name name_token.span name_token.value
  .ok (.Apply (merge left.span right.span) right left, ts2)

/-- `_build_func_type` from `src/hanno/parse.py` lines 12-25: fold the
parameter list from the right into a curried function type. -/
def _build_func_type (args : List ASTNode) (return_type : Ty) : Ty :=
  args.reverse.foldl
    (fun ret arg =>
      let arg_type := match arg with
        | .TypedName _ t _ => t
        | _ => TypeVar.unknown (-1, -1)
      TypeApply.func (merge ret.span arg_type.span) arg_type ret)
    return_type

mutual

/-- `parse_type` from `src/hanno/parse.py` lines 31-36. -/
def parse_type : Nat → List Token → Except ParseError (Ty × List Token)
  | 0, _ => .error .outOfFuel
  | fuel+1, ts => do
    let (left, ts1) ← parse_tuple_type fuel ts
    match consume_if ts1 [.arrow] with
    | (true, ts2) => do
      let (right, ts3) ← parse_type fuel ts2
      .ok (TypeApply.func (merge left.span right.span) left right, ts3)
    | (false, _) => .ok (left, ts1)

/-- `parse_tuple_type` from `src/hanno/parse.py` lines 39-56. -/
def parse_tuple_type : Nat → List Token → Except ParseError (Ty × List Token)
  | 0, _ => .error .outOfFuel
  | fuel+1, ts =>
    if peek ts [.lparen] then do
      let (first, ts1) ← consume ts [.lparen]
      let (elements, ts2) ← parseTupleTypeElems fuel ts1
      let (last, ts3) ← consume ts2 [.rparen]
      let span := merge first.span last.span
      match elements with
      | [] => .ok (TypeName.unit span, ts3)
      | [e] => .ok (e, ts3)
      | _ => .ok (TypeApply.tuple_ span elements, ts3)
    else parse_generic_type fuel ts

/-- The element loop of `parse_tuple_type` (lines 43-47): collect types while
the closing parenthesis is not in sight, stopping after a missing comma. -/
def parseTupleTypeElems : Nat → List Token →
    Except ParseError (List Ty × List Token)
  | 0, _ => .error .outOfFuel
  | fuel+1, ts =>
    if peek ts [.rparen] then .ok ([], ts)
    else do
      let (element, ts1) ← parse_type fuel ts
      match consume_if ts1 [.comma] with
      | (true, ts2) => do
        let (rest, ts3) ← parseTupleTypeElems fuel ts2
        .ok (element :: rest, ts3)
      | (false, _) => .ok ([element], ts1)

/-- `parse_generic_type` from `src/hanno/parse.py` lines 59-70. -/
def parse_generic_type : Nat → List Token →
    Except ParseError (Ty × List Token)
  | 0, _ => .error .outOfFuel
  | fuel+1, ts => do
    let (base_token, ts1) ← consume ts [.name_]
    let type_ := Ty.TypeName base_token.span base_token.value
    match consume_if ts1 [.lbracket] with
    | (true, ts2) => parseGenericTypeArgs fuel type_ ts2
    | (false, _) => .ok (type_, ts1)

/-- The argument loop of `parse_generic_type` (lines 65-69): note that the
source checks for `rparen` (not `rbracket`) and never consumes the closing
bracket; the translation keeps that behaviour. -/
def parseGenericTypeArgs : Nat → Ty → List Token →
    Except ParseError (Ty × List Token)
  | 0, _, _ => .error .outOfFuel
  | fuel+1, type_, ts =>
    if peek ts [.rparen] then .ok (type_, ts)
    else do
      let (arg, ts1) ← parse_type fuel ts
      let type_' := Ty.TypeApply (merge type_.span arg.span) type_ arg
      match consume_if ts1 [.comma] with
      | (true, ts2) => parseGenericTypeArgs fuel type_' ts2
      | (false, _) => .ok (type_', ts1)

/-- `parse_body_section` from `src/hanno/parse.py` lines 73-79. -/
def parse_body_section : Nat → List Token →
    Except ParseError (ASTNode × List Token)
  | 0, _ => .error .outOfFuel
  | fuel+1, ts =>
    match consume_if ts [.equal] with
    | (true, ts1) => parse_expr fuel 0 ts1
    | (false, _) => do
      let (_, ts1) ← consume ts [.colon_equal]
      parse_block fuel [.end_] ts1

/-- `parse_block` from `src/hanno/parse.py` lines 82-97: collect expressions
(each closed by a mandatory `eol`) until one of `expected_ends` is consumed;
zero expressions yield `Unit` spanning the next token (Python crashes on
`None.span` when no token follows), one is returned unwrapped, two or more
become a `Block`. -/
def parse_block : Nat → List TokenTypes → List Token →
    Except ParseError (ASTNode × List Token)
  | 0, _, _ => .error .outOfFuel
  | fuel+1, expected_ends, ts =>
    if expected_ends.isEmpty then .error .valueError
    else do
      let (exprs, ts1) ← parseBlockItems fuel expected_ends ts
      match exprs with
      | [] =>
        match preview ts1 with
        | some next_token => .ok (.Unit next_token.span, ts1)
        | none => .error .noneAttribute
      | [e] => .ok (e, ts1)
      | e :: _ =>
        .ok (.Block (merge e.span ((exprs.getLastD e).span)) exprs, ts1)

/-- The accumulation loop of `parse_block` (lines 86-90):
`while not stream.consume_if(*expected_ends)` parse an expression and its
terminating `eol`. -/
def parseBlockItems : Nat → List TokenTypes → List Token →
    Except ParseError (List ASTNode × List Token)
  | 0, _, _ => .error .outOfFuel
  | fuel+1, expected_ends, ts =>
    match consume_if ts expected_ends with
    | (true, ts1) => .ok ([], ts1)
    | (false, _) => do
      let (expr, ts1) ← parse_expr fuel 0 ts
      let (_, ts2) ← consume ts1 [.eol]
      let (rest, ts3) ← parseBlockItems fuel expected_ends ts2
      .ok (expr :: rest, ts3)

/-- `parse_elements` from `src/hanno/parse.py` lines 100-107: comma-separated
expressions at the comma's binding power, until an end token is in sight or a
comma is missing. -/
def parse_elements : Nat → List TokenTypes → List Token →
    Except ParseError (List ASTNode × List Token)
  | 0, _, _ => .error .outOfFuel
  | fuel+1, end_, ts =>
    if peek ts end_ then .ok ([], ts)
    else do
      let (element, ts1) ←
        parse_expr fuel ((precedence_table .comma).getD (-1)) ts
      match consume_if ts1 [.comma] with
      | (true, ts2) => do
        let (rest, ts3) ← parse_elements fuel end_ ts2
        .ok (element :: rest, ts3)
      | (false, _) => .ok ([element], ts1)

/-- `parse_parameters` from `src/hanno/parse.py` lines 110-128: names with
optional `: type` annotations; an empty result re-consumes a `name` to raise
the matching error (the `assert False` after it is unreachable). -/
def parse_parameters : Nat → List Token →
    Except ParseError (List ASTNode × List Token)
  | 0, _ => .error .outOfFuel
  | fuel+1, ts => do
    let (params, ts1) ← parseParametersLoop fuel ts
    if params.isEmpty then do
      let _ ← consume ts1 [.name_]
      .error .assertionFailed
    else .ok (params, ts1)

/-- The `while stream.peek(name_)` loop of `parse_parameters`
(lines 112-123). -/
def parseParametersLoop : Nat → List Token →
    Except ParseError (List ASTNode × List Token)
  | 0, _ => .error .outOfFuel
  | fuel+1, ts =>
    if peek ts [.name_] then do
      let (name_token, ts1) ← consume ts [.name_]
      let (param, ts2) ←
        if peek ts1 [.colon] then do
          let (_, ts2) ← consume ts1 [.colon]
          let (param_type, ts3) ← parse_type fuel ts2
          match name_token.value with
          | some v =>
            pure ((ASTNode.TypedName name_token.span param_type v : ASTNode),
              ts3)
          | none => .error .typeError
        else
          pure ((ASTNode.Name name_token.span name_token.value : ASTNode), ts1)
      match consume_if ts2 [.comma] with
      | (true, ts3) => do
        let (rest, ts4) ← parseParametersLoop fuel ts3
        .ok (param :: rest, ts4)
      | (false, _) => .ok ([param], ts2)
    else .ok ([], ts)

/-- `build_infix_op` from `src/hanno/parse.py` lines 131-150: consume the
operator, parse the right operand at the operator's binding power (one less
when `right_associative`), and build the curried
`Apply(Apply(Name(op), left), right)`. -/
def build_infix_op : Nat → TokenTypes → Bool → ASTNode → List Token →
    Except ParseError (ASTNode × List Token)
  | 0, _, _, _, _ => .error .outOfFuel
  | fuel+1, token_type, right_associative, left, ts => do
    let (op, ts1) ← consume ts [token_type]
    let (right, ts2) ← parse_expr fuel
      ((precedence_table token_type).getD (-1) -
        (if right_associative then 1 else 0)) ts1
    .ok (.Apply (merge left.span right.span)
          (.Apply (merge left.span op.span)
            (.Name op.span (some token_type.value)) left)
          right, ts2)

/-- `parse_apply` from `src/hanno/parse.py` lines 153-164: fold the argument
list left over the callee into nested `Apply` nodes, then overwrite the
result's span to cover the whole call up to the closing parenthesis. -/
def parse_apply : Nat → ASTNode → List Token →
    Except ParseError (ASTNode × List Token)
  | 0, _, _ => .error .outOfFuel
  | fuel+1, left, ts => do
    let (_, ts1) ← consume ts [.lparen]
    let (arguments, ts2) ← parse_elements fuel [.rparen] ts1
    let (last, ts3) ← consume ts2 [.rparen]
    let result := arguments.foldl
      (fun r argument => ASTNode.Apply (merge r.span argument.span) r argument)
      left
    .ok (result.withSpan (merge left.span last.span), ts3)

/-- `parse_define` from `src/hanno/parse.py` lines 167-201: `let` bindings,
with the parenthesized-parameters form (curried function definition,
optionally with `-> returnType` yielding a typed define) and the bare form
(optionally `: type` annotated target). -/
def parse_define : Nat → List Token →
    Except ParseError (ASTNode × List Token)
  | 0, _ => .error .outOfFuel
  | fuel+1, ts => do
    let (start_token, ts1) ← consume ts [.let_]
    let (target_token, ts2) ← consume ts1 [.name_]
    match consume_if ts2 [.lparen] with
    | (true, ts3) => do
      let (params, ts4) ← parse_parameters fuel ts3
      let (_, ts5) ← consume ts4 [.rparen]
      match consume_if ts5 [.arrow] with
      | (true, ts6) => do
        let (return_type, ts7) ← parse_type fuel ts6
        let (body, ts8) ← parse_body_section fuel ts7
        match target_token.value with
        | some v =>
          .ok (.TypedDefine (merge start_token.span body.span)
                (_build_func_type params return_type)
                (.TypedName target_token.span
                  (TypeVar.unknown target_token.span) v)
                (Function.curry (merge target_token.span body.span) params
                  body), ts8)
        | none => .error .typeError
      | (false, _) => do
        let (body, ts6) ← parse_body_section fuel ts5
        .ok (.Define (merge start_token.span body.span)
              (.Name target_token.span target_token.value)
              (Function.curry (merge target_token.span body.span) params body),
          ts6)
    | (false, _) => do
      let (target, ts3) ←
        match consume_if ts2 [.colon] with
        | (true, ts3) => do
          let (type_ann, ts4) ← parse_type fuel ts3
          match target_token.value with
          | some v =>
            pure ((ASTNode.TypedName target_token.span type_ann v : ASTNode),
              ts4)
          | none => Except.error ParseError.typeError
        | (false, _) =>
          pure ((ASTNode.Name target_token.span target_token.value : ASTNode),
            ts2)
      let (body, ts4) ← parse_body_section fuel ts3
      .ok (.Define (merge start_token.span body.span) target body, ts4)

/-- `parse_func` from `src/hanno/parse.py` lines 211-216: a lambda
`\ params -> body`, desugared through `Function.curry`. -/
def parse_func : Nat → List Token → Except ParseError (ASTNode × List Token)
  | 0, _ => .error .outOfFuel
  | fuel+1, ts => do
    let (first, ts1) ← consume ts [.bslash]
    let (params, ts2) ← parse_parameters fuel ts1
    let (_, ts3) ← consume ts2 [.arrow]
    let (body, ts4) ←
      parse_expr fuel ((precedence_table .bslash).getD (-1)) ts3
    .ok (Function.curry (merge first.span body.span) params body, ts4)

/-- `parse_if` from `src/hanno/parse.py` lines 219-226. -/
def parse_if : Nat → List Token → Except ParseError (ASTNode × List Token)
  | 0, _ => .error .outOfFuel
  | fuel+1, ts => do
    let (first, ts1) ← consume ts [.if_]
    let (pred, ts2) ← parse_expr fuel ((precedence_table .if_).getD (-1)) ts1
    let (_, ts3) ← consume ts2 [.then_]
    let (cons, ts4) ← parse_expr fuel ((precedence_table .if_).getD (-1)) ts3
    let (_, ts5) ← consume ts4 [.else_]
    let (else_, ts6) ← parse_expr fuel ((precedence_table .if_).getD (-1)) ts5
    .ok (.Cond (merge first.span else_.span) pred cons else_, ts6)

/-- `parse_list` from `src/hanno/parse.py` lines 229-233. -/
def parse_list : Nat → List Token → Except ParseError (ASTNode × List Token)
  | 0, _ => .error .outOfFuel
  | fuel+1, ts => do
    let (first, ts1) ← consume ts [.lbracket]
    let (elements, ts2) ← parse_elements fuel [.rbracket] ts1
    let (last, ts3) ← consume ts2 [.rbracket]
    .ok (.List (merge first.span last.span) elements, ts3)

/-- `parse_negate` from `src/hanno/parse.py` lines 241-246: unary minus
desugars to `Apply(Name("~"), operand)`. -/
def parse_negate : Nat → List Token → Except ParseError (ASTNode × List Token)
  | 0, _ => .error .outOfFuel
  | fuel+1, ts => do
    let (token, ts1) ← consume ts [.dash]
    let (operand, ts2) ←
      parse_expr fuel ((precedence_table .dash).getD (-1)) ts1
    .ok (.Apply (merge token.span operand.span)
          (.Name token.span (some "~")) operand, ts2)

/-- `parse_not` from `src/hanno/parse.py` lines 249-254. -/
def parse_not : Nat → List Token → Except ParseError (ASTNode × List Token)
  | 0, _ => .error .outOfFuel
  | fuel+1, ts => do
    let (token, ts1) ← consume ts [.not_]
    let (operand, ts2) ←
      parse_expr fuel ((precedence_table .not_).getD (-1)) ts1
    .ok (.Apply (merge token.span operand.span)
          (.Name token.span (some "not")) operand, ts2)

/-- `parse_pair` from `src/hanno/parse.py` lines 257-260: the comma operator,
with the right side parsed one binding power below the comma's own, making
chains right-associative. -/
def parse_pair : Nat → ASTNode → List Token →
    Except ParseError (ASTNode × List Token)
  | 0, _, _ => .error .outOfFuel
  | fuel+1, left, ts => do
    let (_, ts1) ← consume ts [.comma]
    let (right, ts2) ←
      parse_expr fuel ((precedence_table .comma).getD (-1) - 1) ts1
    .ok (.Pair (merge left.span right.span) left right, ts2)

/-- `parse_group` from `src/hanno/parse.py` lines 286-293: a parenthesized
expression (or `Unit` for an empty group), its span overwritten to cover
both parentheses. -/
def parse_group : Nat → List Token → Except ParseError (ASTNode × List Token)
  | 0, _ => .error .outOfFuel
  | fuel+1, ts => do
    let (start_token, ts1) ← consume ts [.lparen]
    let (expr, ts2) ←
      if peek ts1 [.rparen] then pure ((ASTNode.Unit (0, 0) : ASTNode), ts1)
      else parse_expr fuel 0 ts1
    let (end_token, ts3) ← consume ts2 [.rparen]
    .ok (expr.withSpan (merge start_token.span end_token.span), ts3)

/-- `prefix_parsers` from `src/hanno/parse.py` lines 296-310: the prefix
dispatch table; `none` for token types with no registered handler (and at
zero fuel, where the embedding cannot call into the handlers). -/
def prefix_parsers : Nat → TokenTypes →
    Option (List Token → Except ParseError (ASTNode × List Token))
  | 0, _ => none
  | fuel+1, tt =>
    match tt with
    | .if_ => some (parse_if fuel)
    | .bslash => some (parse_func fuel)
    | .name_ => some parse_name
    | .lbracket => some (parse_list fuel)
    | .lparen => some (parse_group fuel)
    | .let_ => some (parse_define fuel)
    | .not_ => some (parse_not fuel)
    | .dash => some (parse_negate fuel)
    | .false_ => some parse_scalar
    | .float_ => some parse_scalar
    | .integer => some parse_scalar
    | .string => some parse_scalar
    | .true_ => some parse_scalar
    | _ => none

/-- `infix_parsers` from `src/hanno/parse.py` lines 311-330: the infix
dispatch table; `fslash` is the one right-associative operator. -/
def infix_parsers : Nat → TokenTypes →
    Option (ASTNode → List Token → Except ParseError (ASTNode × List Token))
  | 0, _ => none
  | fuel+1, tt =>
    match tt with
    | .and_ => some (build_infix_op fuel .and_ false)
    | .or_ => some (build_infix_op fuel .or_ false)
    | .greater => some (build_infix_op fuel .greater false)
    | .less => some (build_infix_op fuel .less false)
    | .greater_equal => some (build_infix_op fuel .greater_equal false)
    | .less_equal => some (build_infix_op fuel .less_equal false)
    | .equal => some (build_infix_op fuel .equal false)
    | .question_equal => some (build_infix_op fuel .question_equal false)
    | .plus => some (build_infix_op fuel .plus false)
    | .dash => some (build_infix_op fuel .dash false)
    | .diamond => some (build_infix_op fuel .diamond false)
    | .fslash => some (build_infix_op fuel .fslash true)
    | .asterisk => some (build_infix_op fuel .asterisk false)
    | .percent => some (build_infix_op fuel .percent false)
    | .caret => some (build_infix_op fuel .caret false)
    | .lparen => some (parse_apply fuel)
    | .dot => some (fun left ts => parse_dot left ts)
    | .comma => some (parse_pair fuel)
    | _ => none

/-- `parse_expr` from `src/hanno/parse.py` lines 358-376: fail with
`UnexpectedEOFError` on an empty stream, with `UnexpectedTokenError` when the
current token has no prefix handler; otherwise run the handler and enter the
infix loop. -/
def parse_expr : Nat → Int → List Token →
    Except ParseError (ASTNode × List Token)
  | 0, _, _ => .error .outOfFuel
  | fuel+1, current_precedence, ts =>
    match preview ts with
    | none => .error .UnexpectedEOFError
    | some first_token =>
      match prefix_parsers fuel first_token.type_ with
      | none => .error (.UnexpectedTokenError first_token [])
      | some prefix_handler => do
        let (left, ts1) ← prefix_handler ts
        parseExprLoop fuel current_precedence left ts1

/-- The `while` loop of `parse_expr` (lines 368-375): as long as the upcoming
token's binding power (default -1) exceeds `current_precedence` and it has an
infix handler, run the handler and continue with the combined node. -/
def parseExprLoop : Nat → Int → ASTNode → List Token →
    Except ParseError (ASTNode × List Token)
  | 0, _, _, _ => .error .outOfFuel
  | fuel+1, current_precedence, left, ts =>
    match preview ts with
    | none => .ok (left, ts)
    | some op =>
      if ((precedence_table op.type_).getD (-1)) > current_precedence then
        match infix_parsers fuel op.type_ with
        | none => .ok (left, ts)
        | some infix_handler => do
          let (left', ts1) ← infix_handler left ts
          parseExprLoop fuel current_precedence left' ts1
      else .ok (left, ts)

/-- The `while stream` loop of `parse` (`src/hanno/parse.py` lines 393-402)
with accumulator `exprs`: parse an expression and its mandatory `eol` until
the stream runs out, then return `Unit (0,0)` for zero expressions, the lone
expression unwrapped, or a `Block` spanning the first and last. -/
def parseLoop : Nat → List ASTNode → List Token →
    Except ParseError ASTNode
  | 0, _, _ => .error .outOfFuel
  | fuel+1, exprs, ts =>
    match ts with
    | [] =>
      match exprs with
      | [] => .ok (.Unit (0, 0))
      | [e] => .ok e
      | e :: _ => .ok (.Block (merge e.span ((exprs.getLastD e).span)) exprs)
    | _ :: _ => do
      let (expr, ts1) ← parse_expr fuel 0 ts
      let (_, ts2) ← consume ts1 [.eol]
      parseLoop fuel (exprs ++ [expr]) ts2

end

/-- `parse` from `src/hanno/parse.py` lines 379-402: the top-level entry
point, starting the program loop with no accumulated expressions. -/
def parse (fuel : Nat) (stream : List Token) : Except ParseError ASTNode :=
  parseLoop fuel [] stream

/-- The list of top-level expressions of a stream, written as a direct
recursion (no accumulator): each expression is parsed at binding power 0 and
closed by a mandatory `eol`.  `parse` is this list routed through the
0/1/many switch (proved below), which is how claims about "the expressions
the stream contains" are phrased. -/
def topExprs : Nat → List Token → Except ParseError (List ASTNode)
  | 0, _ => .error .outOfFuel
  | _+1, [] => .ok []
  | fuel+1, t :: ts => do
    let (expr, ts1) ← parse_expr fuel 0 (t :: ts)
    let (_, ts2) ← consume ts1 [.eol]
    let rest ← topExprs fuel ts2
    .ok (expr :: rest)

/-! ## Span checkers -/

/-- The spans of a node's immediate children. -/
def childSpans : ASTNode → List Span
  | .Name _ _ => []
  | .TypedName _ _ _ => []
  | .Scalar _ _ => []
  | .Unit _ => []
  | .Apply _ f a => [f.span, a.span]
  | .Function _ p b => [p.span, b.span]
  | .Define _ t v => [t.span, v.span]
  | .TypedDefine _ _ t v => [t.span, v.span]
  | .Cond _ p c e => [p.span, c.span, e.span]
  | .Block _ body => body.map ASTNode.span
  | .List _ elements => elements.map ASTNode.span
  | .Pair _ f s => [f.span, s.span]

/-- One node's span equals the merge (min of starts, max of ends) of its
children's spans; leaves hold trivially. -/
def spanIsChildMerge (n : ASTNode) : Bool :=
  match childSpans n with
  | [] => true
  | s :: ss => n.span == ss.foldl merge s

/-- One node's span contains every child's span. -/
def spanCoversChildren (n : ASTNode) : Bool :=
  (childSpans n).all fun c => decide (n.span.1 ≤ c.1) && decide (c.2 ≤ n.span.2)

mutual

/-- The spec's span invariant, recursively over a whole tree: every
composite node's span is exactly the merge of its children's spans. -/
def spanInvariant : ASTNode → Bool
  | .Name _ _ => true
  | .TypedName _ _ _ => true
  | .Scalar _ _ => true
  | .Unit _ => true
  | n@(.Apply _ f a) =>
    spanIsChildMerge n && spanInvariant f && spanInvariant a
  | n@(.Function _ p b) =>
    spanIsChildMerge n && spanInvariant p && spanInvariant b
  | n@(.Define _ t v) =>
    spanIsChildMerge n && spanInvariant t && spanInvariant v
  | n@(.TypedDefine _ _ t v) =>
    spanIsChildMerge n && spanInvariant t && spanInvariant v
  | n@(.Cond _ p c e) =>
    spanIsChildMerge n && spanInvariant p && spanInvariant c && spanInvariant e
  | n@(.Block _ body) => spanIsChildMerge n && spanInvariantList body
  | n@(.List _ elements) => spanIsChildMerge n && spanInvariantList elements
  | n@(.Pair _ f s) =>
    spanIsChildMerge n && spanInvariant f && spanInvariant s

/-- `spanInvariant` over every node of a list. -/
def spanInvariantList : List ASTNode → Bool
  | [] => true
  | x :: xs => spanInvariant x && spanInvariantList xs

end

mutual

/-- The weaker containment invariant, recursively over a whole tree: every
node's span contains each of its children's spans. -/
def spanWithin : ASTNode → Bool
  | .Name _ _ => true
  | .TypedName _ _ _ => true
  | .Scalar _ _ => true
  | .Unit _ => true
  | n@(.Apply _ f a) =>
    spanCoversChildren n && spanWithin f && spanWithin a
  | n@(.Function _ p b) =>
    spanCoversChildren n && spanWithin p && spanWithin b
  | n@(.Define _ t v) =>
    spanCoversChildren n && spanWithin t && spanWithin v
  | n@(.TypedDefine _ _ t v) =>
    spanCoversChildren n && spanWithin t && spanWithin v
  | n@(.Cond _ p c e) =>
    spanCoversChildren n && spanWithin p && spanWithin c && spanWithin e
  | n@(.Block _ body) => spanCoversChildren n && spanWithinList body
  | n@(.List _ elements) => spanCoversChildren n && spanWithinList elements
  | n@(.Pair _ f s) =>
    spanCoversChildren n && spanWithin f && spanWithin s

/-- `spanWithin` over every node of a list. -/
def spanWithinList : List ASTNode → Bool
  | [] => true
  | x :: xs => spanWithin x && spanWithinList xs

end

/-! ## Concrete token streams for the example-based claims

Spans are the character offsets the lexer would assign in the quoted source
texts. -/

/-- A raw lexer stream ending in a newline-carrying whitespace token after a
name — e.g. the source text `"x\n"`. -/
def trailingWhitespaceTokens : List Token :=
  [⟨(0, 1), .name_, some "x"⟩, ⟨(1, 2), .whitespace, some "\n"⟩]

/-- A raw lexer stream holding one unmatched opening parenthesis — the
source text `"("`. -/
def lparenOnlyTokens : List Token :=
  [⟨(0, 1), .lparen, none⟩]

/-- The token stream of `"8 - 4 - 2"` (with its inferred trailing `eol`). -/
def subTokens : List Token :=
  [⟨(0, 1), .integer, some "8"⟩, ⟨(2, 3), .dash, none⟩,
   ⟨(4, 5), .integer, some "4"⟩, ⟨(6, 7), .dash, none⟩,
   ⟨(8, 9), .integer, some "2"⟩, ⟨(9, 10), .eol, none⟩]

/-- The token stream of `"8 / 4 / 2"` (with its inferred trailing `eol`). -/
def divTokens : List Token :=
  [⟨(0, 1), .integer, some "8"⟩, ⟨(2, 3), .fslash, none⟩,
   ⟨(4, 5), .integer, some "4"⟩, ⟨(6, 7), .fslash, none⟩,
   ⟨(8, 9), .integer, some "2"⟩, ⟨(9, 10), .eol, none⟩]

/-- The token stream of `"1 + 2 * 3"` (with its inferred trailing `eol`). -/
def mulAddTokens : List Token :=
  [⟨(0, 1), .integer, some "1"⟩, ⟨(2, 3), .plus, none⟩,
   ⟨(4, 5), .integer, some "2"⟩, ⟨(6, 7), .asterisk, none⟩,
   ⟨(8, 9), .integer, some "3"⟩, ⟨(9, 10), .eol, none⟩]

/-- The token stream of `"let f(a, b) = a"` (with its inferred trailing
`eol`). -/
def defineTokens : List Token :=
  [⟨(0, 3), .let_, none⟩, ⟨(4, 5), .name_, some "f"⟩,
   ⟨(5, 6), .lparen, none⟩, ⟨(6, 7), .name_, some "a"⟩,
   ⟨(7, 8), .comma, none⟩, ⟨(9, 10), .name_, some "b"⟩,
   ⟨(10, 11), .rparen, none⟩, ⟨(12, 13), .equal, none⟩,
   ⟨(14, 15), .name_, some "a"⟩, ⟨(15, 16), .eol, none⟩]

/-- The token stream of `"(1 + 2)"` (with its inferred trailing `eol`). -/
def groupTokens : List Token :=
  [⟨(0, 1), .lparen, none⟩, ⟨(1, 2), .integer, some "1"⟩,
   ⟨(3, 4), .plus, none⟩, ⟨(5, 6), .integer, some "2"⟩,
   ⟨(6, 7), .rparen, none⟩, ⟨(7, 8), .eol, none⟩]

/-- The tree the parser yields for `groupTokens`: the group's span is
overwritten to `(0, 7)`, covering both parentheses, while its children's
spans merge to only `(1, 6)`. -/
def groupTree : ASTNode :=
  .Apply (0, 7)
    (.Apply (1, 4) (.Name (3, 4) (some "+")) (.Scalar (1, 2) (.int 1)))
    (.Scalar (5, 6) (.int 2))

/-- The token stream of `"let x = 1\nlet y = 2\n"` after EOL inference. -/
def twoDefinesTokens : List Token :=
  [⟨(0, 3), .let_, none⟩, ⟨(4, 5), .name_, some "x"⟩,
   ⟨(6, 7), .equal, none⟩, ⟨(8, 9), .integer, some "1"⟩,
   ⟨(9, 10), .eol, none⟩,
   ⟨(10, 13), .let_, none⟩, ⟨(14, 15), .name_, some "y"⟩,
   ⟨(16, 17), .equal, none⟩, ⟨(18, 19), .integer, some "2"⟩,
   ⟨(19, 20), .eol, none⟩]

/-- The two `Define` nodes parsed from `twoDefinesTokens`. -/
def defineX : ASTNode :=
  .Define (0, 9) (.Name (4, 5) (some "x")) (.Scalar (8, 9) (.int 1))

/-- The second of the two `Define` nodes parsed from `twoDefinesTokens`. -/
def defineY : ASTNode :=
  .Define (10, 19) (.Name (14, 15) (some "y")) (.Scalar (18, 19) (.int 2))

/-- The tree parsed from `subTokens`: the left-associative grouping
`(8 - 4) - 2`, i.e. the inner subtraction sits as the *left* operand of the
outer one. -/
def subTree : ASTNode :=
  .Apply (0, 9)
    (.Apply (0, 7) (.Name (6, 7) (some "-"))
      (.Apply (0, 5)
        (.Apply (0, 3) (.Name (2, 3) (some "-")) (.Scalar (0, 1) (.int 8)))
        (.Scalar (4, 5) (.int 4))))
    (.Scalar (8, 9) (.int 2))

/-- The tree parsed from `divTokens`: the right-associative grouping
`8 / (4 / 2)`, i.e. the inner division sits as the *right* operand of the
outer one. -/
def divTree : ASTNode :=
  .Apply (0, 9)
    (.Apply (0, 3) (.Name (2, 3) (some "/")) (.Scalar (0, 1) (.int 8)))
    (.Apply (4, 9)
      (.Apply (4, 7) (.Name (6, 7) (some "/")) (.Scalar (4, 5) (.int 4)))
      (.Scalar (8, 9) (.int 2)))

/-- The tree parsed from `mulAddTokens`:
`Apply(Apply(+, 1), Apply(Apply(*, 2), 3))`, the multiplication as the right
operand of the addition. -/
def mulAddTree : ASTNode :=
  .Apply (0, 9)
    (.Apply (0, 3) (.Name (2, 3) (some "+")) (.Scalar (0, 1) (.int 1)))
    (.Apply (4, 9)
      (.Apply (4, 7) (.Name (6, 7) (some "*")) (.Scalar (4, 5) (.int 2)))
      (.Scalar (8, 9) (.int 3)))

/-- The tree parsed from `defineTokens`:
`Define(f, Function(a, Function(b, a)))`, the first parameter outermost. -/
def defineTree : ASTNode :=
  .Define (0, 15) (.Name (4, 5) (some "f"))
    (.Function (4, 15) (.Name (6, 7) (some "a"))
      (.Function (4, 15) (.Name (9, 10) (some "b")) (.Name (14, 15) (some "a"))))

/-- The 0/1/many switch at the end of `parse` (`src/hanno/parse.py` lines
398-402), as a standalone function on the collected expression list. -/
def blockify (exprs : List ASTNode) : ASTNode :=
  match exprs with
  | [] => .Unit (0, 0)
  | [e] => e
  | e :: _ => .Block (merge e.span ((exprs.getLastD e).span)) exprs

/-! ## Span bookkeeping for the containment invariant -/

mutual

/-- Every span occurring in a tree: the node's own and its descendants'. -/
def allSpans : ASTNode → List Span
  | .Name s _ => [s]
  | .TypedName s _ _ => [s]
  | .Scalar s _ => [s]
  | .Unit s => [s]
  | .Apply s f a => s :: (allSpans f ++ allSpans a)
  | .Function s p b => s :: (allSpans p ++ allSpans b)
  | .Define s t v => s :: (allSpans t ++ allSpans v)
  | .TypedDefine s _ t v => s :: (allSpans t ++ allSpans v)
  | .Cond s p c e => s :: (allSpans p ++ allSpans c ++ allSpans e)
  | .Block s body => s :: allSpansListA body
  | .List s elements => s :: allSpansListA elements
  | .Pair s f sec => s :: (allSpans f ++ allSpans sec)

/-- `allSpans` over a list of nodes. -/
def allSpansListA : List ASTNode → List Span
  | [] => []
  | x :: xs => allSpans x ++ allSpansListA xs

end

/-- The start of a stream's first token (`dflt` when empty). -/
def headStart (ts : List Token) (dflt : Int) : Int :=
  match ts.head? with
  | some t => t.span.1
  | none => dflt

/-- The end of a stream's first token (`dflt` when empty). -/
def upTo (ts : List Token) (dflt : Int) : Int :=
  match ts.head? with
  | some t => t.span.2
  | none => dflt

/-- A well-formed lexer stream: each token's span is an ordered interval and
consecutive tokens do not overlap. -/
def SortedTokens (ts : List Token) : Prop :=
  (∀ t ∈ ts, t.span.1 ≤ t.span.2) ∧
  ts.Chain' (fun a b => a.span.2 ≤ b.span.1)

/-- `lo` is at or before the start of every token of the stream. -/
def LoBound (lo : Int) (ts : List Token) : Prop :=
  ∀ t ∈ ts, lo ≤ t.span.1

/-- `hi` is at or after the end of every token of the stream. -/
def HiBound (hi : Int) (ts : List Token) : Prop :=
  ∀ t ∈ ts, t.span.2 ≤ hi

/-- All listed spans are ordered intervals inside `[lo, bound]`. -/
def SpansIn (lo bound : Int) (sps : List Span) : Prop :=
  ∀ sp ∈ sps, lo ≤ sp.1 ∧ sp.1 ≤ sp.2 ∧ sp.2 ≤ bound

/-- The containment conclusion for one parsed node: every span in the tree
contains its children's spans, and all spans are ordered intervals between
`lo` and `bound`. -/
def NodeOk (lo bound : Int) (n : ASTNode) : Prop :=
  spanWithin n = true ∧ SpansIn lo bound (allSpans n)

/-- The containment conclusion for a parsed list of nodes. -/
def ListOk (lo bound : Int) (ns : List ASTNode) : Prop :=
  spanWithinList ns = true ∧ SpansIn lo bound (allSpansListA ns)

/-- `ListOk` plus block ordering: every span of each expression ends at or
before the start of the next expression's span. -/
def ChainOk (lo bound : Int) (ns : List ASTNode) : Prop :=
  ListOk lo bound ns ∧
  ns.Chain' (fun a b => ∀ sp ∈ allSpans a, sp.2 ≤ b.span.1)

/-- The invariant shape of a parser function that consumes from the stream
and returns one node. -/
def StreamFnOk (f : List Token → Except ParseError (ASTNode × List Token)) :
    Prop :=
  ∀ lo hi ts n rest, SortedTokens ts → LoBound lo ts → HiBound hi ts →
    f ts = .ok (n, rest) →
    rest <:+ ts ∧ NodeOk lo (upTo rest hi) n

/-- `StreamFnOk` plus: the produced node's span starts at or before the
stream's first token — the shape of the handlers in the prefix table. -/
def PrefixFnOk (f : List Token → Except ParseError (ASTNode × List Token)) :
    Prop :=
  ∀ lo hi ts n rest, SortedTokens ts → LoBound lo ts → HiBound hi ts →
    f ts = .ok (n, rest) →
    rest <:+ ts ∧ NodeOk lo (upTo rest hi) n ∧ n.span.1 ≤ headStart ts hi

/-- The invariant shape of the infix-table handlers, which combine an
already-parsed `left` node (lying entirely before the stream) with more
consumed tokens. -/
def InfixFnOk
    (f : ASTNode → List Token → Except ParseError (ASTNode × List Token)) :
    Prop :=
  ∀ lo hi ts left n rest, SortedTokens ts → LoBound lo ts → HiBound hi ts →
    spanWithin left = true → SpansIn lo (upTo ts hi) (allSpans left) →
    left.span.1 ≤ headStart ts hi →
    f left ts = .ok (n, rest) →
    rest <:+ ts ∧ NodeOk lo (upTo rest hi) n ∧ n.span.1 ≤ left.span.1

/-- The invariant shape of a parser function returning a list of nodes. -/
def ListFnOk
    (f : List Token → Except ParseError (List ASTNode × List Token)) : Prop :=
  ∀ lo hi ts ns rest, SortedTokens ts → LoBound lo ts → HiBound hi ts →
    f ts = .ok (ns, rest) →
    rest <:+ ts ∧ ListOk lo (upTo rest hi) ns

/-- The invariant shape of `parseBlockItems`, whose expressions are
additionally ordered (each closed by its `eol` before the next starts). -/
def ChainFnOk
    (f : List Token → Except ParseError (List ASTNode × List Token)) : Prop :=
  ∀ lo hi ts ns rest, SortedTokens ts → LoBound lo ts → HiBound hi ts →
    f ts = .ok (ns, rest) →
    rest <:+ ts ∧ ChainOk lo (upTo rest hi) ns

/-- The invariant shape of the type-level parsers: they only consume a
prefix (types never enter `allSpans`). -/
def SuffixFnOk {α : Type}
    (f : List Token → Except ParseError (α × List Token)) : Prop :=
  ∀ ts r rest, f ts = .ok (r, rest) → rest <:+ ts

/-- The span-containment invariant of every recursive parser function at one
fuel value. -/
structure ParserInv (fuel : Nat) : Prop where
  ptype : SuffixFnOk (parse_type fuel)
  ptuple : SuffixFnOk (parse_tuple_type fuel)
  ptupleElems : SuffixFnOk (parseTupleTypeElems fuel)
  pgeneric : SuffixFnOk (parse_generic_type fuel)
  pgenericArgs : ∀ t0, SuffixFnOk (parseGenericTypeArgs fuel t0)
  pbody : StreamFnOk (parse_body_section fuel)
  pblock : ∀ ends, StreamFnOk (parse_block fuel ends)
  pblockItems : ∀ ends, ChainFnOk (parseBlockItems fuel ends)
  pelements : ∀ ends, ListFnOk (parse_elements fuel ends)
  pparamsLoop : ListFnOk (parseParametersLoop fuel)
  pparams : ListFnOk (parse_parameters fuel)
  pinfixOp : ∀ tt ra, InfixFnOk (build_infix_op fuel tt ra)
  papply : InfixFnOk (parse_apply fuel)
  ppair : InfixFnOk (parse_pair fuel)
  pexprLoop : ∀ prec, InfixFnOk (fun left ts => parseExprLoop fuel prec left ts)
  pexpr : ∀ prec, PrefixFnOk (parse_expr fuel prec)
  pdefine : PrefixFnOk (parse_define fuel)
  pfunc : PrefixFnOk (parse_func fuel)
  pif : PrefixFnOk (parse_if fuel)
  plist : PrefixFnOk (parse_list fuel)
  pnegate : PrefixFnOk (parse_negate fuel)
  pnot : PrefixFnOk (parse_not fuel)
  pgroup : PrefixFnOk (parse_group fuel)

/-! ## Theorems -/

/-- C1: the claim says `insert_eols` output never holds two consecutive
`eol` tokens.  The code violates it: on a stream ending in an eol-triggering
whitespace token the trailing-eol check of lines 126-129 inspects the leaked
loop variable `token` (the raw whitespace) instead of the last *forwarded*
token (the just-inserted `eol`), so a second `eol` is appended right after
the first.  This theorem evaluates the code at that failing input. -/
theorem insert_eols_trailing_double_eol :
    insert_eols trailingWhitespaceTokens =
      [⟨(0, 1), .name_, some "x"⟩, ⟨(1, 2), .eol, none⟩, ⟨(2, 3), .eol, none⟩] ∧
    hasConsecutiveEols (insert_eols trailingWhitespaceTokens) = true :=
  ⟨rfl, rfl⟩

/-- C2 (counterexample): the claim says every composite node's span equals
the merge of its children's spans, recursively.  Parsing `"(1 + 2)"` refutes
it: `parse_group` overwrites the inner application's span to `(0, 7)` (both
parentheses included) while its children's spans merge to `(1, 6)` only. -/
theorem parse_group_breaks_span_equality :
    parse 30 groupTokens = .ok groupTree ∧ spanInvariant groupTree = false :=
  ⟨rfl, rfl⟩

/-- C4: `"8 - 4 - 2"` parses left-associatively to `(8 - 4) - 2`, while the
right-associative `fslash` operator parses `"8 / 4 / 2"` to `8 / (4 / 2)`;
`fslash` is registered in `infix_parsers` with `right_associative=True`,
which makes `build_infix_op` parse the right operand at binding power 89,
one less than the operator's 90. -/
theorem parse_sub_left_div_right :
    parse 30 subTokens = .ok subTree ∧ parse 30 divTokens = .ok divTree :=
  ⟨rfl, rfl⟩

/-- C5: `"1 + 2 * 3"` parses to `Apply(Apply(+, 1), Apply(Apply(*, 2), 3))` —
the multiplication binds tighter and sits as the right operand of the
addition — per the precedence table entries `asterisk = 90 > plus = 80`. -/
theorem parse_precedence_mul_over_add :
    parse 30 mulAddTokens = .ok mulAddTree ∧
    precedence_table .asterisk = some 90 ∧
    precedence_table .plus = some 80 :=
  ⟨rfl, rfl, rfl⟩

/-- C6: `Function.curry` puts the first parameter outermost — on a non-empty
parameter list it wraps the curried rest in a `Function` taking the head
parameter — and parsing `"let f(a, b) = a"` yields
`Define(f, Function(a, Function(b, a)))`. -/
theorem curry_first_param_outermost :
    (∀ (span : Span) (p : ASTNode) (ps : List ASTNode) (body : ASTNode),
      Function.curry span (p :: ps) body =
        .Function span p (Function.curry span ps body)) ∧
    parse 30 defineTokens = .ok defineTree := by
  refine ⟨fun span p ps body => ?_, rfl⟩
  simp [Function.curry, List.reverse_cons, List.foldl_append]

/-- C9: `parse_expr` fails with `UnexpectedEOFError` (carrying no token)
when no token remains, and with `UnexpectedTokenError` carrying the
offending token when the current token's type has no entry in the prefix
table. -/
theorem parse_expr_error_cases :
    (∀ (fuel : Nat) (prec : Int),
      parse_expr (fuel + 1) prec [] = .error .UnexpectedEOFError) ∧
    (∀ (fuel : Nat) (prec : Int) (t : Token) (rest : List Token),
      prefix_parsers (fuel + 1) t.type_ = none →
      parse_expr (fuel + 2) prec (t :: rest) =
        .error (.UnexpectedTokenError t [])) := by
  refine ⟨fun fuel prec => rfl, fun fuel prec t rest h => ?_⟩
  simp [parse_expr, preview, h]

/-- Witness for C9's theorem: the empty stream, and a stream headed by a
closing parenthesis — a token type with no prefix entry. -/
theorem parse_expr_error_cases_witness :
    parse_expr 1 0 [] = .error .UnexpectedEOFError ∧
    parse_expr 2 0 [⟨(0, 1), .rparen, none⟩] =
      .error (.UnexpectedTokenError ⟨(0, 1), .rparen, none⟩ []) :=
  ⟨parse_expr_error_cases.1 0 0,
    parse_expr_error_cases.2 0 0 ⟨(0, 1), .rparen, none⟩ [] rfl⟩

/-- C10: `parse_apply` on an empty argument list returns the callee node
itself — no `Apply` is built, no `Unit` argument is substituted — with its
span overwritten to the merge of the callee's span and the closing
parenthesis's span. -/
theorem parse_apply_empty_args_returns_callee :
    ∀ (fuel : Nat) (left : ASTNode) (lp rp : Token) (rest : List Token),
      lp.type_ = .lparen → rp.type_ = .rparen →
      parse_apply (fuel + 2) left (lp :: rp :: rest) =
        .ok (left.withSpan (merge left.span rp.span), rest) := by
  intro fuel left lp rp rest h1 h2
  obtain ⟨ls, lt, lv⟩ := lp
  obtain ⟨rs, rt, rv⟩ := rp
  subst h1
  subst h2
  rfl

/-- Witness for C10's theorem: `"f()"` returns the `Name` node for `f` with
its span widened over the whole call. -/
theorem parse_apply_empty_args_returns_callee_witness :
    parse_apply 2 (ASTNode.Name (0, 1) (some "f"))
        [⟨(1, 2), .lparen, none⟩, ⟨(2, 3), .rparen, none⟩] =
      .ok (.Name (0, 3) (some "f"), []) :=
  parse_apply_empty_args_returns_callee 0 (ASTNode.Name (0, 1) (some "f"))
    ⟨(1, 2), .lparen, none⟩ ⟨(2, 3), .rparen, none⟩ [] rfl rfl

/-- The step equation of the loop at an eol-triggering whitespace token. -/
theorem insertEolsLoop_cons_ws_ins (prev t : Token) (depth : Int)
    (rest : List Token) (hx : t.type_ = .whitespace)
    (hc : can_add_eol prev t rest.head? depth = true) :
    insertEolsLoop prev depth (t :: rest) =
      (⟨t.span, .eol, none⟩ ::
          (insertEolsLoop ⟨t.span, .eol, none⟩ depth rest).1,
        (insertEolsLoop ⟨t.span, .eol, none⟩ depth rest).2) := by
  rw [insertEolsLoop]
  simp [hx, hc]

/-- The step equation of the loop at a dropped whitespace token. -/
theorem insertEolsLoop_cons_ws_skip (prev t : Token) (depth : Int)
    (rest : List Token) (hx : t.type_ = .whitespace)
    (hc : ¬ can_add_eol prev t rest.head? depth = true) :
    insertEolsLoop prev depth (t :: rest) = insertEolsLoop prev depth rest := by
  rw [insertEolsLoop]
  simp [hx, hc]

/-- The step equation of the loop at a forwarded (non-whitespace) token. -/
theorem insertEolsLoop_cons_fwd (prev t : Token) (depth : Int)
    (rest : List Token) (hx : t.type_ ≠ .whitespace) :
    insertEolsLoop prev depth (t :: rest) =
      (t :: (insertEolsLoop t (depth + bracketDelta t) rest).1,
        (insertEolsLoop t (depth + bracketDelta t) rest).2) := by
  rw [insertEolsLoop]
  simp [hx]

/-- The loop of `insert_eols` never forwards a whitespace token. -/
theorem insertEolsLoop_no_ws (ts : List Token) : ∀ (prev : Token) (depth : Int),
    ∀ t ∈ (insertEolsLoop prev depth ts).1, t.type_ ≠ .whitespace := by
  induction ts with
  | nil => intro prev depth t ht; simp [insertEolsLoop] at ht
  | cons x rest ih =>
    intro prev depth t ht
    by_cases hx : x.type_ = .whitespace
    · by_cases hc : can_add_eol prev x rest.head? depth = true
      · rw [insertEolsLoop_cons_ws_ins prev x depth rest hx hc] at ht
        simp only [List.mem_cons] at ht
        rcases ht with h | h
        · subst h; simp
        · exact ih _ _ t h
      · rw [insertEolsLoop_cons_ws_skip prev x depth rest hx hc] at ht
        exact ih _ _ t ht
    · rw [insertEolsLoop_cons_fwd prev x depth rest hx] at ht
      simp only [List.mem_cons] at ht
      rcases ht with h | h
      · subst h; exact hx
      · exact ih _ _ t h

/-- On a whitespace-free input the loop forwards every token unchanged, and
the final `prev_token` is the input's last token (or the initial `prev` when
the input is empty). -/
theorem insertEolsLoop_id (ts : List Token) : ∀ (prev : Token) (depth : Int),
    (∀ t ∈ ts, t.type_ ≠ .whitespace) →
    insertEolsLoop prev depth ts = (ts, ts.getLastD prev) := by
  induction ts with
  | nil => intro prev depth _; simp [insertEolsLoop, List.getLastD]
  | cons x rest ih =>
    intro prev depth h
    have hx : x.type_ ≠ .whitespace := h x (by simp)
    have hrest : ∀ t ∈ rest, t.type_ ≠ .whitespace :=
      fun t ht => h t (by simp [ht])
    rw [insertEolsLoop_cons_fwd prev x depth rest hx,
      ih x (depth + bracketDelta x) hrest, List.getLastD_cons]

/-- When the input's last token is not whitespace, it is also the last token
the loop outputs. -/
theorem insertEolsLoop_getLast (ts : List Token) :
    ∀ (prev : Token) (depth : Int) (lt : Token),
    ts.getLast? = some lt → lt.type_ ≠ .whitespace →
    ((insertEolsLoop prev depth ts).1).getLast? = some lt := by
  induction ts with
  | nil => intro prev depth lt hl _; simp at hl
  | cons x rest ih =>
    intro prev depth lt hl hw
    cases rest with
    | nil =>
      simp only [List.getLast?_singleton, Option.some_inj] at hl
      subst hl
      rw [insertEolsLoop_cons_fwd prev x depth [] hw]
      simp [insertEolsLoop]
    | cons y rest' =>
      have hl' : (y :: rest').getLast? = some lt := by
        rw [← List.getLast?_cons_cons (a := x)]; exact hl
      by_cases hx : x.type_ = .whitespace
      · by_cases hc : can_add_eol prev x (y :: rest').head? depth = true
        · rw [insertEolsLoop_cons_ws_ins prev x depth (y :: rest') hx hc]
          simp only [List.getLast?_cons, ih _ _ lt hl' hw]
          rfl
        · rw [insertEolsLoop_cons_ws_skip prev x depth (y :: rest') hx hc]
          exact ih _ _ lt hl' hw
      · rw [insertEolsLoop_cons_fwd prev x depth (y :: rest') hx]
        simp only [List.getLast?_cons, ih _ _ lt hl' hw]
        rfl

/-- `insert_eols` never outputs a whitespace token. -/
theorem insert_eols_no_ws (ts : List Token) :
    ∀ t ∈ insert_eols ts, t.type_ ≠ .whitespace := by
  intro t ht
  unfold insert_eols at ht
  cases h : ts.getLast? with
  | none => rw [h] at ht; simp at ht
  | some lastRaw =>
    rw [h] at ht
    rcases List.mem_append.mp ht with hm | hm
    · exact insertEolsLoop_no_ws ts _ _ t hm
    · by_cases he : lastRaw.type_ = .eol
      · simp [he] at hm
      · simp only [beq_iff_eq, he, if_false, List.mem_singleton] at hm
        subst hm; simp

/-- A non-empty stream's `insert_eols` output ends in an `eol` token. -/
theorem insert_eols_getLast_eol (ts : List Token) (h : ts ≠ []) :
    ∃ t, (insert_eols ts).getLast? = some t ∧ t.type_ = .eol := by
  cases hl : ts.getLast? with
  | none => exact absurd (List.getLast?_eq_none_iff.mp hl) h
  | some lastRaw =>
    unfold insert_eols
    rw [hl]
    by_cases he : lastRaw.type_ = .eol
    · refine ⟨lastRaw, ?_, he⟩
      simp only [beq_iff_eq, he, if_true, List.append_nil]
      exact insertEolsLoop_getLast ts _ _ lastRaw hl (by rw [he]; simp)
    · refine ⟨⟨((insertEolsLoop ⟨(0, 0), .eol, none⟩ 0 ts).2.span.2,
          (insertEolsLoop ⟨(0, 0), .eol, none⟩ 0 ts).2.span.2 + 1),
          .eol, none⟩, ?_, rfl⟩
      simp only [beq_iff_eq, he, if_false]
      exact List.getLast?_concat _

/-- C8: running `insert_eols` on its own output changes nothing: the output
holds no whitespace token that could trigger an insertion, and when
non-empty it already ends in an `eol`, so the trailing-eol branch does not
fire either. -/
theorem insert_eols_idempotent (ts : List Token) :
    insert_eols (insert_eols ts) = insert_eols ts := by
  by_cases h : ts = []
  · subst h; rfl
  · obtain ⟨lt, hlast, heol⟩ := insert_eols_getLast_eol ts h
    conv_lhs => rw [insert_eols]
    rw [hlast]
    rw [insertEolsLoop_id _ _ _ (insert_eols_no_ws ts)]
    simp [heol]

/-- Shifting the start value of the bracket-depth fold. -/
theorem foldl_bracketDelta_shift (xs : List Token) : ∀ d : Int,
    xs.foldl (fun a t => a + bracketDelta t) d = d + bracketDepth xs := by
  induction xs with
  | nil => intro d; simp [bracketDepth]
  | cons x xs ih =>
    intro d
    simp only [bracketDepth, List.foldl_cons] at *
    rw [ih (d + bracketDelta x), ih (0 + bracketDelta x)]
    omega

/-- The bracket depth of a concatenation is the sum of the depths. -/
theorem bracketDepth_append (xs ys : List Token) :
    bracketDepth (xs ++ ys) = bracketDepth xs + bracketDepth ys := by
  simp only [bracketDepth, List.foldl_append]
  rw [foldl_bracketDelta_shift ys]
  simp only [bracketDepth]

/-- Splitting the depth-zero check over a concatenation. -/
theorem eolsFromDepth_append (xs ys : List Token) : ∀ d : Int,
    eolsFromDepth d (xs ++ ys) =
      (eolsFromDepth d xs && eolsFromDepth (d + bracketDepth xs) ys) := by
  induction xs with
  | nil => intro d; simp [eolsFromDepth, bracketDepth]
  | cons x xs ih =>
    intro d
    simp only [List.cons_append, eolsFromDepth, List.append_eq]
    rw [ih (d + bracketDelta x)]
    have h1 : bracketDepth (x :: xs) = bracketDelta x + bracketDepth xs := by
      show List.foldl (fun a t => a + bracketDelta t) 0 (x :: xs) = _
      rw [List.foldl_cons, foldl_bracketDelta_shift xs (0 + bracketDelta x)]
      omega
    have hb : d + bracketDelta x + bracketDepth xs =
        d + bracketDepth (x :: xs) := by
      rw [h1]; omega
    rw [hb, Bool.and_assoc]

/-- On an `eol`-free input, every token the loop emits at an `eol` type was
emitted while the running bracket depth was zero (the `stack_size == 0`
conjunct of `can_add_eol`). -/
theorem insertEolsLoop_eols_depth (ts : List Token) :
    ∀ (prev : Token) (d : Int),
    (∀ t ∈ ts, t.type_ ≠ .eol) →
    eolsFromDepth d (insertEolsLoop prev d ts).1 = true := by
  induction ts with
  | nil => intro prev d _; simp [insertEolsLoop, eolsFromDepth]
  | cons x rest ih =>
    intro prev d h
    have hrest : ∀ t ∈ rest, t.type_ ≠ .eol := fun t ht => h t (by simp [ht])
    by_cases hx : x.type_ = .whitespace
    · by_cases hc : can_add_eol prev x rest.head? d = true
      · have hd : d = 0 := by
          unfold can_add_eol at hc
          simp only [Bool.and_eq_true, beq_iff_eq] at hc
          exact hc.1.1.1
        subst hd
        rw [insertEolsLoop_cons_ws_ins prev x 0 rest hx hc]
        have hhead : eolsFromDepth 0
            (⟨x.span, .eol, none⟩ ::
              (insertEolsLoop ⟨x.span, .eol, none⟩ 0 rest).1) =
            eolsFromDepth 0 (insertEolsLoop ⟨x.span, .eol, none⟩ 0 rest).1 := by
          rw [eolsFromDepth]
          simp [bracketDelta, OPENERS, CLOSERS]
        rw [hhead]
        exact ih _ 0 hrest
      · rw [insertEolsLoop_cons_ws_skip prev x d rest hx hc]
        exact ih prev d hrest
    · have hxe : x.type_ ≠ .eol := h x (by simp)
      rw [insertEolsLoop_cons_fwd prev x d rest hx]
      have hhead : eolsFromDepth d
          (x :: (insertEolsLoop x (d + bracketDelta x) rest).1) =
          eolsFromDepth (d + bracketDelta x)
            (insertEolsLoop x (d + bracketDelta x) rest).1 := by
        rw [eolsFromDepth]
        simp [hxe]
      rw [hhead]
      exact ih x (d + bracketDelta x) hrest

/-- C7 (counterexample): the claim says every `eol`, the trailing
synthesized one included, is emitted at bracket depth 0.  On the stream
holding one unmatched `lparen` the trailing `eol` is emitted at depth 1. -/
theorem insert_eols_trailing_eol_nonzero_depth :
    insert_eols lparenOnlyTokens =
      [⟨(0, 1), .lparen, none⟩, ⟨(1, 2), .eol, none⟩] ∧
    eolsFromDepth 0 (insert_eols lparenOnlyTokens) = false :=
  ⟨rfl, rfl⟩

/-- C7 (amended): on `eol`-free input (as the lexer produces), every `eol`
except possibly the final trailing one is emitted at bracket depth 0; and
whenever the output's net bracket depth is 0 — in particular for
bracket-balanced programs — every `eol` including the trailing one is
emitted at depth 0. -/
theorem insert_eols_depth_zero_except_trailing :
    ∀ ts : List Token, (∀ t ∈ ts, t.type_ ≠ .eol) →
    eolsFromDepth 0 (insert_eols ts).dropLast = true ∧
    (bracketDepth (insert_eols ts) = 0 →
      eolsFromDepth 0 (insert_eols ts) = true) := by
  intro ts h
  by_cases hne : ts = []
  · subst hne; exact ⟨rfl, fun _ => rfl⟩
  · cases hl : ts.getLast? with
    | none => exact absurd (List.getLast?_eq_none_iff.mp hl) hne
    | some lastRaw =>
      have hmem : lastRaw ∈ ts :=
        List.mem_of_mem_getLast? (by rw [hl]; exact Option.mem_some_iff.mpr rfl)
      have he : lastRaw.type_ ≠ .eol := h lastRaw hmem
      unfold insert_eols
      rw [hl]
      simp only [beq_iff_eq, he, if_false]
      set out := (insertEolsLoop ⟨(0, 0), .eol, none⟩ 0 ts).1 with hout
      set tr : Token :=
        ⟨((insertEolsLoop ⟨(0, 0), .eol, none⟩ 0 ts).2.span.2,
          (insertEolsLoop ⟨(0, 0), .eol, none⟩ 0 ts).2.span.2 + 1),
          .eol, none⟩ with htr
      have hloop : eolsFromDepth 0 out = true := by
        rw [hout]; exact insertEolsLoop_eols_depth ts _ 0 h
      constructor
      · rw [List.dropLast_concat]
        exact hloop
      · intro hbd
        have htr0 : bracketDelta tr = 0 := by rw [htr]; rfl
        have hb2 : bracketDepth [tr] = 0 := by
          simp [bracketDepth, htr0]
        have hbo : bracketDepth out = 0 := by
          rw [bracketDepth_append, hb2] at hbd
          omega
        rw [eolsFromDepth_append, hloop, Bool.true_and, hbo]
        rw [htr]
        simp [eolsFromDepth]

/-- Binding an `Except.ok` reduces to application. -/
theorem except_ok_bind {ε α β : Type} (a : α) (f : α → Except ε β) :
    (Except.ok a >>= f) = f a := rfl

/-- Binding an `Except.error` keeps the error. -/
theorem except_error_bind {ε α β : Type} (e : ε) (f : α → Except ε β) :
    ((Except.error e : Except ε α) >>= f) = .error e := rfl

/-- Mapping over an `Except.ok`. -/
theorem except_map_ok {ε α β : Type} (f : α → β) (a : α) :
    (Except.ok a : Except ε α).map f = .ok (f a) := rfl

/-- Mapping over an `Except.error`. -/
theorem except_map_error {ε α β : Type} (f : α → β) (e : ε) :
    (Except.error e : Except ε α).map f = .error e := rfl

/-- The accumulator loop of `parse` computes `blockify` of the accumulated
expressions followed by the directly-recursive `topExprs` of the remaining
stream (errors propagate unchanged). -/
theorem parseLoop_eq (fuel : Nat) : ∀ (ts : List Token) (acc : List ASTNode),
    parseLoop fuel acc ts =
      (topExprs fuel ts).map fun es => blockify (acc ++ es) := by
  induction fuel with
  | zero => intro ts acc; rfl
  | succ fuel ih =>
    intro ts acc
    cases ts with
    | nil =>
      cases acc with
      | nil => rfl
      | cons a rest =>
        cases rest with
        | nil => rfl
        | cons b rest' => simp [parseLoop, topExprs, blockify, Except.map]
    | cons t rest =>
      cases h1 : parse_expr fuel 0 (t :: rest) with
      | error e =>
        simp only [parseLoop, topExprs, h1, except_error_bind, except_map_error]
      | ok p =>
        obtain ⟨e, ts1⟩ := p
        cases h2 : consume ts1 [.eol] with
        | error err =>
          simp only [parseLoop, topExprs, h1, except_ok_bind, h2,
            except_error_bind, except_map_error]
        | ok q =>
          obtain ⟨tk, ts2⟩ := q
          simp only [parseLoop, topExprs, h1, except_ok_bind, h2]
          rw [ih ts2 (acc ++ [e])]
          cases h3 : topExprs fuel ts2 with
          | error e3 =>
            simp only [h3, except_error_bind, except_map_error]
          | ok es =>
            simp only [h3, except_ok_bind, except_map_ok]
            simp [List.append_assoc]

/-- C3: when the stream's top-level expression list is `es`, `parse` returns
`Unit (0,0)` for zero expressions, the single expression itself (never
wrapped in a `Block`) for one, and a `Block` whose body is `es` in encounter
order (spanning first to last) for two or more. -/
theorem parse_zero_one_many :
    ∀ (fuel : Nat) (ts : List Token) (es : List ASTNode),
      topExprs fuel ts = .ok es →
      (es = [] → parse fuel ts = .ok (.Unit (0, 0))) ∧
      (∀ e, es = [e] → parse fuel ts = .ok e) ∧
      (∀ e rest, es = e :: rest → rest ≠ [] →
        parse fuel ts = .ok (.Block (merge e.span ((es.getLastD e).span)) es)) := by
  intro fuel ts es h
  have hp : parse fuel ts = .ok (blockify es) := by
    rw [parse, parseLoop_eq fuel ts [], h, except_map_ok]
    simp
  refine ⟨?_, ?_, ?_⟩
  · intro he; subst he; simpa [blockify] using hp
  · intro e he; subst he; simpa [blockify] using hp
  · intro e rest he hne
    subst he
    cases rest with
    | nil => exact absurd rfl hne
    | cons b rest' => rw [hp]; simp [blockify]

/-- Witness for C3's theorem: the empty stream parses to `Unit`, and the
two-binding program `"let x = 1\nlet y = 2\n"` parses to a `Block` of its
two `Define` nodes in order. -/
theorem parse_zero_one_many_witness :
    parse 5 [] = .ok (.Unit (0, 0)) ∧
    parse 30 twoDefinesTokens =
      .ok (.Block (merge defineX.span (([defineX, defineY].getLastD defineX).span))
        [defineX, defineY]) :=
  ⟨(parse_zero_one_many 5 [] [] rfl).1 rfl,
    (parse_zero_one_many 30 twoDefinesTokens [defineX, defineY] rfl).2.2
      defineX [defineY] rfl (List.cons_ne_nil defineY [])⟩

/-! ### Stream helper lemmas for the containment invariant -/

/-- A successful `consume` pops exactly the head token. -/
theorem consume_ok_shape {ts : List Token} {tys : List TokenTypes} {t : Token}
    {rest : List Token} (h : consume ts tys = .ok (t, rest)) :
    ts = t :: rest := by
  cases ts with
  | nil => simp [consume] at h
  | cons x xs =>
    simp only [consume] at h
    split at h
    · simp only [Except.ok.injEq, Prod.mk.injEq] at h
      rw [h.1, h.2]
    · simp at h

/-- A positive `consume_if` pops exactly the head token. -/
theorem consume_if_true_shape {ts : List Token} {tys : List TokenTypes}
    {rest : List Token} (h : consume_if ts tys = (true, rest)) :
    ∃ t, ts = t :: rest := by
  cases ts with
  | nil => simp [consume_if] at h
  | cons x xs =>
    simp only [consume_if] at h
    split at h
    · simp only [Prod.mk.injEq] at h
      exact ⟨x, by rw [h.2]⟩
    · simp at h

/-- A negative `consume_if` leaves the stream unchanged. -/
theorem consume_if_false_shape {ts : List Token} {tys : List TokenTypes}
    {rest : List Token} (h : consume_if ts tys = (false, rest)) :
    rest = ts := by
  cases ts with
  | nil => simp only [consume_if, Prod.mk.injEq] at h; exact h.2.symm
  | cons x xs =>
    simp only [consume_if] at h
    split at h
    · simp at h
    · simp only [Prod.mk.injEq] at h; exact h.2.symm

/-- Sortedness restricts to the tail. -/
theorem SortedTokens.tail {x : Token} {xs : List Token}
    (h : SortedTokens (x :: xs)) : SortedTokens xs :=
  ⟨fun t ht => h.1 t (List.mem_cons_of_mem x ht), h.2.tail⟩

/-- Sortedness restricts to suffixes. -/
theorem SortedTokens.suffix {ts rest : List Token} (h : SortedTokens ts)
    (hs : rest <:+ ts) : SortedTokens rest := by
  obtain ⟨pre, rfl⟩ := hs
  exact ⟨fun t ht => h.1 t (by simp [ht]),
    (List.chain'_append.mp h.2).2.1⟩

/-- In a sorted stream, the head token ends at or before every later
token's start. -/
theorem sorted_head_end_le : ∀ {xs : List Token} {x : Token},
    SortedTokens (x :: xs) → ∀ t ∈ xs, x.span.2 ≤ t.span.1 := by
  intro xs
  induction xs with
  | nil => intro x _ t ht; simp at ht
  | cons y ys ih =>
    intro x h t ht
    have hxy : x.span.2 ≤ y.span.1 := h.2.rel_head
    rcases List.mem_cons.mp ht with rfl | hty
    · exact hxy
    · have hy : SortedTokens (y :: ys) := h.tail
      have h1 := ih hy t hty
      have h2 : y.span.1 ≤ y.span.2 := h.1 y (by simp)
      omega

/-- The first token of a sorted stream starts at or before every token. -/
theorem sorted_lo_head {ts : List Token} (h : SortedTokens ts) (d : Int) :
    LoBound (headStart ts d) ts := by
  intro t ht
  cases ts with
  | nil => simp at ht
  | cons x xs =>
    rcases List.mem_cons.mp ht with rfl | hmem
    · simp [headStart]
    · have h1 : x.span.2 ≤ t.span.1 := sorted_head_end_le h t hmem
      have h2 : x.span.1 ≤ x.span.2 := h.1 x (by simp)
      simp only [headStart, List.head?_cons]
      omega

/-- `upTo` stays below any stream-wide upper bound. -/
theorem upTo_le_hi {rest : List Token} {hi : Int} (hh : HiBound hi rest) :
    upTo rest hi ≤ hi := by
  cases rest with
  | nil => simp [upTo]
  | cons x xs => simpa [upTo] using hh x (by simp)

/-- Moving to a later suffix can only move the `upTo` bound right. -/
theorem upTo_suffix_le {rest1 rest2 : List Token} {hi : Int}
    (hs : SortedTokens rest1) (hh : HiBound hi rest1) (hsuf : rest2 <:+ rest1) :
    upTo rest1 hi ≤ upTo rest2 hi := by
  cases rest1 with
  | nil =>
    have h0 : rest2 = [] := List.suffix_nil.mp hsuf
    subst h0; exact le_refl _
  | cons x xs =>
    cases rest2 with
    | nil => simpa [upTo] using hh x (by simp)
    | cons y ys =>
      have hy : y ∈ x :: xs := hsuf.subset (by simp)
      rcases List.mem_cons.mp hy with rfl | hmem
      · simp [upTo]
      · have h1 : x.span.2 ≤ y.span.1 := sorted_head_end_le hs y hmem
        have h2 : y.span.1 ≤ y.span.2 := hs.1 y hy
        simp only [upTo, List.head?_cons]
        omega

/-- Moving to a later suffix can only move the `headStart` bound right. -/
theorem headStart_suffix_le {ts rest : List Token} {hi : Int}
    (hs : SortedTokens ts) (hh : HiBound hi ts) (hsuf : rest <:+ ts) :
    headStart ts hi ≤ headStart rest hi := by
  cases rest with
  | nil =>
    cases ts with
    | nil => simp [headStart]
    | cons x xs =>
      have h1 := hh x (by simp)
      have h2 := hs.1 x (by simp)
      simp only [headStart, List.head?_cons, List.head?_nil]
      omega
  | cons y ys =>
    have hy : y ∈ ts := hsuf.subset (by simp)
    simpa [headStart] using sorted_lo_head hs hi y hy

/-- A consumed head token is an ordered interval between the bounds. -/
theorem head_token_ok {lo hi : Int} {ts rest : List Token} {t : Token}
    (hs : SortedTokens ts) (hlo : LoBound lo ts) (hhi : HiBound hi ts)
    (hts : ts = t :: rest) :
    lo ≤ t.span.1 ∧ t.span.1 ≤ t.span.2 ∧ t.span.2 ≤ upTo rest hi := by
  subst hts
  refine ⟨hlo t (by simp), hs.1 t (by simp), ?_⟩
  cases rest with
  | nil => simpa [upTo] using hhi t (by simp)
  | cons y ys =>
    have h1 : t.span.2 ≤ y.span.1 := hs.2.rel_head
    have h2 : y.span.1 ≤ y.span.2 := hs.1 y (by simp)
    simp only [upTo, List.head?_cons]
    omega

/-- A lower bound on a stream bounds any suffix. -/
theorem LoBound.of_suffix_lo {lo : Int} {ts rest : List Token}
    (h : LoBound lo ts) (hs : rest <:+ ts) : LoBound lo rest :=
  fun t ht => h t (hs.subset ht)

/-- An upper bound on a stream bounds any suffix. -/
theorem HiBound.of_suffix_hi {hi : Int} {ts rest : List Token}
    (h : HiBound hi ts) (hs : rest <:+ ts) : HiBound hi rest :=
  fun t ht => h t (hs.subset ht)

/-- Lower bounds weaken to the left. -/
theorem LoBound.mono_lo {lo' lo : Int} {ts : List Token} (h : LoBound lo ts)
    (hle : lo' ≤ lo) : LoBound lo' ts :=
  fun t ht => le_trans hle (h t ht)

/-- After popping the head of a sorted stream, its end bounds the tail's
starts from below. -/
theorem lo_after_head {x : Token} {xs : List Token}
    (hs : SortedTokens (x :: xs)) : LoBound x.span.2 xs :=
  fun t ht => sorted_head_end_le hs t ht

/-- Span bounds weaken outward. -/
theorem SpansIn.mono_spans {lo lo' b b' : Int} {sps : List Span}
    (h : SpansIn lo b sps) (h1 : lo' ≤ lo) (h2 : b ≤ b') :
    SpansIn lo' b' sps :=
  fun sp hsp =>
    ⟨le_trans h1 (h sp hsp).1, (h sp hsp).2.1, le_trans (h sp hsp).2.2 h2⟩

/-- `NodeOk` bounds weaken outward. -/
theorem NodeOk.mono_node {lo lo' b b' : Int} {n : ASTNode} (h : NodeOk lo b n)
    (h1 : lo' ≤ lo) (h2 : b ≤ b') : NodeOk lo' b' n :=
  ⟨h.1, h.2.mono_spans h1 h2⟩

/-- `ListOk` bounds weaken outward. -/
theorem ListOk.mono_list {lo lo' b b' : Int} {ns : List ASTNode} (h : ListOk lo b ns)
    (h1 : lo' ≤ lo) (h2 : b ≤ b') : ListOk lo' b' ns :=
  ⟨h.1, h.2.mono_spans h1 h2⟩

/-- Splitting `SpansIn` over a cons. -/
theorem SpansIn_cons {lo b : Int} {sp : Span} {sps : List Span} :
    SpansIn lo b (sp :: sps) ↔
      (lo ≤ sp.1 ∧ sp.1 ≤ sp.2 ∧ sp.2 ≤ b) ∧ SpansIn lo b sps := by
  simp [SpansIn, List.forall_mem_cons]

/-- Splitting `SpansIn` over an append. -/
theorem SpansIn_append {lo b : Int} {xs ys : List Span} :
    SpansIn lo b (xs ++ ys) ↔ SpansIn lo b xs ∧ SpansIn lo b ys := by
  constructor
  · intro h
    exact ⟨fun sp hsp => h sp (List.mem_append.mpr (Or.inl hsp)),
      fun sp hsp => h sp (List.mem_append.mpr (Or.inr hsp))⟩
  · intro h sp hsp
    rcases List.mem_append.mp hsp with h1 | h2
    · exact h.1 sp h1
    · exact h.2 sp h2

/-! ### AST helper lemmas for the containment invariant -/

/-- A merged span of two ordered intervals in `[lo, b]` stays in `[lo, b]`. -/
theorem merge_bounds {lo b : Int} {s1 s2 : Span}
    (h1 : lo ≤ s1.1 ∧ s1.1 ≤ s1.2 ∧ s1.2 ≤ b)
    (h2 : lo ≤ s2.1 ∧ s2.1 ≤ s2.2 ∧ s2.2 ≤ b) :
    lo ≤ (merge s1 s2).1 ∧ (merge s1 s2).1 ≤ (merge s1 s2).2 ∧
      (merge s1 s2).2 ≤ b := by
  refine ⟨le_min h1.1 h2.1, ?_, max_le h1.2.2 h2.2.2⟩
  exact le_trans (min_le_left _ _) (le_trans h1.2.1 (le_max_left _ _))

/-- A merge contains its left operand. -/
theorem merge_covers_left (s1 s2 : Span) :
    (merge s1 s2).1 ≤ s1.1 ∧ s1.2 ≤ (merge s1 s2).2 :=
  ⟨min_le_left _ _, le_max_left _ _⟩

/-- A merge contains its right operand. -/
theorem merge_covers_right (s1 s2 : Span) :
    (merge s1 s2).1 ≤ s2.1 ∧ s2.2 ≤ (merge s1 s2).2 :=
  ⟨min_le_right _ _, le_max_right _ _⟩

/-- The span of a `Name` node. -/
theorem span_Name (s : Span) (v : Option String) :
    (ASTNode.Name s v).span = s := rfl

/-- The span of a `TypedName` node. -/
theorem span_TypedName (s : Span) (t : Ty) (v : String) :
    (ASTNode.TypedName s t v).span = s := rfl

/-- The span of a `Scalar` node. -/
theorem span_Scalar (s : Span) (v : ScalarValue) :
    (ASTNode.Scalar s v).span = s := rfl

/-- The span of a `Unit` node. -/
theorem span_Unit (s : Span) : (ASTNode.Unit s).span = s := rfl

/-- The span of an `Apply` node. -/
theorem span_Apply (s : Span) (f a : ASTNode) :
    (ASTNode.Apply s f a).span = s := rfl

/-- The span of a `Function` node. -/
theorem span_Function (s : Span) (p b : ASTNode) :
    (ASTNode.Function s p b).span = s := rfl

/-- The span of a `Define` node. -/
theorem span_Define (s : Span) (t v : ASTNode) :
    (ASTNode.Define s t v).span = s := rfl

/-- The span of a `TypedDefine` node. -/
theorem span_TypedDefine (s : Span) (ty : Ty) (t v : ASTNode) :
    (ASTNode.TypedDefine s ty t v).span = s := rfl

/-- The span of a `Cond` node. -/
theorem span_Cond (s : Span) (p c e : ASTNode) :
    (ASTNode.Cond s p c e).span = s := rfl

/-- The span of a `Block` node. -/
theorem span_Block (s : Span) (b : List ASTNode) :
    (ASTNode.Block s b).span = s := rfl

/-- The span of a `List` node. -/
theorem span_List (s : Span) (e : List ASTNode) :
    (ASTNode.List s e).span = s := rfl

/-- The span of a `Pair` node. -/
theorem span_Pair (s : Span) (f sec : ASTNode) :
    (ASTNode.Pair s f sec).span = s := rfl

/-- A node's own span occurs in `allSpans`. -/
theorem span_mem_allSpans (n : ASTNode) : n.span ∈ allSpans n := by
  cases n <;> simp [allSpans, ASTNode.span]

/-- `withSpan` sets the span attribute. -/
theorem span_withSpan (m : ASTNode) (s : Span) : (m.withSpan s).span = s := by
  cases m <;> rfl

/-- `withSpan` keeps the children. -/
theorem childSpans_withSpan (m : ASTNode) (s : Span) :
    childSpans (m.withSpan s) = childSpans m := by
  cases m <;> rfl

/-- `withSpan` swaps exactly the head of `allSpans`. -/
theorem allSpans_withSpan (m : ASTNode) (s : Span) :
    ∃ rest, allSpans m = m.span :: rest ∧
      allSpans (m.withSpan s) = s :: rest := by
  cases m <;> exact ⟨_, rfl, rfl⟩

/-- A tree keeps the containment invariant after its root span is replaced by
one that still contains the root's children. -/
theorem spanWithin_withSpan {m : ASTNode} {s : Span}
    (hm : spanWithin m = true)
    (hc : ∀ c ∈ childSpans m, s.1 ≤ c.1 ∧ c.2 ≤ s.2) :
    spanWithin (m.withSpan s) = true := by
  cases m <;>
    simp only [ASTNode.withSpan, spanWithin, spanCoversChildren, childSpans,
      span_Name, span_TypedName, span_Scalar, span_Unit, span_Apply,
      span_Function, span_Define, span_TypedDefine, span_Cond, span_Block,
      span_List, span_Pair, Bool.and_eq_true, List.all_eq_true,
      decide_eq_true_eq, List.mem_cons, List.not_mem_nil, List.mem_map,
      forall_eq_or_imp, forall_eq, false_implies, implies_true,
      and_true] at hm hc ⊢ <;>
    tauto

/-- Inside an invariant tree, the root's span contains each child's span. -/
theorem spanWithin_children {m : ASTNode} (h : spanWithin m = true) :
    ∀ c ∈ childSpans m, m.span.1 ≤ c.1 ∧ c.2 ≤ m.span.2 := by
  intro c hc
  have cov : spanCoversChildren m = true := by
    cases m <;>
      simp only [spanWithin, Bool.and_eq_true] at h <;>
      first
        | rfl
        | exact h.1.1.1
        | exact h.1.1
        | exact h.1
  simp only [spanCoversChildren, List.all_eq_true, Bool.and_eq_true,
    decide_eq_true_eq] at cov
  exact cov c hc

/-- `NodeOk` for a `Name` leaf. -/
theorem NodeOk_Name {lo b : Int} {s : Span} {v : Option String}
    (h : lo ≤ s.1 ∧ s.1 ≤ s.2 ∧ s.2 ≤ b) : NodeOk lo b (.Name s v) := by
  refine ⟨rfl, fun sp hsp => ?_⟩
  simp only [allSpans, List.mem_singleton] at hsp
  rw [hsp]; exact h

/-- `NodeOk` for a `TypedName` leaf. -/
theorem NodeOk_TypedName {lo b : Int} {s : Span} {t : Ty} {v : String}
    (h : lo ≤ s.1 ∧ s.1 ≤ s.2 ∧ s.2 ≤ b) : NodeOk lo b (.TypedName s t v) := by
  refine ⟨rfl, fun sp hsp => ?_⟩
  simp only [allSpans, List.mem_singleton] at hsp
  rw [hsp]; exact h

/-- `NodeOk` for a `Scalar` leaf. -/
theorem NodeOk_Scalar {lo b : Int} {s : Span} {v : ScalarValue}
    (h : lo ≤ s.1 ∧ s.1 ≤ s.2 ∧ s.2 ≤ b) : NodeOk lo b (.Scalar s v) := by
  refine ⟨rfl, fun sp hsp => ?_⟩
  simp only [allSpans, List.mem_singleton] at hsp
  rw [hsp]; exact h

/-- `NodeOk` for a `Unit` leaf. -/
theorem NodeOk_Unit {lo b : Int} {s : Span}
    (h : lo ≤ s.1 ∧ s.1 ≤ s.2 ∧ s.2 ≤ b) : NodeOk lo b (.Unit s) := by
  refine ⟨rfl, fun sp hsp => ?_⟩
  simp only [allSpans, List.mem_singleton] at hsp
  rw [hsp]; exact h

/-- `NodeOk` for an `Apply` node whose span contains both children. -/
theorem NodeOk_Apply {lo b : Int} {s : Span} {f a : ASTNode}
    (hf : NodeOk lo b f) (ha : NodeOk lo b a)
    (hs : lo ≤ s.1 ∧ s.1 ≤ s.2 ∧ s.2 ≤ b)
    (h1 : s.1 ≤ f.span.1) (h2 : f.span.2 ≤ s.2)
    (h3 : s.1 ≤ a.span.1) (h4 : a.span.2 ≤ s.2) :
    NodeOk lo b (.Apply s f a) := by
  refine ⟨?_, fun sp hsp => ?_⟩
  · simp only [spanWithin, spanCoversChildren, childSpans, span_Apply,
      Bool.and_eq_true, List.all_eq_true, decide_eq_true_eq, List.mem_cons,
      List.not_mem_nil, forall_eq_or_imp, forall_eq, false_implies,
      implies_true, and_true]
    have hwf := hf.1
    have hwa := ha.1
    tauto
  · simp only [allSpans, List.mem_cons, List.mem_append] at hsp
    rcases hsp with rfl | hm | hm
    · exact hs
    · exact hf.2 sp hm
    · exact ha.2 sp hm

/-- `NodeOk` for an `Apply` node built as the merge of its children —
the shape of every binary-operator node. -/
theorem NodeOk_Apply_merge {lo b : Int} {f a : ASTNode}
    (hf : NodeOk lo b f) (ha : NodeOk lo b a) :
    NodeOk lo b (.Apply (merge f.span a.span) f a) :=
  NodeOk_Apply hf ha
    (merge_bounds (hf.2 f.span (span_mem_allSpans f))
      (ha.2 a.span (span_mem_allSpans a)))
    (merge_covers_left _ _).1 (merge_covers_left _ _).2
    (merge_covers_right _ _).1 (merge_covers_right _ _).2

/-- `NodeOk` for a `Function` node whose span contains both children. -/
theorem NodeOk_Function {lo b : Int} {s : Span} {p bd : ASTNode}
    (hp : NodeOk lo b p) (hb : NodeOk lo b bd)
    (hs : lo ≤ s.1 ∧ s.1 ≤ s.2 ∧ s.2 ≤ b)
    (h1 : s.1 ≤ p.span.1) (h2 : p.span.2 ≤ s.2)
    (h3 : s.1 ≤ bd.span.1) (h4 : bd.span.2 ≤ s.2) :
    NodeOk lo b (.Function s p bd) := by
  refine ⟨?_, fun sp hsp => ?_⟩
  · simp only [spanWithin, spanCoversChildren, childSpans, span_Function,
      Bool.and_eq_true, List.all_eq_true, decide_eq_true_eq, List.mem_cons,
      List.not_mem_nil, forall_eq_or_imp, forall_eq, false_implies,
      implies_true, and_true]
    have hwp := hp.1
    have hwb := hb.1
    tauto
  · simp only [allSpans, List.mem_cons, List.mem_append] at hsp
    rcases hsp with rfl | hm | hm
    · exact hs
    · exact hp.2 sp hm
    · exact hb.2 sp hm

/-- `NodeOk` for a `Define` node whose span contains both children. -/
theorem NodeOk_Define {lo b : Int} {s : Span} {t v : ASTNode}
    (ht : NodeOk lo b t) (hv : NodeOk lo b v)
    (hs : lo ≤ s.1 ∧ s.1 ≤ s.2 ∧ s.2 ≤ b)
    (h1 : s.1 ≤ t.span.1) (h2 : t.span.2 ≤ s.2)
    (h3 : s.1 ≤ v.span.1) (h4 : v.span.2 ≤ s.2) :
    NodeOk lo b (.Define s t v) := by
  refine ⟨?_, fun sp hsp => ?_⟩
  · simp only [spanWithin, spanCoversChildren, childSpans, span_Define,
      Bool.and_eq_true, List.all_eq_true, decide_eq_true_eq, List.mem_cons,
      List.not_mem_nil, forall_eq_or_imp, forall_eq, false_implies,
      implies_true, and_true]
    have hwt := ht.1
    have hwv := hv.1
    tauto
  · simp only [allSpans, List.mem_cons, List.mem_append] at hsp
    rcases hsp with rfl | hm | hm
    · exact hs
    · exact ht.2 sp hm
    · exact hv.2 sp hm

/-- `NodeOk` for a `TypedDefine` node whose span contains both children. -/
theorem NodeOk_TypedDefine {lo b : Int} {s : Span} {ty : Ty} {t v : ASTNode}
    (ht : NodeOk lo b t) (hv : NodeOk lo b v)
    (hs : lo ≤ s.1 ∧ s.1 ≤ s.2 ∧ s.2 ≤ b)
    (h1 : s.1 ≤ t.span.1) (h2 : t.span.2 ≤ s.2)
    (h3 : s.1 ≤ v.span.1) (h4 : v.span.2 ≤ s.2) :
    NodeOk lo b (.TypedDefine s ty t v) := by
  refine ⟨?_, fun sp hsp => ?_⟩
  · simp only [spanWithin, spanCoversChildren, childSpans, span_TypedDefine,
      Bool.and_eq_true, List.all_eq_true, decide_eq_true_eq, List.mem_cons,
      List.not_mem_nil, forall_eq_or_imp, forall_eq, false_implies,
      implies_true, and_true]
    have hwt := ht.1
    have hwv := hv.1
    tauto
  · simp only [allSpans, List.mem_cons, List.mem_append] at hsp
    rcases hsp with rfl | hm | hm
    · exact hs
    · exact ht.2 sp hm
    · exact hv.2 sp hm

/-- `NodeOk` for a `Cond` node whose span contains all three children. -/
theorem NodeOk_Cond {lo b : Int} {s : Span} {p c e : ASTNode}
    (hp : NodeOk lo b p) (hc : NodeOk lo b c) (he : NodeOk lo b e)
    (hs : lo ≤ s.1 ∧ s.1 ≤ s.2 ∧ s.2 ≤ b)
    (h1 : s.1 ≤ p.span.1) (h2 : p.span.2 ≤ s.2)
    (h3 : s.1 ≤ c.span.1) (h4 : c.span.2 ≤ s.2)
    (h5 : s.1 ≤ e.span.1) (h6 : e.span.2 ≤ s.2) :
    NodeOk lo b (.Cond s p c e) := by
  refine ⟨?_, fun sp hsp => ?_⟩
  · simp only [spanWithin, spanCoversChildren, childSpans, span_Cond,
      Bool.and_eq_true, List.all_eq_true, decide_eq_true_eq, List.mem_cons,
      List.not_mem_nil, forall_eq_or_imp, forall_eq, false_implies,
      implies_true, and_true]
    have hwp := hp.1
    have hwc := hc.1
    have hwe := he.1
    tauto
  · simp only [allSpans, List.mem_cons, List.mem_append] at hsp
    rcases hsp with rfl | ((hm | hm) | hm)
    · exact hs
    · exact hp.2 sp hm
    · exact hc.2 sp hm
    · exact he.2 sp hm

/-- `NodeOk` for a `Pair` node built as the merge of its children. -/
theorem NodeOk_Pair_merge {lo b : Int} {f sec : ASTNode}
    (hf : NodeOk lo b f) (hsec : NodeOk lo b sec) :
    NodeOk lo b (.Pair (merge f.span sec.span) f sec) := by
  refine ⟨?_, fun sp hsp => ?_⟩
  · simp only [spanWithin, spanCoversChildren, childSpans, span_Pair,
      Bool.and_eq_true, List.all_eq_true, decide_eq_true_eq, List.mem_cons,
      List.not_mem_nil, forall_eq_or_imp, forall_eq, false_implies,
      implies_true, and_true]
    have hwf := hf.1
    have hws := hsec.1
    have g1 := (merge_covers_left f.span sec.span).1
    have g2 := (merge_covers_left f.span sec.span).2
    have g3 := (merge_covers_right f.span sec.span).1
    have g4 := (merge_covers_right f.span sec.span).2
    tauto
  · simp only [allSpans, List.mem_cons, List.mem_append] at hsp
    rcases hsp with rfl | hm | hm
    · exact merge_bounds (hf.2 f.span (span_mem_allSpans f))
        (hsec.2 sec.span (span_mem_allSpans sec))
    · exact hf.2 sp hm
    · exact hsec.2 sp hm

/-- The empty list satisfies `ListOk`. -/
theorem ListOk_nil {lo b : Int} : ListOk lo b [] := by
  refine ⟨rfl, fun sp hsp => ?_⟩
  simp [allSpansListA] at hsp

/-- `ListOk` splits over a cons. -/
theorem ListOk_cons {lo b : Int} {x : ASTNode} {xs : List ASTNode} :
    ListOk lo b (x :: xs) ↔ NodeOk lo b x ∧ ListOk lo b xs := by
  constructor
  · intro h
    have hw := h.1
    simp only [spanWithinList, Bool.and_eq_true] at hw
    have hsp : SpansIn lo b (allSpans x) ∧ SpansIn lo b (allSpansListA xs) := by
      have := h.2
      simp only [allSpansListA] at this
      exact SpansIn_append.mp this
    exact ⟨⟨hw.1, hsp.1⟩, hw.2, hsp.2⟩
  · intro h
    refine ⟨?_, ?_⟩
    · simp only [spanWithinList, Bool.and_eq_true]
      exact ⟨h.1.1, h.2.1⟩
    · simp only [allSpansListA]
      exact SpansIn_append.mpr ⟨h.1.2, h.2.2⟩

/-- `Function.curry` over an empty parameter list returns the body. -/
theorem curry_nil (span : Span) (body : ASTNode) :
    Function.curry span [] body = body := rfl

/-- The step equation of `Function.curry`. -/
theorem curry_cons (span : Span) (p : ASTNode) (ps : List ASTNode)
    (body : ASTNode) :
    Function.curry span (p :: ps) body =
      .Function span p (Function.curry span ps body) := by
  simp [Function.curry, List.foldl_append]

/-- Containment for the root span replaced by `withSpan`. -/
theorem NodeOk_withSpan {lo b : Int} {m : ASTNode} {s : Span}
    (hm : NodeOk lo b m) (hs : lo ≤ s.1 ∧ s.1 ≤ s.2 ∧ s.2 ≤ b)
    (hc : ∀ c ∈ childSpans m, s.1 ≤ c.1 ∧ c.2 ≤ s.2) :
    NodeOk lo b (m.withSpan s) := by
  refine ⟨spanWithin_withSpan hm.1 hc, fun sp hsp => ?_⟩
  obtain ⟨tl, h1, h2⟩ := allSpans_withSpan m s
  rw [h2] at hsp
  rcases List.mem_cons.mp hsp with rfl | hmem
  · exact hs
  · exact hm.2 sp (by rw [h1]; exact List.mem_cons_of_mem _ hmem)

/-- Children stay covered when the root span grows. -/
theorem childSpans_sub_of_span_sub {m : ASTNode} {s : Span}
    (hm : spanWithin m = true) (h1 : s.1 ≤ m.span.1) (h2 : m.span.2 ≤ s.2) :
    ∀ c ∈ childSpans m, s.1 ≤ c.1 ∧ c.2 ≤ s.2 :=
  fun c hc =>
    ⟨le_trans h1 (spanWithin_children hm c hc).1,
      le_trans (spanWithin_children hm c hc).2 h2⟩

/-- Containment for the curried function chain: `span` must contain every
parameter's span and the body's span, and be itself in bounds. -/
theorem NodeOk_curry {lo b : Int} {span : Span} :
    ∀ (params : List ASTNode) (body : ASTNode),
    NodeOk lo b body →
    (∀ p ∈ params, NodeOk lo b p) →
    (∀ p ∈ params, span.1 ≤ p.span.1 ∧ p.span.2 ≤ span.2) →
    (span.1 ≤ body.span.1 ∧ body.span.2 ≤ span.2) →
    (lo ≤ span.1 ∧ span.1 ≤ span.2 ∧ span.2 ≤ b) →
    NodeOk lo b (Function.curry span params body) := by
  intro params
  induction params with
  | nil => intro body hb _ _ _ _; simpa [curry_nil] using hb
  | cons p ps ih =>
    intro body hb hps hcov hbcov hspan
    rw [curry_cons]
    have hcur : NodeOk lo b (Function.curry span ps body) :=
      ih body hb (fun q hq => hps q (by simp [hq]))
        (fun q hq => hcov q (by simp [hq])) hbcov hspan
    refine NodeOk_Function (hps p (by simp)) hcur hspan
      (hcov p (by simp)).1 (hcov p (by simp)).2 ?_ ?_
    · cases ps with
      | nil => simpa [curry_nil] using hbcov.1
      | cons q qs => rw [curry_cons, span_Function]
    · cases ps with
      | nil => simpa [curry_nil] using hbcov.2
      | cons q qs => rw [curry_cons, span_Function]

/-- Containment for the left fold of `parse_apply`: each step merges the
running result with the next argument, so the invariant and the top-start
bound survive. -/
theorem NodeOk_applyFold {lo b : Int} :
    ∀ (args : List ASTNode) (left : ASTNode),
    NodeOk lo b left → (∀ a ∈ args, NodeOk lo b a) →
    NodeOk lo b
      (args.foldl
        (fun r argument => ASTNode.Apply (merge r.span argument.span) r
          argument) left) ∧
    (args.foldl
      (fun r argument => ASTNode.Apply (merge r.span argument.span) r
        argument) left).span.1 ≤ left.span.1 := by
  intro args
  induction args with
  | nil => intro left hl _; exact ⟨hl, le_refl _⟩
  | cons a as ih =>
    intro left hl ha
    have hstep : NodeOk lo b (.Apply (merge left.span a.span) left a) :=
      NodeOk_Apply_merge hl (ha a (by simp))
    have := ih (.Apply (merge left.span a.span) left a) hstep
      (fun x hx => ha x (by simp [hx]))
    refine ⟨this.1, le_trans this.2 ?_⟩
    rw [span_Apply]
    exact (merge_covers_left _ _).1

/-- In an ordered expression chain, the first node's span starts at or
before every node's span. -/
theorem chain_head_le :
    ∀ {xs : List ASTNode} {x : ASTNode},
    (x :: xs).Chain' (fun a c => ∀ sp ∈ allSpans a, sp.2 ≤ c.span.1) →
    (∀ n ∈ x :: xs, n.span.1 ≤ n.span.2) →
    ∀ m ∈ x :: xs, x.span.1 ≤ m.span.1 := by
  intro xs
  induction xs with
  | nil =>
    intro x _ _ m hm
    rcases List.mem_singleton.mp hm with rfl
    exact le_refl _
  | cons y ys ih =>
    intro x hch hval m hm
    rcases List.mem_cons.mp hm with rfl | hm'
    · exact le_refl _
    · have hxy : x.span.2 ≤ y.span.1 :=
        hch.rel_head x.span (span_mem_allSpans x)
      have hx : x.span.1 ≤ x.span.2 := hval x (by simp)
      have := ih hch.tail (fun n hn => hval n (by simp [hn])) m hm'
      omega

/-- In an ordered expression chain, every node's span ends at or before the
last node's span end. -/
theorem chain_le_last :
    ∀ {xs : List ASTNode} {x : ASTNode},
    (x :: xs).Chain' (fun a c => ∀ sp ∈ allSpans a, sp.2 ≤ c.span.1) →
    (∀ n ∈ x :: xs, n.span.1 ≤ n.span.2) →
    ∀ m ∈ x :: xs, m.span.2 ≤ ((x :: xs).getLastD x).span.2 := by
  intro xs
  induction xs with
  | nil =>
    intro x _ _ m hm
    rcases List.mem_singleton.mp hm with rfl
    simp [List.getLastD]
  | cons y ys ih =>
    intro x hch hval m hm
    have hlast : ((x :: y :: ys).getLastD x) = ((y :: ys).getLastD y) := by
      simp [List.getLastD_cons, List.getLast?_cons]
    rw [hlast]
    rcases List.mem_cons.mp hm with rfl | hm'
    · have hxy : m.span.2 ≤ y.span.1 :=
        hch.rel_head m.span (span_mem_allSpans m)
      have hy : y.span.1 ≤ y.span.2 := hval y (by simp)
      have hyl := ih hch.tail (fun n hn => hval n (by simp [hn])) y (by simp)
      omega
    · exact ih hch.tail (fun n hn => hval n (by simp [hn])) m hm'

/-- A member node's span occurs in the list's collected spans. -/
theorem mem_allSpansListA_of_mem {n : ASTNode} :
    ∀ {ns : List ASTNode}, n ∈ ns → n.span ∈ allSpansListA ns := by
  intro ns
  induction ns with
  | nil => intro h; simp at h
  | cons x xs ih =>
    intro h
    rcases List.mem_cons.mp h with rfl | h'
    · simp only [allSpansListA, List.mem_append]
      exact Or.inl (span_mem_allSpans n)
    · simp only [allSpansListA, List.mem_append]
      exact Or.inr (ih h')

/-- `getLastD` picks a member (or the default). -/
theorem getLastD_mem_cons' (es : List ASTNode) (e : ASTNode) :
    (es.getLastD e) ∈ e :: es := by
  induction es generalizing e with
  | nil => simp [List.getLastD]
  | cons y ys ih =>
    rw [List.getLastD_cons]
    rcases List.mem_cons.mp (ih y) with h1 | h1
    · rw [h1]; simp
    · exact List.mem_cons_of_mem e (List.mem_cons_of_mem y h1)

/-- Containment for the `Block` node built over an ordered non-empty
expression list, spanning the first to the last expression. -/
theorem NodeOk_Block_chain {lo b : Int} {e : ASTNode} {es : List ASTNode}
    (h : ChainOk lo b (e :: es)) :
    NodeOk lo b
      (.Block (merge e.span (((e :: es).getLastD e).span)) (e :: es)) := by
  obtain ⟨⟨hw, hsp⟩, hch⟩ := h
  have hval : ∀ n ∈ e :: es, n.span.1 ≤ n.span.2 :=
    fun n hn => (hsp n.span (mem_allSpansListA_of_mem hn)).2.1
  have hlast_mem : ((e :: es).getLastD e) ∈ e :: es := by
    rw [List.getLastD_cons]
    exact getLastD_mem_cons' es e
  refine ⟨?_, fun sp hsp2 => ?_⟩
  · simp only [spanWithin, Bool.and_eq_true]
    constructor
    · simp only [spanCoversChildren, childSpans, span_Block,
        List.all_eq_true, List.mem_map, decide_eq_true_eq, Bool.and_eq_true]
      rintro c ⟨m, hm, rfl⟩
      constructor
      · exact le_trans (merge_covers_left _ _).1 (chain_head_le hch hval m hm)
      · exact le_trans (chain_le_last hch hval m hm)
          (merge_covers_right _ _).2
    · exact hw
  · simp only [allSpans, List.mem_cons] at hsp2
    rcases hsp2 with rfl | hmem
    · have he := hsp e.span (mem_allSpansListA_of_mem (by simp))
      have hl := hsp ((e :: es).getLastD e).span
        (mem_allSpansListA_of_mem hlast_mem)
      exact merge_bounds he hl
    · exact hsp sp hmem

/-- A stream equation `ts = t :: rest` makes `rest` a suffix. -/
theorem suffix_of_cons {t : Token} {ts rest : List Token}
    (h : ts = t :: rest) : rest <:+ ts :=
  h ▸ List.suffix_cons t rest

/-- At zero fuel every parser function fails, so the invariant holds
vacuously. -/
theorem inv_zero : ParserInv 0 := by
  constructor <;>
    simp only [SuffixFnOk, StreamFnOk, PrefixFnOk, InfixFnOk, ListFnOk,
      ChainFnOk, parse_type, parse_tuple_type, parseTupleTypeElems,
      parse_generic_type, parseGenericTypeArgs, parse_body_section,
      parse_block, parseBlockItems, parse_elements, parseParametersLoop,
      parse_parameters, build_infix_op, parse_apply, parse_pair,
      parseExprLoop, parse_expr, parse_define, parse_func, parse_if,
      parse_list, parse_negate, parse_not, parse_group] <;>
    intros <;> simp_all

/-- Induction step for `parse_type`. -/
theorem inv_step_type (fuel : Nat) (ih : ParserInv fuel) :
    SuffixFnOk (parse_type (fuel + 1)) := by
  intro ts r rest h
  simp only [parse_type] at h
  cases h1 : parse_tuple_type fuel ts with
  | error e => rw [h1] at h; simp [except_error_bind] at h
  | ok p =>
    obtain ⟨left, ts1⟩ := p
    rw [h1, except_ok_bind] at h
    try dsimp only at h
    have hs1 : ts1 <:+ ts := ih.ptuple ts left ts1 h1
    rcases h2 : consume_if ts1 [.arrow] with ⟨b, ts2⟩
    rw [h2] at h
    cases b with
    | true =>
      dsimp only at h
      obtain ⟨t, hts1⟩ := consume_if_true_shape h2
      cases h3 : parse_type fuel ts2 with
      | error e => rw [h3] at h; simp [except_error_bind] at h
      | ok q =>
        obtain ⟨right, ts3⟩ := q
        rw [h3, except_ok_bind] at h
        try dsimp only at h
        simp only [Except.ok.injEq, Prod.mk.injEq] at h
        rw [← h.2]
        exact ((ih.ptype ts2 right ts3 h3).trans
          (suffix_of_cons hts1)).trans hs1
    | false =>
      dsimp only at h
      simp only [Except.ok.injEq, Prod.mk.injEq] at h
      rw [← h.2]
      exact hs1

/-- Induction step for `parseTupleTypeElems`. -/
theorem inv_step_tupleElems (fuel : Nat) (ih : ParserInv fuel) :
    SuffixFnOk (parseTupleTypeElems (fuel + 1)) := by
  intro ts r rest h
  simp only [parseTupleTypeElems] at h
  by_cases hp : peek ts [.rparen] = true
  · rw [if_pos hp] at h
    simp only [Except.ok.injEq, Prod.mk.injEq] at h
    rw [← h.2]
  · rw [if_neg hp] at h
    cases h1 : parse_type fuel ts with
    | error e => rw [h1] at h; simp [except_error_bind] at h
    | ok p =>
      obtain ⟨element, ts1⟩ := p
      rw [h1, except_ok_bind] at h
      try dsimp only at h
      have hs1 : ts1 <:+ ts := ih.ptype ts element ts1 h1
      rcases h2 : consume_if ts1 [.comma] with ⟨b, ts2⟩
      rw [h2] at h
      cases b with
      | true =>
        dsimp only at h
        obtain ⟨t, hts1⟩ := consume_if_true_shape h2
        cases h3 : parseTupleTypeElems fuel ts2 with
        | error e => rw [h3] at h; simp [except_error_bind] at h
        | ok q =>
          obtain ⟨more, ts3⟩ := q
          rw [h3, except_ok_bind] at h
          try dsimp only at h
          simp only [Except.ok.injEq, Prod.mk.injEq] at h
          rw [← h.2]
          exact ((ih.ptupleElems ts2 more ts3 h3).trans
            (suffix_of_cons hts1)).trans hs1
      | false =>
        dsimp only at h
        simp only [Except.ok.injEq, Prod.mk.injEq] at h
        rw [← h.2]
        exact hs1

/-- Induction step for `parse_tuple_type`. -/
theorem inv_step_tuple (fuel : Nat) (ih : ParserInv fuel) :
    SuffixFnOk (parse_tuple_type (fuel + 1)) := by
  intro ts r rest h
  simp only [parse_tuple_type] at h
  by_cases hp : peek ts [.lparen] = true
  · rw [if_pos hp] at h
    cases h1 : consume ts [.lparen] with
    | error e => rw [h1] at h; simp [except_error_bind] at h
    | ok p =>
      obtain ⟨first, ts1⟩ := p
      rw [h1, except_ok_bind] at h
      try dsimp only at h
      have hs1 : ts1 <:+ ts := suffix_of_cons (consume_ok_shape h1)
      cases h2 : parseTupleTypeElems fuel ts1 with
      | error e => rw [h2] at h; simp [except_error_bind] at h
      | ok q =>
        obtain ⟨elements, ts2⟩ := q
        rw [h2, except_ok_bind] at h
        try dsimp only at h
        have hs2 : ts2 <:+ ts1 := ih.ptupleElems ts1 elements ts2 h2
        cases h3 : consume ts2 [.rparen] with
        | error e => rw [h3] at h; simp [except_error_bind] at h
        | ok q2 =>
          obtain ⟨last, ts3⟩ := q2
          rw [h3, except_ok_bind] at h
          try dsimp only at h
          have hs3 : ts3 <:+ ts2 := suffix_of_cons (consume_ok_shape h3)
          have hall : ts3 <:+ ts := (hs3.trans hs2).trans hs1
          rcases elements with _ | ⟨e1, rest1⟩
          · simp only [Except.ok.injEq, Prod.mk.injEq] at h
            rw [← h.2]; exact hall
          · rcases rest1 with _ | ⟨e2, rest2⟩ <;>
              (simp only [Except.ok.injEq, Prod.mk.injEq] at h
               rw [← h.2]; exact hall)
  · rw [if_neg hp] at h
    exact ih.pgeneric ts r rest h

/-- Induction step for `parseGenericTypeArgs`. -/
theorem inv_step_genericArgs (fuel : Nat) (ih : ParserInv fuel) :
    ∀ t0, SuffixFnOk (parseGenericTypeArgs (fuel + 1) t0) := by
  intro t0 ts r rest h
  simp only [parseGenericTypeArgs] at h
  by_cases hp : peek ts [.rparen] = true
  · rw [if_pos hp] at h
    simp only [Except.ok.injEq, Prod.mk.injEq] at h
    rw [← h.2]
  · rw [if_neg hp] at h
    cases h1 : parse_type fuel ts with
    | error e => rw [h1] at h; simp [except_error_bind] at h
    | ok p =>
      obtain ⟨arg, ts1⟩ := p
      rw [h1, except_ok_bind] at h
      try dsimp only at h
      have hs1 : ts1 <:+ ts := ih.ptype ts arg ts1 h1
      rcases h2 : consume_if ts1 [.comma] with ⟨b, ts2⟩
      rw [h2] at h
      cases b with
      | true =>
        dsimp only at h
        obtain ⟨t, hts1⟩ := consume_if_true_shape h2
        exact ((ih.pgenericArgs _ ts2 r rest h).trans
          (suffix_of_cons hts1)).trans hs1
      | false =>
        dsimp only at h
        simp only [Except.ok.injEq, Prod.mk.injEq] at h
        rw [← h.2]
        exact hs1

/-- Induction step for `parse_generic_type`. -/
theorem inv_step_generic (fuel : Nat) (ih : ParserInv fuel) :
    SuffixFnOk (parse_generic_type (fuel + 1)) := by
  intro ts r rest h
  simp only [parse_generic_type] at h
  cases h1 : consume ts [.name_] with
  | error e => rw [h1] at h; simp [except_error_bind] at h
  | ok p =>
    obtain ⟨base_token, ts1⟩ := p
    rw [h1, except_ok_bind] at h
    try dsimp only at h
    have hs1 : ts1 <:+ ts := suffix_of_cons (consume_ok_shape h1)
    rcases h2 : consume_if ts1 [.lbracket] with ⟨b, ts2⟩
    rw [h2] at h
    cases b with
    | true =>
      dsimp only at h
      obtain ⟨t, hts1⟩ := consume_if_true_shape h2
      exact ((ih.pgenericArgs _ ts2 r rest h).trans
        (suffix_of_cons hts1)).trans hs1
    | false =>
      dsimp only at h
      simp only [Except.ok.injEq, Prod.mk.injEq] at h
      rw [← h.2]
      exact hs1

/-- Witness for C7's amended theorem at the concrete stream `"x\n"`. -/
theorem insert_eols_depth_zero_except_trailing_witness :
    (∀ t ∈ trailingWhitespaceTokens, t.type_ ≠ TokenTypes.eol) ∧
    (eolsFromDepth 0 (insert_eols trailingWhitespaceTokens).dropLast = true ∧
      (bracketDepth (insert_eols trailingWhitespaceTokens) = 0 →
        eolsFromDepth 0 (insert_eols trailingWhitespaceTokens) = true)) :=
  ⟨by decide,
    insert_eols_depth_zero_except_trailing trailingWhitespaceTokens (by decide)⟩

/-- Every member of a `ListOk` list is itself `NodeOk`. -/
theorem ListOk_mem {lo b : Int} :
    ∀ {ns : List ASTNode}, ListOk lo b ns → ∀ a ∈ ns, NodeOk lo b a := by
  intro ns
  induction ns with
  | nil => intro _ a ha; simp at ha
  | cons x xs ih =>
    intro h a ha
    rcases List.mem_cons.mp ha with rfl | ha'
    · exact (ListOk_cons.mp h).1
    · exact ih (ListOk_cons.mp h).2 a ha'

/-- The `parse_apply` fold keeps the callee's span start as a lower bound
when every argument starts at or after it. -/
theorem applyFold_span_ge :
    ∀ (args : List ASTNode) (left : ASTNode),
    (∀ a ∈ args, left.span.1 ≤ a.span.1) →
    left.span.1 ≤
      (args.foldl
        (fun r argument => ASTNode.Apply (merge r.span argument.span) r
          argument) left).span.1 := by
  intro args
  induction args with
  | nil => intro left _; exact le_refl _
  | cons a as ih =>
    intro left hargs
    have hstep : left.span.1 ≤
        (ASTNode.Apply (merge left.span a.span) left a).span.1 := by
      rw [span_Apply]
      exact le_min (le_refl _) (hargs a (by simp))
    refine le_trans hstep (ih _ ?_)
    intro x hx
    rw [span_Apply]
    exact le_trans (min_le_left _ _) (hargs x (by simp [hx]))

/-- `allSpansListA` splits over an append. -/
theorem allSpansListA_append :
    ∀ (xs ys : List ASTNode),
    allSpansListA (xs ++ ys) = allSpansListA xs ++ allSpansListA ys := by
  intro xs ys
  induction xs with
  | nil => simp [allSpansListA]
  | cons x xs ih => simp [allSpansListA, ih]

/-- `spanWithinList` splits over an append. -/
theorem spanWithinList_append :
    ∀ (xs ys : List ASTNode),
    spanWithinList (xs ++ ys) = (spanWithinList xs && spanWithinList ys) := by
  intro xs ys
  induction xs with
  | nil => simp [spanWithinList]
  | cons x xs ih => simp [spanWithinList, ih, Bool.and_assoc]

/-- `ListOk` splits over an append. -/
theorem ListOk_append {lo b : Int} {xs ys : List ASTNode} :
    ListOk lo b (xs ++ ys) ↔ ListOk lo b xs ∧ ListOk lo b ys := by
  constructor
  · intro h
    have hw := h.1
    rw [spanWithinList_append, Bool.and_eq_true] at hw
    have hsp := h.2
    rw [allSpansListA_append] at hsp
    have := SpansIn_append.mp hsp
    exact ⟨⟨hw.1, this.1⟩, hw.2, this.2⟩
  · intro h
    refine ⟨?_, ?_⟩
    · rw [spanWithinList_append, Bool.and_eq_true]
      exact ⟨h.1.1, h.2.1⟩
    · rw [allSpansListA_append]
      exact SpansIn_append.mpr ⟨h.1.2, h.2.2⟩

/-- A span inside a member tree occurs in the list's collected spans. -/
theorem allSpans_mem_allSpansListA {sp : Span} {x : ASTNode} :
    ∀ {ns : List ASTNode}, x ∈ ns → sp ∈ allSpans x →
    sp ∈ allSpansListA ns := by
  intro ns
  induction ns with
  | nil => intro h; simp at h
  | cons y ys ih =>
    intro hx hsp
    rcases List.mem_cons.mp hx with rfl | hx'
    · simp only [allSpansListA, List.mem_append]
      exact Or.inl hsp
    · simp only [allSpansListA, List.mem_append]
      exact Or.inr (ih hx' hsp)

/-- After popping the head of a sorted bounded stream, the head's end is at
or before the tail's `headStart`. -/
theorem upTo_le_headStart_tail {e0 : Token} {ts2 : List Token} {hi : Int}
    (hs : SortedTokens (e0 :: ts2)) (hh : HiBound hi (e0 :: ts2)) :
    upTo (e0 :: ts2) hi ≤ headStart ts2 hi := by
  cases ts2 with
  | nil => simpa [upTo, headStart] using hh e0 (by simp)
  | cons y ys =>
    have : e0.span.2 ≤ y.span.1 := hs.2.rel_head
    simpa [upTo, headStart] using this

/-- Every stream has an upper bound on its token ends. -/
theorem exists_hi : ∀ ts : List Token, ∃ hi, HiBound hi ts := by
  intro ts
  induction ts with
  | nil => exact ⟨0, fun t ht => by simp at ht⟩
  | cons x xs ih =>
    obtain ⟨hi, hh⟩ := ih
    refine ⟨max hi x.span.2, fun t ht => ?_⟩
    rcases List.mem_cons.mp ht with rfl | ht'
    · exact le_max_right _ _
    · exact le_trans (hh t ht') (le_max_left _ _)

/-- Containment for a `List` node whose span contains every element. -/
theorem NodeOk_List {lo b : Int} {s : Span} {es : List ASTNode}
    (hes : ListOk lo b es)
    (hs : lo ≤ s.1 ∧ s.1 ≤ s.2 ∧ s.2 ≤ b)
    (hc : ∀ m ∈ es, s.1 ≤ m.span.1 ∧ m.span.2 ≤ s.2) :
    NodeOk lo b (.List s es) := by
  refine ⟨?_, fun sp hsp => ?_⟩
  · simp only [spanWithin, Bool.and_eq_true]
    constructor
    · simp only [spanCoversChildren, childSpans, span_List,
        List.all_eq_true, List.mem_map, decide_eq_true_eq, Bool.and_eq_true]
      rintro c ⟨m, hm, rfl⟩
      exact hc m hm
    · exact hes.1
  · simp only [allSpans, List.mem_cons] at hsp
    rcases hsp with rfl | hmem
    · exact hs
    · exact hes.2 sp hmem

/-- `parse_parameters` never succeeds with an empty parameter list (the empty
case re-raises through `consume` or the unreachable assertion). -/
theorem parse_parameters_ne_nil {fuel : Nat} {ts : List Token}
    {params : List ASTNode} {rest : List Token}
    (h : parse_parameters fuel ts = .ok (params, rest)) : params ≠ [] := by
  cases fuel with
  | zero => simp [parse_parameters] at h
  | succ n =>
    simp only [parse_parameters] at h
    cases h1 : parseParametersLoop n ts with
    | error e => rw [h1] at h; simp [except_error_bind] at h
    | ok p =>
      obtain ⟨ps, ts1⟩ := p
      rw [h1, except_ok_bind] at h
      dsimp only at h
      cases ps with
      | nil =>
        rw [if_pos (by rfl)] at h
        cases h2 : consume ts1 [.name_] with
        | error e => rw [h2] at h; simp [except_error_bind] at h
        | ok q => rw [h2, except_ok_bind] at h; simp at h
      | cons q qs =>
        rw [if_neg (by simp)] at h
        simp only [Except.ok.injEq, Prod.mk.injEq] at h
        rw [← h.1]
        simp

/-- `parse_name` satisfies the prefix-handler containment invariant. -/
theorem parse_name_ok : PrefixFnOk parse_name := by
  intro lo hi ts n rest hsort hlo hhi h
  simp only [parse_name] at h
  cases h1 : consume ts [.name_] with
  | error e => rw [h1] at h; simp [except_error_bind] at h
  | ok p =>
    obtain ⟨token, ts1⟩ := p
    rw [h1, except_ok_bind] at h
    dsimp only at h
    simp only [Except.ok.injEq, Prod.mk.injEq] at h
    obtain ⟨rfl, rfl⟩ := h
    have hts := consume_ok_shape h1
    have hb := head_token_ok hsort hlo hhi hts
    refine ⟨suffix_of_cons hts, NodeOk_Name hb, ?_⟩
    rw [hts]
    simp [headStart, span_Name]

/-- `parse_scalar` satisfies the prefix-handler containment invariant. -/
theorem parse_scalar_ok : PrefixFnOk parse_scalar := by
  intro lo hi ts n rest hsort hlo hhi h
  simp only [parse_scalar] at h
  cases h1 : consume ts [.false_, .float_, .integer, .string, .true_] with
  | error e => rw [h1] at h; simp [except_error_bind] at h
  | ok p =>
    obtain ⟨token, ts1⟩ := p
    rw [h1, except_ok_bind] at h
    dsimp only at h
    have hts := consume_ok_shape h1
    have hb := head_token_ok hsort hlo hhi hts
    have hstart : token.span.1 ≤ headStart ts hi := by
      rw [hts]; simp [headStart]
    obtain ⟨tsp, tty, tval⟩ := token
    cases tty <;> cases tval <;> dsimp only at h <;>
      first
        | exact (Except.noConfusion h)
        | (simp only [Except.ok.injEq, Prod.mk.injEq] at h
           obtain ⟨rfl, rfl⟩ := h
           exact ⟨suffix_of_cons hts, NodeOk_Scalar hb, hstart⟩)

/-- `parse_dot` satisfies the infix-handler containment invariant. -/
theorem parse_dot_ok : InfixFnOk parse_dot := by
  intro lo hi ts left n rest hsort hlo hhi hwl hspl hstart h
  simp only [parse_dot] at h
  cases h1 : consume ts [.dot] with
  | error e => rw [h1] at h; simp [except_error_bind] at h
  | ok p =>
    obtain ⟨d, ts1⟩ := p
    rw [h1, except_ok_bind] at h
    dsimp only at h
    cases h2 : consume ts1 [.name_] with
    | error e => rw [h2] at h; simp [except_error_bind] at h
    | ok q =>
      obtain ⟨nm, ts2⟩ := q
      rw [h2, except_ok_bind] at h
      dsimp only at h
      simp only [Except.ok.injEq, Prod.mk.injEq] at h
      obtain ⟨rfl, rfl⟩ := h
      have hts := consume_ok_shape h1
      have hsuf1 : ts1 <:+ ts := suffix_of_cons hts
      have hsort1 := hsort.suffix hsuf1
      have hlo1 := hlo.of_suffix_lo hsuf1
      have hhi1 := hhi.of_suffix_hi hsuf1
      have hts1 := consume_ok_shape h2
      have hnm := head_token_ok hsort1 hlo1 hhi1 hts1
      have hsufAll : ts2 <:+ ts := (suffix_of_cons hts1).trans hsuf1
      have hupTo : upTo ts hi ≤ upTo ts2 hi :=
        upTo_suffix_le hsort hhi hsufAll
      have hlsp := hspl left.span (span_mem_allSpans left)
      have hleftOk : NodeOk lo (upTo ts2 hi) left :=
        ⟨hwl, hspl.mono_spans (le_refl _) hupTo⟩
      have hrightOk : NodeOk lo (upTo ts2 hi)
          (ASTNode.Name nm.span nm.value) := NodeOk_Name hnm
      refine ⟨hsufAll, ?_, ?_⟩
      · exact NodeOk_Apply hrightOk hleftOk
          (merge_bounds ⟨hlsp.1, hlsp.2.1, le_trans hlsp.2.2 hupTo⟩ hnm)
          (min_le_right _ _) (le_max_right _ _)
          (min_le_left _ _) (le_max_left _ _)
      · exact min_le_left _ _

/-- Induction step for `parse_body_section`. -/
theorem inv_step_body (fuel : Nat) (ih : ParserInv fuel) :
    StreamFnOk (parse_body_section (fuel + 1)) := by
  intro lo hi ts n rest hsort hlo hhi h
  simp only [parse_body_section] at h
  rcases h1 : consume_if ts [.equal] with ⟨b, ts1⟩
  rw [h1] at h
  cases b with
  | true =>
    dsimp only at h
    obtain ⟨t, hts⟩ := consume_if_true_shape h1
    have hsuf : ts1 <:+ ts := suffix_of_cons hts
    obtain ⟨hs2, hnode, -⟩ := ih.pexpr 0 lo hi ts1 n rest (hsort.suffix hsuf)
      (hlo.of_suffix_lo hsuf) (hhi.of_suffix_hi hsuf) h
    exact ⟨hs2.trans hsuf, hnode⟩
  | false =>
    dsimp only at h
    cases h2 : consume ts [.colon_equal] with
    | error e => rw [h2] at h; simp [except_error_bind] at h
    | ok p =>
      obtain ⟨c, ts1⟩ := p
      rw [h2, except_ok_bind] at h
      dsimp only at h
      have hts := consume_ok_shape h2
      have hsuf : ts1 <:+ ts := suffix_of_cons hts
      obtain ⟨hs2, hnode⟩ := ih.pblock [.end_] lo hi ts1 n rest
        (hsort.suffix hsuf) (hlo.of_suffix_lo hsuf) (hhi.of_suffix_hi hsuf) h
      exact ⟨hs2.trans hsuf, hnode⟩

/-- Induction step for `parse_parameters`. -/
theorem inv_step_params (fuel : Nat) (ih : ParserInv fuel) :
    ListFnOk (parse_parameters (fuel + 1)) := by
  intro lo hi ts ns rest hsort hlo hhi h
  simp only [parse_parameters] at h
  cases h1 : parseParametersLoop fuel ts with
  | error e => rw [h1] at h; simp [except_error_bind] at h
  | ok p =>
    obtain ⟨ps, ts1⟩ := p
    rw [h1, except_ok_bind] at h
    dsimp only at h
    by_cases he : ps.isEmpty = true
    · rw [if_pos he] at h
      cases h2 : consume ts1 [.name_] with
      | error e => rw [h2] at h; simp [except_error_bind] at h
      | ok q => rw [h2, except_ok_bind] at h; simp at h
    · rw [if_neg he] at h
      simp only [Except.ok.injEq, Prod.mk.injEq] at h
      obtain ⟨rfl, rfl⟩ := h
      exact ih.pparamsLoop lo hi ts ps ts1 hsort hlo hhi h1

/-- Induction step for `parse_elements`. -/
theorem inv_step_elements (fuel : Nat) (ih : ParserInv fuel) :
    ∀ ends, ListFnOk (parse_elements (fuel + 1) ends) := by
  intro end_ lo hi ts ns rest hsort hlo hhi h
  simp only [parse_elements] at h
  by_cases hp : peek ts end_ = true
  · rw [if_pos hp] at h
    simp only [Except.ok.injEq, Prod.mk.injEq] at h
    obtain ⟨rfl, rfl⟩ := h
    exact ⟨List.suffix_refl _, ListOk_nil⟩
  · rw [if_neg hp] at h
    cases h1 : parse_expr fuel ((precedence_table .comma).getD (-1)) ts with
    | error e => rw [h1] at h; simp [except_error_bind] at h
    | ok p =>
      obtain ⟨element, ts1⟩ := p
      rw [h1, except_ok_bind] at h
      dsimp only at h
      obtain ⟨hsuf1, hnode1, -⟩ := ih.pexpr _ lo hi ts element ts1
        hsort hlo hhi h1
      rcases h2 : consume_if ts1 [.comma] with ⟨b, ts2⟩
      rw [h2] at h
      cases b with
      | true =>
        dsimp only at h
        obtain ⟨t, hts1⟩ := consume_if_true_shape h2
        have hsuf2 : ts2 <:+ ts1 := suffix_of_cons hts1
        cases h3 : parse_elements fuel end_ ts2 with
        | error e => rw [h3] at h; simp [except_error_bind] at h
        | ok q =>
          obtain ⟨more, ts3⟩ := q
          rw [h3, except_ok_bind] at h
          dsimp only at h
          simp only [Except.ok.injEq, Prod.mk.injEq] at h
          obtain ⟨rfl, rfl⟩ := h
          have hsufB : ts2 <:+ ts := hsuf2.trans hsuf1
          obtain ⟨hsuf3, hlist⟩ := ih.pelements end_ lo hi ts2 more ts3
            (hsort.suffix hsufB) (hlo.of_suffix_lo hsufB) (hhi.of_suffix_hi hsufB) h3
          have hup : upTo ts1 hi ≤ upTo ts3 hi :=
            upTo_suffix_le (hsort.suffix hsuf1) (hhi.of_suffix_hi hsuf1)
              (hsuf3.trans hsuf2)
          exact ⟨(hsuf3.trans hsuf2).trans hsuf1,
            ListOk_cons.mpr ⟨hnode1.mono_node (le_refl _) hup, hlist⟩⟩
      | false =>
        dsimp only at h
        simp only [Except.ok.injEq, Prod.mk.injEq] at h
        obtain ⟨rfl, rfl⟩ := h
        exact ⟨hsuf1, ListOk_cons.mpr ⟨hnode1, ListOk_nil⟩⟩

/-- Induction step for `parse_negate`. -/
theorem inv_step_negate (fuel : Nat) (ih : ParserInv fuel) :
    PrefixFnOk (parse_negate (fuel + 1)) := by
  intro lo hi ts n rest hsort hlo hhi h
  simp only [parse_negate] at h
  cases h1 : consume ts [.dash] with
  | error e => rw [h1] at h; simp [except_error_bind] at h
  | ok p =>
    obtain ⟨tok, ts1⟩ := p
    rw [h1, except_ok_bind] at h
    dsimp only at h
    cases h2 : parse_expr fuel ((precedence_table .dash).getD (-1)) ts1 with
    | error e => rw [h2] at h; simp [except_error_bind] at h
    | ok q =>
      obtain ⟨operand, ts2⟩ := q
      rw [h2, except_ok_bind] at h
      dsimp only at h
      simp only [Except.ok.injEq, Prod.mk.injEq] at h
      obtain ⟨rfl, rfl⟩ := h
      have hts := consume_ok_shape h1
      have hsuf1 : ts1 <:+ ts := suffix_of_cons hts
      have hsort1 := hsort.suffix hsuf1
      have hhi1 := hhi.of_suffix_hi hsuf1
      have htok := head_token_ok hsort hlo hhi hts
      have hsort' : SortedTokens (tok :: ts1) := hts ▸ hsort
      have hlo1 : LoBound tok.span.2 ts1 := lo_after_head hsort'
      obtain ⟨hsuf2, hnodeOp, -⟩ := ih.pexpr _ tok.span.2 hi ts1 operand ts2
        hsort1 hlo1 hhi1 h2
      have hup12 : upTo ts1 hi ≤ upTo ts2 hi :=
        upTo_suffix_le hsort1 hhi1 hsuf2
      have htokb : lo ≤ tok.span.1 ∧ tok.span.1 ≤ tok.span.2 ∧
          tok.span.2 ≤ upTo ts2 hi :=
        ⟨htok.1, htok.2.1, le_trans htok.2.2 hup12⟩
      have hopb := hnodeOp.2 operand.span (span_mem_allSpans operand)
      have hopb' : lo ≤ operand.span.1 ∧
          operand.span.1 ≤ operand.span.2 ∧
          operand.span.2 ≤ upTo ts2 hi :=
        ⟨le_trans (le_trans htok.1 htok.2.1) hopb.1, hopb.2.1, hopb.2.2⟩
      have hopOk : NodeOk lo (upTo ts2 hi) operand :=
        hnodeOp.mono_node (le_trans htok.1 htok.2.1) (le_refl _)
      refine ⟨hsuf2.trans hsuf1, ?_, ?_⟩
      · exact NodeOk_Apply (NodeOk_Name htokb) hopOk
          (merge_bounds htokb hopb')
          (min_le_left _ _) (le_max_left _ _)
          (min_le_right _ _) (le_max_right _ _)
      · rw [hts]
        exact min_le_left _ _

/-- Induction step for `parse_not`. -/
theorem inv_step_not (fuel : Nat) (ih : ParserInv fuel) :
    PrefixFnOk (parse_not (fuel + 1)) := by
  intro lo hi ts n rest hsort hlo hhi h
  simp only [parse_not] at h
  cases h1 : consume ts [.not_] with
  | error e => rw [h1] at h; simp [except_error_bind] at h
  | ok p =>
    obtain ⟨tok, ts1⟩ := p
    rw [h1, except_ok_bind] at h
    dsimp only at h
    cases h2 : parse_expr fuel ((precedence_table .not_).getD (-1)) ts1 with
    | error e => rw [h2] at h; simp [except_error_bind] at h
    | ok q =>
      obtain ⟨operand, ts2⟩ := q
      rw [h2, except_ok_bind] at h
      dsimp only at h
      simp only [Except.ok.injEq, Prod.mk.injEq] at h
      obtain ⟨rfl, rfl⟩ := h
      have hts := consume_ok_shape h1
      have hsuf1 : ts1 <:+ ts := suffix_of_cons hts
      have hsort1 := hsort.suffix hsuf1
      have hhi1 := hhi.of_suffix_hi hsuf1
      have htok := head_token_ok hsort hlo hhi hts
      have hsort' : SortedTokens (tok :: ts1) := hts ▸ hsort
      have hlo1 : LoBound tok.span.2 ts1 := lo_after_head hsort'
      obtain ⟨hsuf2, hnodeOp, -⟩ := ih.pexpr _ tok.span.2 hi ts1 operand ts2
        hsort1 hlo1 hhi1 h2
      have hup12 : upTo ts1 hi ≤ upTo ts2 hi :=
        upTo_suffix_le hsort1 hhi1 hsuf2
      have htokb : lo ≤ tok.span.1 ∧ tok.span.1 ≤ tok.span.2 ∧
          tok.span.2 ≤ upTo ts2 hi :=
        ⟨htok.1, htok.2.1, le_trans htok.2.2 hup12⟩
      have hopb := hnodeOp.2 operand.span (span_mem_allSpans operand)
      have hopb' : lo ≤ operand.span.1 ∧
          operand.span.1 ≤ operand.span.2 ∧
          operand.span.2 ≤ upTo ts2 hi :=
        ⟨le_trans (le_trans htok.1 htok.2.1) hopb.1, hopb.2.1, hopb.2.2⟩
      have hopOk : NodeOk lo (upTo ts2 hi) operand :=
        hnodeOp.mono_node (le_trans htok.1 htok.2.1) (le_refl _)
      refine ⟨hsuf2.trans hsuf1, ?_, ?_⟩
      · exact NodeOk_Apply (NodeOk_Name htokb) hopOk
          (merge_bounds htokb hopb')
          (min_le_left _ _) (le_max_left _ _)
          (min_le_right _ _) (le_max_right _ _)
      · rw [hts]
        exact min_le_left _ _

/-- Induction step for `parse_pair`. -/
theorem inv_step_pair (fuel : Nat) (ih : ParserInv fuel) :
    InfixFnOk (parse_pair (fuel + 1)) := by
  intro lo hi ts left n rest hsort hlo hhi hwl hspl hstart h
  simp only [parse_pair] at h
  cases h1 : consume ts [.comma] with
  | error e => rw [h1] at h; simp [except_error_bind] at h
  | ok p =>
    obtain ⟨c, ts1⟩ := p
    rw [h1, except_ok_bind] at h
    dsimp only at h
    cases h2 : parse_expr fuel ((precedence_table .comma).getD (-1) - 1)
        ts1 with
    | error e => rw [h2] at h; simp [except_error_bind] at h
    | ok q =>
      obtain ⟨right, ts2⟩ := q
      rw [h2, except_ok_bind] at h
      dsimp only at h
      simp only [Except.ok.injEq, Prod.mk.injEq] at h
      obtain ⟨rfl, rfl⟩ := h
      have hts := consume_ok_shape h1
      have hsuf1 : ts1 <:+ ts := suffix_of_cons hts
      obtain ⟨hsuf2, hnodeR, -⟩ := ih.pexpr _ lo hi ts1 right ts2
        (hsort.suffix hsuf1) (hlo.of_suffix_lo hsuf1) (hhi.of_suffix_hi hsuf1) h2
      have hup : upTo ts hi ≤ upTo ts2 hi :=
        upTo_suffix_le hsort hhi (hsuf2.trans hsuf1)
      have hleftOk : NodeOk lo (upTo ts2 hi) left :=
        ⟨hwl, hspl.mono_spans (le_refl _) hup⟩
      exact ⟨hsuf2.trans hsuf1, NodeOk_Pair_merge hleftOk hnodeR,
        min_le_left _ _⟩

/-- `do`-bind on a `pure` value reduces. -/
theorem except_pure_bind {ε α β : Type} (a : α) (f : α → Except ε β) :
    ((pure a : Except ε α) >>= f) = f a := rfl

/-- Induction step for `build_infix_op`. -/
theorem inv_step_infixOp (fuel : Nat) (ih : ParserInv fuel) :
    ∀ tt ra, InfixFnOk (build_infix_op (fuel + 1) tt ra) := by
  intro tt ra lo hi ts left n rest hsort hlo hhi hwl hspl hstart h
  simp only [build_infix_op] at h
  cases h1 : consume ts [tt] with
  | error e => rw [h1] at h; simp [except_error_bind] at h
  | ok p =>
    obtain ⟨op, ts1⟩ := p
    rw [h1, except_ok_bind] at h
    dsimp only at h
    cases h2 : parse_expr fuel
        ((precedence_table tt).getD (-1) - (if ra then 1 else 0)) ts1 with
    | error e => rw [h2] at h; simp [except_error_bind] at h
    | ok q =>
      obtain ⟨right, ts2⟩ := q
      rw [h2, except_ok_bind] at h
      dsimp only at h
      simp only [Except.ok.injEq, Prod.mk.injEq] at h
      obtain ⟨rfl, rfl⟩ := h
      have hts := consume_ok_shape h1
      have hsuf1 : ts1 <:+ ts := suffix_of_cons hts
      have hsort1 := hsort.suffix hsuf1
      have hhi1 := hhi.of_suffix_hi hsuf1
      have hop := head_token_ok hsort hlo hhi hts
      have hsort' : SortedTokens (op :: ts1) := hts ▸ hsort
      obtain ⟨hsuf2, hnodeR, -⟩ := ih.pexpr _ op.span.2 hi ts1 right ts2
        hsort1 (lo_after_head hsort') hhi1 h2
      have hup12 : upTo ts1 hi ≤ upTo ts2 hi :=
        upTo_suffix_le hsort1 hhi1 hsuf2
      have hupts : upTo ts hi ≤ upTo ts2 hi :=
        upTo_suffix_le hsort hhi (hsuf2.trans hsuf1)
      have hopb : lo ≤ op.span.1 ∧ op.span.1 ≤ op.span.2 ∧
          op.span.2 ≤ upTo ts2 hi :=
        ⟨hop.1, hop.2.1, le_trans hop.2.2 hup12⟩
      have hrb := hnodeR.2 right.span (span_mem_allSpans right)
      have hlb := hspl left.span (span_mem_allSpans left)
      have hlb' : lo ≤ left.span.1 ∧ left.span.1 ≤ left.span.2 ∧
          left.span.2 ≤ upTo ts2 hi :=
        ⟨hlb.1, hlb.2.1, le_trans hlb.2.2 hupts⟩
      have hleftOk : NodeOk lo (upTo ts2 hi) left :=
        ⟨hwl, hspl.mono_spans (le_refl _) hupts⟩
      have hrOk : NodeOk lo (upTo ts2 hi) right :=
        hnodeR.mono_node (le_trans hop.1 hop.2.1) (le_refl _)
      have hlop : left.span.1 ≤ op.span.1 := by
        rw [hts] at hstart
        simpa [headStart] using hstart
      have hInner : NodeOk lo (upTo ts2 hi)
          (ASTNode.Apply (merge left.span op.span)
            (.Name op.span (some tt.value)) left) :=
        NodeOk_Apply (NodeOk_Name hopb) hleftOk (merge_bounds hlb' hopb)
          (min_le_right _ _) (le_max_right _ _)
          (min_le_left _ _) (le_max_left _ _)
      refine ⟨hsuf2.trans hsuf1, ?_, ?_⟩
      · refine NodeOk_Apply hInner hrOk
          (merge_bounds hlb'
            ⟨le_trans (le_trans hop.1 hop.2.1) hrb.1, hrb.2.1, hrb.2.2⟩)
          ?_ ?_ (min_le_right _ _) (le_max_right _ _)
        · exact le_min (min_le_left _ _) (le_trans (min_le_left _ _) hlop)
        · exact max_le (le_max_left _ _)
            (le_trans (le_trans hrb.1 hrb.2.1) (le_max_right _ _))
      · exact min_le_left _ _

/-- Induction step for `parse_apply`. -/
theorem inv_step_apply (fuel : Nat) (ih : ParserInv fuel) :
    InfixFnOk (parse_apply (fuel + 1)) := by
  intro lo hi ts left n rest hsort hlo hhi hwl hspl hstart h
  simp only [parse_apply] at h
  cases h1 : consume ts [.lparen] with
  | error e => rw [h1] at h; simp [except_error_bind] at h
  | ok p =>
    obtain ⟨lp, ts1⟩ := p
    rw [h1, except_ok_bind] at h
    dsimp only at h
    cases h2 : parse_elements fuel [.rparen] ts1 with
    | error e => rw [h2] at h; simp [except_error_bind] at h
    | ok q =>
      obtain ⟨arguments, ts2⟩ := q
      rw [h2, except_ok_bind] at h
      dsimp only at h
      cases h3 : consume ts2 [.rparen] with
      | error e => rw [h3] at h; simp [except_error_bind] at h
      | ok r =>
        obtain ⟨last, ts3⟩ := r
        rw [h3, except_ok_bind] at h
        dsimp only at h
        simp only [Except.ok.injEq, Prod.mk.injEq] at h
        obtain ⟨rfl, rfl⟩ := h
        have hts := consume_ok_shape h1
        have hsuf1 : ts1 <:+ ts := suffix_of_cons hts
        have hsort1 := hsort.suffix hsuf1
        have hhi1 := hhi.of_suffix_hi hsuf1
        have hlp := head_token_ok hsort hlo hhi hts
        have hsort' : SortedTokens (lp :: ts1) := hts ▸ hsort
        have hstart' : left.span.1 ≤ lp.span.1 := by
          rw [hts] at hstart
          simpa [headStart] using hstart
        have hleftLoTs1 : LoBound left.span.1 ts1 := fun t ht =>
          le_trans (le_trans hstart' hlp.2.1) (lo_after_head hsort' t ht)
        obtain ⟨hsuf2, hargs⟩ := ih.pelements [.rparen] left.span.1 hi ts1
          arguments ts2 hsort1 hleftLoTs1 hhi1 h2
        have hts2 := consume_ok_shape h3
        have hsort2 := hsort1.suffix hsuf2
        have hhi2 := hhi1.of_suffix_hi hsuf2
        have hlo2 : LoBound lo ts2 := (hlo.of_suffix_lo hsuf1).of_suffix_lo hsuf2
        have hlast := head_token_ok hsort2 hlo2 hhi2 hts2
        have hsuf3 : ts3 <:+ ts2 := suffix_of_cons hts2
        have hupts : upTo ts hi ≤ upTo ts2 hi :=
          upTo_suffix_le hsort hhi (hsuf2.trans hsuf1)
        have hup23 : upTo ts2 hi ≤ upTo ts3 hi :=
          upTo_suffix_le hsort2 hhi2 hsuf3
        have hlb := hspl left.span (span_mem_allSpans left)
        have hleftOk2 : NodeOk lo (upTo ts2 hi) left :=
          ⟨hwl, hspl.mono_spans (le_refl _) hupts⟩
        have hargsLo : ∀ a ∈ arguments, NodeOk lo (upTo ts2 hi) a :=
          ListOk_mem (hargs.mono_list hlb.1 (le_refl _))
        have hargsGe : ∀ a ∈ arguments, left.span.1 ≤ a.span.1 := fun a ha =>
          (hargs.2 a.span (mem_allSpansListA_of_mem ha)).1
        have hfold := NodeOk_applyFold arguments left hleftOk2 hargsLo
        have hfoldGe := applyFold_span_ge arguments left hargsGe
        have hupEq : upTo ts2 hi = last.span.2 := by rw [hts2]; rfl
        have hressp := hfold.1.2 _ (span_mem_allSpans
          (arguments.foldl
            (fun r argument =>
              ASTNode.Apply (merge r.span argument.span) r argument) left))
        have hs : lo ≤ (merge left.span last.span).1 ∧
            (merge left.span last.span).1 ≤ (merge left.span last.span).2 ∧
            (merge left.span last.span).2 ≤ upTo ts3 hi :=
          merge_bounds
            ⟨hlb.1, hlb.2.1, le_trans hlb.2.2 (le_trans hupts hup23)⟩ hlast
        have hfold1 : (merge left.span last.span).1 ≤
            (arguments.foldl
              (fun r argument =>
                ASTNode.Apply (merge r.span argument.span) r argument)
              left).span.1 :=
          le_trans (min_le_left _ _) hfoldGe
        have hfold2 : (arguments.foldl
              (fun r argument =>
                ASTNode.Apply (merge r.span argument.span) r argument)
              left).span.2 ≤ (merge left.span last.span).2 :=
          le_trans (hupEq ▸ hressp.2.2) (le_max_right _ _)
        have hcov := childSpans_sub_of_span_sub hfold.1.1 hfold1 hfold2
        refine ⟨hsuf3.trans (hsuf2.trans hsuf1), ?_, ?_⟩
        · exact NodeOk_withSpan (hfold.1.mono_node (le_refl _) hup23) hs hcov
        · rw [span_withSpan]
          exact min_le_left _ _

/-- Induction step for `parse_list`. -/
theorem inv_step_list (fuel : Nat) (ih : ParserInv fuel) :
    PrefixFnOk (parse_list (fuel + 1)) := by
  intro lo hi ts n rest hsort hlo hhi h
  simp only [parse_list] at h
  cases h1 : consume ts [.lbracket] with
  | error e => rw [h1] at h; simp [except_error_bind] at h
  | ok p =>
    obtain ⟨first, ts1⟩ := p
    rw [h1, except_ok_bind] at h
    dsimp only at h
    cases h2 : parse_elements fuel [.rbracket] ts1 with
    | error e => rw [h2] at h; simp [except_error_bind] at h
    | ok q =>
      obtain ⟨elements, ts2⟩ := q
      rw [h2, except_ok_bind] at h
      dsimp only at h
      cases h3 : consume ts2 [.rbracket] with
      | error e => rw [h3] at h; simp [except_error_bind] at h
      | ok r =>
        obtain ⟨last, ts3⟩ := r
        rw [h3, except_ok_bind] at h
        dsimp only at h
        simp only [Except.ok.injEq, Prod.mk.injEq] at h
        obtain ⟨rfl, rfl⟩ := h
        have hts := consume_ok_shape h1
        have hsuf1 : ts1 <:+ ts := suffix_of_cons hts
        have hsort1 := hsort.suffix hsuf1
        have hhi1 := hhi.of_suffix_hi hsuf1
        have hfst := head_token_ok hsort hlo hhi hts
        have hsort' : SortedTokens (first :: ts1) := hts ▸ hsort
        obtain ⟨hsuf2, hargs⟩ := ih.pelements [.rbracket] first.span.2 hi ts1
          elements ts2 hsort1 (lo_after_head hsort') hhi1 h2
        have hts2 := consume_ok_shape h3
        have hsort2 := hsort1.suffix hsuf2
        have hhi2 := hhi1.of_suffix_hi hsuf2
        have hlo2 : LoBound lo ts2 := (hlo.of_suffix_lo hsuf1).of_suffix_lo hsuf2
        have hlast := head_token_ok hsort2 hlo2 hhi2 hts2
        have hup12 : upTo ts1 hi ≤ upTo ts2 hi :=
          upTo_suffix_le hsort1 hhi1 hsuf2
        have hup23 : upTo ts2 hi ≤ upTo ts3 hi :=
          upTo_suffix_le hsort2 hhi2 (suffix_of_cons hts2)
        have hupEq : upTo ts2 hi = last.span.2 := by rw [hts2]; rfl
        have hfstb : lo ≤ first.span.1 ∧ first.span.1 ≤ first.span.2 ∧
            first.span.2 ≤ upTo ts3 hi :=
          ⟨hfst.1, hfst.2.1, le_trans hfst.2.2 (le_trans hup12 hup23)⟩
        have hesOk : ListOk lo (upTo ts3 hi) elements :=
          hargs.mono_list (le_trans hfst.1 hfst.2.1) hup23
        refine ⟨(suffix_of_cons hts2).trans (hsuf2.trans hsuf1), ?_, ?_⟩
        · refine NodeOk_List hesOk (merge_bounds hfstb hlast) ?_
          intro m hm
          have hmb := hargs.2 m.span (mem_allSpansListA_of_mem hm)
          constructor
          · exact le_trans (min_le_left _ _)
              (le_trans hfst.2.1 hmb.1)
          · exact le_trans (hupEq ▸ hmb.2.2) (le_max_right _ _)
        · rw [hts]
          exact min_le_left _ _

/-- Induction step for `parse_group`. -/
theorem inv_step_group (fuel : Nat) (ih : ParserInv fuel) :
    PrefixFnOk (parse_group (fuel + 1)) := by
  intro lo hi ts n rest hsort hlo hhi h
  simp only [parse_group] at h
  cases h1 : consume ts [.lparen] with
  | error e => rw [h1] at h; simp [except_error_bind] at h
  | ok p =>
    obtain ⟨st, ts1⟩ := p
    rw [h1, except_ok_bind] at h
    dsimp only at h
    have hts := consume_ok_shape h1
    have hsuf1 : ts1 <:+ ts := suffix_of_cons hts
    have hsort1 := hsort.suffix hsuf1
    have hhi1 := hhi.of_suffix_hi hsuf1
    have hlo1 : LoBound lo ts1 := hlo.of_suffix_lo hsuf1
    have hst := head_token_ok hsort hlo hhi hts
    have hsort' : SortedTokens (st :: ts1) := hts ▸ hsort
    by_cases hpk : peek ts1 [.rparen] = true
    · rw [if_pos hpk, except_pure_bind] at h
      dsimp only at h
      cases h3 : consume ts1 [.rparen] with
      | error e => rw [h3] at h; simp [except_error_bind] at h
      | ok r =>
        obtain ⟨et, ts3⟩ := r
        rw [h3, except_ok_bind] at h
        dsimp only at h
        simp only [Except.ok.injEq, Prod.mk.injEq] at h
        obtain ⟨rfl, rfl⟩ := h
        have hts1 := consume_ok_shape h3
        have het := head_token_ok hsort1 hlo1 hhi1 hts1
        have hup13 : upTo ts1 hi ≤ upTo ts3 hi :=
          upTo_suffix_le hsort1 hhi1 (suffix_of_cons hts1)
        refine ⟨(suffix_of_cons hts1).trans hsuf1, ?_, ?_⟩
        · exact NodeOk_Unit
            (merge_bounds ⟨hst.1, hst.2.1, le_trans hst.2.2 hup13⟩ het)
        · rw [span_withSpan, hts]
          exact min_le_left _ _
    · rw [if_neg hpk] at h
      cases h2 : parse_expr fuel 0 ts1 with
      | error e => rw [h2] at h; simp [except_error_bind] at h
      | ok q =>
        obtain ⟨expr, ts2⟩ := q
        rw [h2, except_ok_bind] at h
        dsimp only at h
        obtain ⟨hsuf2, hexpr, -⟩ := ih.pexpr 0 st.span.2 hi ts1 expr ts2
          hsort1 (lo_after_head hsort') hhi1 h2
        cases h3 : consume ts2 [.rparen] with
        | error e => rw [h3] at h; simp [except_error_bind] at h
        | ok r =>
          obtain ⟨et, ts3⟩ := r
          rw [h3, except_ok_bind] at h
          dsimp only at h
          simp only [Except.ok.injEq, Prod.mk.injEq] at h
          obtain ⟨rfl, rfl⟩ := h
          have hts2 := consume_ok_shape h3
          have hsort2 := hsort1.suffix hsuf2
          have hhi2 := hhi1.of_suffix_hi hsuf2
          have hlo2 : LoBound lo ts2 := hlo1.of_suffix_lo hsuf2
          have het := head_token_ok hsort2 hlo2 hhi2 hts2
          have hup12 : upTo ts1 hi ≤ upTo ts2 hi :=
            upTo_suffix_le hsort1 hhi1 hsuf2
          have hup23 : upTo ts2 hi ≤ upTo ts3 hi :=
            upTo_suffix_le hsort2 hhi2 (suffix_of_cons hts2)
          have hupEq : upTo ts2 hi = et.span.2 := by rw [hts2]; rfl
          have hesp := hexpr.2 expr.span (span_mem_allSpans expr)
          have hcov1 : (merge st.span et.span).1 ≤ expr.span.1 :=
            le_trans (min_le_left _ _) (le_trans hst.2.1 hesp.1)
          have hcov2 : expr.span.2 ≤ (merge st.span et.span).2 :=
            le_trans (hupEq ▸ hesp.2.2) (le_max_right _ _)
          have hcov := childSpans_sub_of_span_sub hexpr.1 hcov1 hcov2
          refine ⟨(suffix_of_cons hts2).trans (hsuf2.trans hsuf1), ?_, ?_⟩
          · exact NodeOk_withSpan
              (hexpr.mono_node (le_trans hst.1 hst.2.1) hup23)
              (merge_bounds
                ⟨hst.1, hst.2.1, le_trans hst.2.2 (le_trans hup12 hup23)⟩ het)
              hcov
          · rw [span_withSpan, hts]
            exact min_le_left _ _

/-- Induction step for `parseParametersLoop`. -/
theorem inv_step_paramsLoop (fuel : Nat) (ih : ParserInv fuel) :
    ListFnOk (parseParametersLoop (fuel + 1)) := by
  intro lo hi ts ns rest hsort hlo hhi h
  simp only [parseParametersLoop] at h
  by_cases hp : peek ts [.name_] = true
  · rw [if_pos hp] at h
    cases h1 : consume ts [.name_] with
    | error e => rw [h1] at h; simp [except_error_bind] at h
    | ok p =>
      obtain ⟨name_token, ts1⟩ := p
      rw [h1, except_ok_bind] at h
      dsimp only at h
      have hts := consume_ok_shape h1
      have hsuf1 : ts1 <:+ ts := suffix_of_cons hts
      have hsort1 := hsort.suffix hsuf1
      have hhi1 := hhi.of_suffix_hi hsuf1
      have hname := head_token_ok hsort hlo hhi hts
      by_cases hc : peek ts1 [.colon] = true
      · rw [if_pos hc] at h
        cases h2 : consume ts1 [.colon] with
        | error e => rw [h2] at h; simp [except_error_bind] at h
        | ok q =>
          obtain ⟨ct, ts2⟩ := q
          rw [h2, except_ok_bind] at h
          dsimp only at h
          cases h3 : parse_type fuel ts2 with
          | error e => rw [h3] at h; simp [except_error_bind] at h
          | ok r =>
            obtain ⟨param_type, ts3⟩ := r
            rw [h3, except_ok_bind] at h
            dsimp only at h
            cases hv : name_token.value with
            | none => rw [hv] at h; dsimp only at h; simp [except_error_bind] at h
            | some v =>
              rw [hv] at h
              dsimp only at h
              rw [except_pure_bind] at h
              dsimp only at h
              have hsufI : ts3 <:+ ts1 :=
                ((ih.ptype ts2 param_type ts3 h3).trans
                  (suffix_of_cons (consume_ok_shape h2)))
              rcases h4 : consume_if ts3 [.comma] with ⟨bb, ts4⟩
              rw [h4] at h
              cases bb with
              | true =>
                dsimp only at h
                obtain ⟨ct2, hts3⟩ := consume_if_true_shape h4
                cases h5 : parseParametersLoop fuel ts4 with
                | error e => rw [h5] at h; simp [except_error_bind] at h
                | ok s =>
                  obtain ⟨more, ts5⟩ := s
                  rw [h5, except_ok_bind] at h
                  dsimp only at h
                  simp only [Except.ok.injEq, Prod.mk.injEq] at h
                  obtain ⟨rfl, rfl⟩ := h
                  have hsufC : ts4 <:+ ts1 :=
                    (suffix_of_cons hts3).trans hsufI
                  obtain ⟨hsuf5, hmore⟩ := ih.pparamsLoop lo hi ts4 more ts5
                    (hsort1.suffix hsufC)
                    ((hlo.of_suffix_lo hsuf1).of_suffix_lo hsufC)
                    (hhi1.of_suffix_hi hsufC) h5
                  have hupb : upTo ts1 hi ≤ upTo ts5 hi :=
                    upTo_suffix_le hsort1 hhi1 (hsuf5.trans hsufC)
                  refine ⟨(hsuf5.trans hsufC).trans hsuf1,
                    ListOk_cons.mpr ⟨?_, hmore⟩⟩
                  exact NodeOk_TypedName
                    ⟨hname.1, hname.2.1, le_trans hname.2.2 hupb⟩
              | false =>
                dsimp only at h
                simp only [Except.ok.injEq, Prod.mk.injEq] at h
                obtain ⟨rfl, rfl⟩ := h
                have hupb : upTo ts1 hi ≤ upTo ts3 hi :=
                  upTo_suffix_le hsort1 hhi1 hsufI
                refine ⟨hsufI.trans hsuf1,
                  ListOk_cons.mpr ⟨?_, ListOk_nil⟩⟩
                exact NodeOk_TypedName
                  ⟨hname.1, hname.2.1, le_trans hname.2.2 hupb⟩
      · rw [if_neg hc] at h
        rw [except_pure_bind] at h
        dsimp only at h
        rcases h4 : consume_if ts1 [.comma] with ⟨bb, ts4⟩
        rw [h4] at h
        cases bb with
        | true =>
          dsimp only at h
          obtain ⟨ct2, hts1C⟩ := consume_if_true_shape h4
          cases h5 : parseParametersLoop fuel ts4 with
          | error e => rw [h5] at h; simp [except_error_bind] at h
          | ok s =>
            obtain ⟨more, ts5⟩ := s
            rw [h5, except_ok_bind] at h
            dsimp only at h
            simp only [Except.ok.injEq, Prod.mk.injEq] at h
            obtain ⟨rfl, rfl⟩ := h
            have hsufC : ts4 <:+ ts1 := suffix_of_cons hts1C
            obtain ⟨hsuf5, hmore⟩ := ih.pparamsLoop lo hi ts4 more ts5
              (hsort1.suffix hsufC)
              ((hlo.of_suffix_lo hsuf1).of_suffix_lo hsufC)
              (hhi1.of_suffix_hi hsufC) h5
            have hupb : upTo ts1 hi ≤ upTo ts5 hi :=
              upTo_suffix_le hsort1 hhi1 (hsuf5.trans hsufC)
            refine ⟨(hsuf5.trans hsufC).trans hsuf1,
              ListOk_cons.mpr ⟨?_, hmore⟩⟩
            exact NodeOk_Name ⟨hname.1, hname.2.1, le_trans hname.2.2 hupb⟩
        | false =>
          dsimp only at h
          simp only [Except.ok.injEq, Prod.mk.injEq] at h
          obtain ⟨rfl, rfl⟩ := h
          exact ⟨hsuf1, ListOk_cons.mpr ⟨NodeOk_Name hname, ListOk_nil⟩⟩
  · rw [if_neg hp] at h
    simp only [Except.ok.injEq, Prod.mk.injEq] at h
    obtain ⟨rfl, rfl⟩ := h
    exact ⟨List.suffix_refl _, ListOk_nil⟩

/-- Induction step for `parseBlockItems`. -/
theorem inv_step_blockItems (fuel : Nat) (ih : ParserInv fuel) :
    ∀ ends, ChainFnOk (parseBlockItems (fuel + 1) ends) := by
  intro ends lo hi ts ns rest hsort hlo hhi h
  simp only [parseBlockItems] at h
  rcases h0 : consume_if ts ends with ⟨b0, ts0⟩
  rw [h0] at h
  cases b0 with
  | true =>
    dsimp only at h
    simp only [Except.ok.injEq, Prod.mk.injEq] at h
    obtain ⟨rfl, rfl⟩ := h
    obtain ⟨t, hts⟩ := consume_if_true_shape h0
    exact ⟨suffix_of_cons hts, ⟨ListOk_nil, trivial⟩⟩
  | false =>
    dsimp only at h
    cases h1 : parse_expr fuel 0 ts with
    | error e => rw [h1] at h; simp [except_error_bind] at h
    | ok p =>
      obtain ⟨expr, ts1⟩ := p
      rw [h1, except_ok_bind] at h
      dsimp only at h
      obtain ⟨hsuf1, hexpr, -⟩ := ih.pexpr 0 lo hi ts expr ts1 hsort hlo hhi h1
      cases h2 : consume ts1 [.eol] with
      | error e => rw [h2] at h; simp [except_error_bind] at h
      | ok q =>
        obtain ⟨e0, ts2⟩ := q
        rw [h2, except_ok_bind] at h
        dsimp only at h
        cases h3 : parseBlockItems fuel ends ts2 with
        | error e => rw [h3] at h; simp [except_error_bind] at h
        | ok r =>
          obtain ⟨more, ts3⟩ := r
          rw [h3, except_ok_bind] at h
          dsimp only at h
          simp only [Except.ok.injEq, Prod.mk.injEq] at h
          obtain ⟨rfl, rfl⟩ := h
          have hts1 := consume_ok_shape h2
          have hsort1 := hsort.suffix hsuf1
          have hhi1 := hhi.of_suffix_hi hsuf1
          have hlo1 : LoBound lo ts1 := hlo.of_suffix_lo hsuf1
          have hsort1' : SortedTokens (e0 :: ts2) := hts1 ▸ hsort1
          have hsuf2 : ts2 <:+ ts1 := suffix_of_cons hts1
          obtain ⟨hsuf3, hchain⟩ := ih.pblockItems ends e0.span.2 hi ts2
            more ts3 (hsort1.suffix hsuf2) (lo_after_head hsort1')
            (hhi1.of_suffix_hi hsuf2) h3
          have he0 := head_token_ok hsort1 hlo1 hhi1 hts1
          have hupEq1 : upTo ts1 hi = e0.span.2 := by rw [hts1]; rfl
          have hup23 : upTo ts2 hi ≤ upTo ts3 hi :=
            upTo_suffix_le (hsort1.suffix hsuf2) (hhi1.of_suffix_hi hsuf2) hsuf3
          have hup12 : upTo ts1 hi ≤ upTo ts2 hi :=
            upTo_suffix_le hsort1 hhi1 hsuf2
          have hup1b : upTo ts1 hi ≤ upTo ts3 hi := le_trans hup12 hup23
          have hexprOk : NodeOk lo (upTo ts3 hi) expr :=
            hexpr.mono_node (le_refl _) hup1b
          have hmoreOk : ListOk lo (upTo ts3 hi) more :=
            hchain.1.mono_list (le_trans he0.1 he0.2.1) (le_refl _)
          refine ⟨hsuf3.trans (hsuf2.trans hsuf1),
            ⟨ListOk_cons.mpr ⟨hexprOk, hmoreOk⟩, ?_⟩⟩
          cases more with
          | nil => exact List.chain'_singleton _
          | cons y ys =>
            refine List.chain'_cons.mpr ⟨?_, hchain.2⟩
            intro sp hsp
            have hy1 : e0.span.2 ≤ y.span.1 :=
              (hchain.1.2 y.span (mem_allSpansListA_of_mem (by simp))).1
            exact le_trans (hexpr.2 sp hsp).2.2 (hupEq1 ▸ hy1)

/-- Induction step for `parse_block`. -/
theorem inv_step_block (fuel : Nat) (ih : ParserInv fuel) :
    ∀ ends, StreamFnOk (parse_block (fuel + 1) ends) := by
  intro ends lo hi ts n rest hsort hlo hhi h
  simp only [parse_block] at h
  by_cases he : ends.isEmpty = true
  · rw [if_pos he] at h
    simp at h
  · rw [if_neg he] at h
    cases h1 : parseBlockItems fuel ends ts with
    | error e => rw [h1] at h; simp [except_error_bind] at h
    | ok p =>
      obtain ⟨exprs, ts1⟩ := p
      rw [h1, except_ok_bind] at h
      dsimp only at h
      obtain ⟨hsuf1, hchain⟩ := ih.pblockItems ends lo hi ts exprs ts1
        hsort hlo hhi h1
      cases exprs with
      | nil =>
        dsimp only at h
        cases ts1 with
        | nil => simp [preview] at h
        | cons x xs =>
          have hpv : preview (x :: xs) = some x := rfl
          rw [hpv] at h
          dsimp only at h
          simp only [Except.ok.injEq] at h
          obtain ⟨rfl, rfl⟩ := h
          refine ⟨hsuf1, NodeOk_Unit ⟨?_, ?_, ?_⟩⟩
          · exact (hlo.of_suffix_lo hsuf1) _ (by simp)
          · exact (hsort.suffix hsuf1).1 _ (by simp)
          · exact le_refl _
      | cons e tail =>
        cases tail with
        | nil =>
          dsimp only at h
          simp only [Except.ok.injEq] at h
          obtain ⟨rfl, rfl⟩ := h
          exact ⟨hsuf1, (ListOk_cons.mp hchain.1).1⟩
        | cons e2 tail2 =>
          dsimp only at h
          simp only [Except.ok.injEq] at h
          obtain ⟨rfl, rfl⟩ := h
          exact ⟨hsuf1, NodeOk_Block_chain hchain⟩

/-- Induction step for `parse_if`. -/
theorem inv_step_if (fuel : Nat) (ih : ParserInv fuel) :
    PrefixFnOk (parse_if (fuel + 1)) := by
  intro lo hi ts n rest hsort hlo hhi h
  simp only [parse_if] at h
  cases h1 : consume ts [.if_] with
  | error e => rw [h1] at h; simp [except_error_bind] at h
  | ok p1 =>
    obtain ⟨first, ts1⟩ := p1
    rw [h1, except_ok_bind] at h
    dsimp only at h
    cases h2 : parse_expr fuel ((precedence_table .if_).getD (-1)) ts1 with
    | error e => rw [h2] at h; simp [except_error_bind] at h
    | ok p2 =>
      obtain ⟨pred, ts2⟩ := p2
      rw [h2, except_ok_bind] at h
      dsimp only at h
      cases h3 : consume ts2 [.then_] with
      | error e => rw [h3] at h; simp [except_error_bind] at h
      | ok p3 =>
        obtain ⟨tht, ts3⟩ := p3
        rw [h3, except_ok_bind] at h
        dsimp only at h
        cases h4 : parse_expr fuel ((precedence_table .if_).getD (-1)) ts3 with
        | error e => rw [h4] at h; simp [except_error_bind] at h
        | ok p4 =>
          obtain ⟨cons, ts4⟩ := p4
          rw [h4, except_ok_bind] at h
          dsimp only at h
          cases h5 : consume ts4 [.else_] with
          | error e => rw [h5] at h; simp [except_error_bind] at h
          | ok p5 =>
            obtain ⟨elt, ts5⟩ := p5
            rw [h5, except_ok_bind] at h
            dsimp only at h
            cases h6 : parse_expr fuel ((precedence_table .if_).getD (-1))
                ts5 with
            | error e => rw [h6] at h; simp [except_error_bind] at h
            | ok p6 =>
              obtain ⟨els, ts6⟩ := p6
              rw [h6, except_ok_bind] at h
              dsimp only at h
              simp only [Except.ok.injEq, Prod.mk.injEq] at h
              obtain ⟨rfl, rfl⟩ := h
              have hts := consume_ok_shape h1
              have hsuf1 : ts1 <:+ ts := suffix_of_cons hts
              have hsort1 := hsort.suffix hsuf1
              have hhi1 := hhi.of_suffix_hi hsuf1
              have hfirst := head_token_ok hsort hlo hhi hts
              have hsort' : SortedTokens (first :: ts1) := hts ▸ hsort
              obtain ⟨hsuf2, hpred, -⟩ := ih.pexpr _ first.span.2 hi ts1
                pred ts2 hsort1 (lo_after_head hsort') hhi1 h2
              have hsort2 := hsort1.suffix hsuf2
              have hhi2 := hhi1.of_suffix_hi hsuf2
              have hlo2 : LoBound lo ts2 := (hlo.of_suffix_lo hsuf1).of_suffix_lo hsuf2
              have hts2 := consume_ok_shape h3
              have htht := head_token_ok hsort2 hlo2 hhi2 hts2
              have hsort2' : SortedTokens (tht :: ts3) := hts2 ▸ hsort2
              have hsuf3 : ts3 <:+ ts2 := suffix_of_cons hts2
              have hsort3 := hsort2.suffix hsuf3
              have hhi3 := hhi2.of_suffix_hi hsuf3
              obtain ⟨hsuf4, hcons, -⟩ := ih.pexpr _ tht.span.2 hi ts3
                cons ts4 hsort3 (lo_after_head hsort2') hhi3 h4
              have hsort4 := hsort3.suffix hsuf4
              have hhi4 := hhi3.of_suffix_hi hsuf4
              have hlo4 : LoBound lo ts4 :=
                ((hlo2.of_suffix_lo hsuf3).of_suffix_lo hsuf4)
              have hts4 := consume_ok_shape h5
              have helt := head_token_ok hsort4 hlo4 hhi4 hts4
              have hsort4' : SortedTokens (elt :: ts5) := hts4 ▸ hsort4
              have hsuf5 : ts5 <:+ ts4 := suffix_of_cons hts4
              have hsort5 := hsort4.suffix hsuf5
              have hhi5 := hhi4.of_suffix_hi hsuf5
              obtain ⟨hsuf6, hels, -⟩ := ih.pexpr _ elt.span.2 hi ts5
                els ts6 hsort5 (lo_after_head hsort4') hhi5 h6
              have hupEq2 : upTo ts2 hi = tht.span.2 := by rw [hts2]; rfl
              have hupEq4 : upTo ts4 hi = elt.span.2 := by rw [hts4]; rfl
              have hpredB := hpred.2 pred.span (span_mem_allSpans pred)
              have hconsB := hcons.2 cons.span (span_mem_allSpans cons)
              have helsB := hels.2 els.span (span_mem_allSpans els)
              have hup4b : upTo ts4 hi ≤ upTo ts6 hi :=
                upTo_suffix_le hsort4 hhi4 (hsuf6.trans hsuf5)
              have hup2b : upTo ts2 hi ≤ upTo ts6 hi :=
                le_trans (upTo_suffix_le hsort2 hhi2 (hsuf4.trans hsuf3)) hup4b
              have hup1b : upTo ts1 hi ≤ upTo ts6 hi :=
                le_trans (upTo_suffix_le hsort1 hhi1 hsuf2) hup2b
              -- linear facts along the token chain
              have c1 : first.span.2 ≤ pred.span.1 := hpredB.1
              have c2 : pred.span.2 ≤ tht.span.2 := hupEq2 ▸ hpredB.2.2
              have c3 : tht.span.2 ≤ cons.span.1 := hconsB.1
              have c4 : cons.span.2 ≤ elt.span.2 := hupEq4 ▸ hconsB.2.2
              have c5 : elt.span.2 ≤ els.span.1 := helsB.1
              have hlolo : lo ≤ first.span.2 := le_trans hfirst.1 hfirst.2.1
              refine ⟨hsuf6.trans (hsuf5.trans (hsuf4.trans (hsuf3.trans
                (hsuf2.trans hsuf1)))), ?_, ?_⟩
              · refine NodeOk_Cond
                  (hpred.mono_node hlolo hup2b)
                  (hcons.mono_node (le_trans htht.1 htht.2.1) hup4b)
                  (hels.mono_node (le_trans helt.1 helt.2.1) (le_refl _))
                  (merge_bounds
                    ⟨hfirst.1, hfirst.2.1, le_trans hfirst.2.2 hup1b⟩
                    ⟨le_trans (le_trans helt.1 helt.2.1) helsB.1,
                      helsB.2.1, helsB.2.2⟩)
                  ?_ ?_ ?_ ?_ ?_ ?_
                · exact le_trans (min_le_left _ _)
                    (le_trans hfirst.2.1 c1)
                · exact le_trans c2 (le_trans c3 (le_trans hconsB.2.1
                    (le_trans c4 (le_trans c5 (le_trans helsB.2.1
                      (le_max_right _ _))))))
                · exact le_trans (min_le_left _ _) (le_trans hfirst.2.1
                    (le_trans c1 (le_trans hpredB.2.1 (le_trans c2 c3))))
                · exact le_trans c4 (le_trans c5 (le_trans helsB.2.1
                    (le_max_right _ _)))
                · exact le_trans (min_le_left _ _) (le_trans hfirst.2.1
                    (le_trans c1 (le_trans hpredB.2.1 (le_trans c2
                      (le_trans c3 (le_trans hconsB.2.1 (le_trans c4 c5)))))))
                · exact le_max_right _ _
              · rw [hts]
                exact min_le_left _ _

/-- Induction step for `parse_func`. -/
theorem inv_step_func (fuel : Nat) (ih : ParserInv fuel) :
    PrefixFnOk (parse_func (fuel + 1)) := by
  intro lo hi ts n rest hsort hlo hhi h
  simp only [parse_func] at h
  cases h1 : consume ts [.bslash] with
  | error e => rw [h1] at h; simp [except_error_bind] at h
  | ok p1 =>
    obtain ⟨first, ts1⟩ := p1
    rw [h1, except_ok_bind] at h
    dsimp only at h
    cases h2 : parse_parameters fuel ts1 with
    | error e => rw [h2] at h; simp [except_error_bind] at h
    | ok p2 =>
      obtain ⟨params, ts2⟩ := p2
      rw [h2, except_ok_bind] at h
      dsimp only at h
      cases h3 : consume ts2 [.arrow] with
      | error e => rw [h3] at h; simp [except_error_bind] at h
      | ok p3 =>
        obtain ⟨ar, ts3⟩ := p3
        rw [h3, except_ok_bind] at h
        dsimp only at h
        cases h4 : parse_expr fuel ((precedence_table .bslash).getD (-1))
            ts3 with
        | error e => rw [h4] at h; simp [except_error_bind] at h
        | ok p4 =>
          obtain ⟨body, ts4⟩ := p4
          rw [h4, except_ok_bind] at h
          dsimp only at h
          simp only [Except.ok.injEq, Prod.mk.injEq] at h
          obtain ⟨rfl, rfl⟩ := h
          have hts := consume_ok_shape h1
          have hsuf1 : ts1 <:+ ts := suffix_of_cons hts
          have hsort1 := hsort.suffix hsuf1
          have hhi1 := hhi.of_suffix_hi hsuf1
          have hfirst := head_token_ok hsort hlo hhi hts
          have hsort' : SortedTokens (first :: ts1) := hts ▸ hsort
          obtain ⟨hsuf2, hparams⟩ := ih.pparams first.span.2 hi ts1
            params ts2 hsort1 (lo_after_head hsort') hhi1 h2
          have hsort2 := hsort1.suffix hsuf2
          have hhi2 := hhi1.of_suffix_hi hsuf2
          have hlo2 : LoBound lo ts2 := (hlo.of_suffix_lo hsuf1).of_suffix_lo hsuf2
          have hts2 := consume_ok_shape h3
          have har := head_token_ok hsort2 hlo2 hhi2 hts2
          have hsort2' : SortedTokens (ar :: ts3) := hts2 ▸ hsort2
          have hsuf3 : ts3 <:+ ts2 := suffix_of_cons hts2
          have hsort3 := hsort2.suffix hsuf3
          have hhi3 := hhi2.of_suffix_hi hsuf3
          obtain ⟨hsuf4, hbody, -⟩ := ih.pexpr _ ar.span.2 hi ts3
            body ts4 hsort3 (lo_after_head hsort2') hhi3 h4
          have hupEq2 : upTo ts2 hi = ar.span.2 := by rw [hts2]; rfl
          have hbodyB := hbody.2 body.span (span_mem_allSpans body)
          have hup2b : upTo ts2 hi ≤ upTo ts4 hi :=
            upTo_suffix_le hsort2 hhi2 (hsuf4.trans hsuf3)
          have hup1b : upTo ts1 hi ≤ upTo ts4 hi :=
            le_trans (upTo_suffix_le hsort1 hhi1 hsuf2) hup2b
          have hlolo : lo ≤ first.span.2 := le_trans hfirst.1 hfirst.2.1
          have hbodyOk : NodeOk lo (upTo ts4 hi) body :=
            hbody.mono_node (le_trans har.1 har.2.1) (le_refl _)
          have hcurry : NodeOk lo (upTo ts4 hi)
              (Function.curry (merge first.span body.span) params body) := by
            refine NodeOk_curry params body hbodyOk
              (fun p hp => ListOk_mem (hparams.mono_list hlolo hup2b) p hp)
              (fun p hp => ?_) ?_ ?_
            · have hpb := hparams.2 p.span (mem_allSpansListA_of_mem hp)
              constructor
              · exact le_trans (min_le_left _ _)
                  (le_trans hfirst.2.1 hpb.1)
              · exact le_trans (hupEq2 ▸ hpb.2.2)
                  (le_trans hbodyB.1 (le_trans hbodyB.2.1 (le_max_right _ _)))
            · exact ⟨min_le_right _ _, le_max_right _ _⟩
            · exact merge_bounds
                ⟨hfirst.1, hfirst.2.1, le_trans hfirst.2.2 hup1b⟩
                ⟨le_trans (le_trans har.1 har.2.1) hbodyB.1,
                  hbodyB.2.1, hbodyB.2.2⟩
          refine ⟨hsuf4.trans (hsuf3.trans (hsuf2.trans hsuf1)), hcurry, ?_⟩
          obtain ⟨p0, ps, rfl⟩ : ∃ p0 ps, params = p0 :: ps := by
            cases params with
            | nil => exact absurd rfl (parse_parameters_ne_nil h2)
            | cons p0 ps => exact ⟨p0, ps, rfl⟩
          rw [curry_cons, span_Function, hts]
          exact min_le_left _ _

/-- Induction step for `parse_define`. -/
theorem inv_step_define (fuel : Nat) (ih : ParserInv fuel) :
    PrefixFnOk (parse_define (fuel + 1)) := by
  intro lo hi ts n rest hsort hlo hhi h
  simp only [parse_define] at h
  cases h1 : consume ts [.let_] with
  | error e => rw [h1] at h; simp [except_error_bind] at h
  | ok p1 =>
    obtain ⟨st, ts1⟩ := p1
    rw [h1, except_ok_bind] at h
    dsimp only at h
    cases h2 : consume ts1 [.name_] with
    | error e => rw [h2] at h; simp [except_error_bind] at h
    | ok p2 =>
      obtain ⟨tgt, ts2⟩ := p2
      rw [h2, except_ok_bind] at h
      dsimp only at h
      have hts := consume_ok_shape h1
      have hsuf1 : ts1 <:+ ts := suffix_of_cons hts
      have hsort1 := hsort.suffix hsuf1
      have hhi1 := hhi.of_suffix_hi hsuf1
      have hlo1 : LoBound lo ts1 := hlo.of_suffix_lo hsuf1
      have hst := head_token_ok hsort hlo hhi hts
      have hts1 := consume_ok_shape h2
      have hsuf2 : ts2 <:+ ts1 := suffix_of_cons hts1
      have hsort2 := hsort1.suffix hsuf2
      have hhi2 := hhi1.of_suffix_hi hsuf2
      have hlo2 : LoBound lo ts2 := hlo1.of_suffix_lo hsuf2
      have htgt := head_token_ok hsort1 hlo1 hhi1 hts1
      have hsort1' : SortedTokens (tgt :: ts2) := hts1 ▸ hsort1
      have hlotgt : LoBound tgt.span.2 ts2 := lo_after_head hsort1'
      have hsttgt : st.span.2 ≤ tgt.span.1 :=
        lo_after_head (hts ▸ hsort) tgt (by rw [hts1]; simp)
      rcases h3 : consume_if ts2 [.lparen] with ⟨b3, ts3⟩
      rw [h3] at h
      cases b3 with
      | true =>
        dsimp only at h
        obtain ⟨lpt, hts2⟩ := consume_if_true_shape h3
        have hsuf3 : ts3 <:+ ts2 := suffix_of_cons hts2
        cases h4 : parse_parameters fuel ts3 with
        | error e => rw [h4] at h; simp [except_error_bind] at h
        | ok p4 =>
          obtain ⟨params, ts4⟩ := p4
          rw [h4, except_ok_bind] at h
          dsimp only at h
          obtain ⟨hsuf4, hparams⟩ := ih.pparams tgt.span.2 hi ts3 params ts4
            (hsort2.suffix hsuf3) (hlotgt.of_suffix_lo hsuf3)
            (hhi2.of_suffix_hi hsuf3) h4
          cases h5 : consume ts4 [.rparen] with
          | error e => rw [h5] at h; simp [except_error_bind] at h
          | ok p5 =>
            obtain ⟨rp, ts5⟩ := p5
            rw [h5, except_ok_bind] at h
            dsimp only at h
            have hsuf34 : ts4 <:+ ts2 := hsuf4.trans hsuf3
            have hsort4 := hsort2.suffix hsuf34
            have hhi4 := hhi2.of_suffix_hi hsuf34
            have hlo4 : LoBound lo ts4 := hlo2.of_suffix_lo hsuf34
            have hts4 := consume_ok_shape h5
            have hrp := head_token_ok hsort4 hlo4 hhi4 hts4
            have hsort4' : SortedTokens (rp :: ts5) := hts4 ▸ hsort4
            have hlorp : LoBound rp.span.2 ts5 := lo_after_head hsort4'
            have hupEq4 : upTo ts4 hi = rp.span.2 := by rw [hts4]; rfl
            have hsuf5 : ts5 <:+ ts4 := suffix_of_cons hts4
            have hsort5 := hsort4.suffix hsuf5
            have hhi5 := hhi4.of_suffix_hi hsuf5
            have hup24 : upTo ts2 hi ≤ upTo ts4 hi :=
              upTo_suffix_le hsort2 hhi2 hsuf34
            obtain ⟨p0, ps, rfl⟩ : ∃ p0 ps, params = p0 :: ps := by
              cases params with
              | nil => exact absurd rfl (parse_parameters_ne_nil h4)
              | cons p0 ps => exact ⟨p0, ps, rfl⟩
            rcases h6 : consume_if ts5 [.arrow] with ⟨b6, ts6⟩
            rw [h6] at h
            cases b6 with
            | true =>
              dsimp only at h
              obtain ⟨art, hts5⟩ := consume_if_true_shape h6
              cases h7 : parse_type fuel ts6 with
              | error e => rw [h7] at h; simp [except_error_bind] at h
              | ok p7 =>
                obtain ⟨return_type, ts7⟩ := p7
                rw [h7, except_ok_bind] at h
                dsimp only at h
                cases h8 : parse_body_section fuel ts7 with
                | error e => rw [h8] at h; simp [except_error_bind] at h
                | ok p8 =>
                  obtain ⟨body, ts8⟩ := p8
                  rw [h8, except_ok_bind] at h
                  dsimp only at h
                  cases hv : tgt.value with
                  | none => rw [hv] at h; dsimp only at h; simp at h
                  | some v =>
                    rw [hv] at h
                    dsimp only at h
                    simp only [Except.ok.injEq, Prod.mk.injEq] at h
                    obtain ⟨rfl, rfl⟩ := h
                    have hsufR : ts7 <:+ ts5 :=
                      (ih.ptype ts6 return_type ts7 h7).trans
                        (suffix_of_cons hts5)
                    obtain ⟨hsuf8, hbody⟩ := ih.pbody rp.span.2 hi ts7
                      body ts8 (hsort5.suffix hsufR)
                      (hlorp.of_suffix_lo hsufR) (hhi5.of_suffix_hi hsufR) h8
                    have hup5b : upTo ts5 hi ≤ upTo ts8 hi :=
                      upTo_suffix_le hsort5 hhi5 (hsuf8.trans hsufR)
                    have hup4b : upTo ts4 hi ≤ upTo ts8 hi :=
                      le_trans (upTo_suffix_le hsort4 hhi4 hsuf5) hup5b
                    have hup2b : upTo ts2 hi ≤ upTo ts8 hi :=
                      le_trans hup24 hup4b
                    have hup1b : upTo ts1 hi ≤ upTo ts8 hi :=
                      le_trans (upTo_suffix_le hsort1 hhi1 hsuf2) hup2b
                    have hbodyB := hbody.2 body.span (span_mem_allSpans body)
                    have hrpbody : upTo ts4 hi ≤ body.span.1 :=
                      hupEq4 ▸ hbodyB.1
                    have hbodyLo : lo ≤ body.span.1 :=
                      le_trans (le_trans hrp.1 hrp.2.1) hbodyB.1
                    have htgtb : lo ≤ tgt.span.1 ∧
                        tgt.span.1 ≤ tgt.span.2 ∧
                        tgt.span.2 ≤ upTo ts8 hi :=
                      ⟨htgt.1, htgt.2.1, le_trans htgt.2.2 hup2b⟩
                    have htgtbody : tgt.span.2 ≤ body.span.1 :=
                      le_trans htgt.2.2 (le_trans hup24 hrpbody)
                    have hcurry : NodeOk lo (upTo ts8 hi)
                        (Function.curry (merge tgt.span body.span)
                          (p0 :: ps) body) := by
                      refine NodeOk_curry (p0 :: ps) body
                        (hbody.mono_node (le_trans hrp.1 hrp.2.1) (le_refl _))
                        (fun p hp => ListOk_mem
                          (hparams.mono_list (le_trans htgt.1 htgt.2.1) hup4b)
                          p hp)
                        (fun p hp => ?_)
                        ⟨min_le_right _ _, le_max_right _ _⟩
                        (merge_bounds htgtb
                          ⟨hbodyLo, hbodyB.2.1, hbodyB.2.2⟩)
                      have hpb := hparams.2 p.span (mem_allSpansListA_of_mem hp)
                      constructor
                      · exact le_trans (min_le_left _ _)
                          (le_trans htgt.2.1 hpb.1)
                      · exact le_trans (hupEq4 ▸ hpb.2.2)
                          (le_trans hbodyB.1
                            (le_trans hbodyB.2.1 (le_max_right _ _)))
                    have hcurrySpan :
                        (Function.curry (merge tgt.span body.span)
                          (p0 :: ps) body).span = merge tgt.span body.span := by
                      rw [curry_cons, span_Function]
                    refine ⟨((hsuf8.trans hsufR).trans hsuf5).trans
                      (hsuf34.trans (hsuf2.trans hsuf1)), ?_, ?_⟩
                    · refine NodeOk_TypedDefine
                        (NodeOk_TypedName htgtb) hcurry
                        (merge_bounds
                          ⟨hst.1, hst.2.1, le_trans hst.2.2 hup1b⟩
                          ⟨hbodyLo, hbodyB.2.1, hbodyB.2.2⟩)
                        ?_ ?_ ?_ ?_
                      · exact le_trans (min_le_left _ _)
                          (le_trans hst.2.1 hsttgt)
                      · exact le_trans htgtbody
                          (le_trans hbodyB.2.1 (le_max_right _ _))
                      · rw [hcurrySpan]
                        exact le_min
                          (le_trans (min_le_left _ _)
                            (le_trans hst.2.1 hsttgt))
                          (min_le_right _ _)
                      · rw [hcurrySpan]
                        exact max_le
                          (le_trans htgtbody
                            (le_trans hbodyB.2.1 (le_max_right _ _)))
                          (le_max_right _ _)
                    · rw [hts]
                      exact min_le_left _ _
            | false =>
              dsimp only at h
              cases h7 : parse_body_section fuel ts5 with
              | error e => rw [h7] at h; simp [except_error_bind] at h
              | ok p7 =>
                obtain ⟨body, tsB⟩ := p7
                rw [h7, except_ok_bind] at h
                dsimp only at h
                simp only [Except.ok.injEq, Prod.mk.injEq] at h
                obtain ⟨rfl, rfl⟩ := h
                obtain ⟨hsuf8, hbody⟩ := ih.pbody rp.span.2 hi ts5
                  body tsB hsort5 hlorp hhi5 h7
                have hup5b : upTo ts5 hi ≤ upTo tsB hi :=
                  upTo_suffix_le hsort5 hhi5 hsuf8
                have hup4b : upTo ts4 hi ≤ upTo tsB hi :=
                  le_trans (upTo_suffix_le hsort4 hhi4 hsuf5) hup5b
                have hup2b : upTo ts2 hi ≤ upTo tsB hi :=
                  le_trans hup24 hup4b
                have hup1b : upTo ts1 hi ≤ upTo tsB hi :=
                  le_trans (upTo_suffix_le hsort1 hhi1 hsuf2) hup2b
                have hbodyB := hbody.2 body.span (span_mem_allSpans body)
                have hrpbody : upTo ts4 hi ≤ body.span.1 :=
                  hupEq4 ▸ hbodyB.1
                have hbodyLo : lo ≤ body.span.1 :=
                  le_trans (le_trans hrp.1 hrp.2.1) hbodyB.1
                have htgtb : lo ≤ tgt.span.1 ∧
                    tgt.span.1 ≤ tgt.span.2 ∧
                    tgt.span.2 ≤ upTo tsB hi :=
                  ⟨htgt.1, htgt.2.1, le_trans htgt.2.2 hup2b⟩
                have htgtbody : tgt.span.2 ≤ body.span.1 :=
                  le_trans htgt.2.2 (le_trans hup24 hrpbody)
                have hcurry : NodeOk lo (upTo tsB hi)
                    (Function.curry (merge tgt.span body.span)
                      (p0 :: ps) body) := by
                  refine NodeOk_curry (p0 :: ps) body
                    (hbody.mono_node (le_trans hrp.1 hrp.2.1) (le_refl _))
                    (fun p hp => ListOk_mem
                      (hparams.mono_list (le_trans htgt.1 htgt.2.1) hup4b)
                      p hp)
                    (fun p hp => ?_)
                    ⟨min_le_right _ _, le_max_right _ _⟩
                    (merge_bounds htgtb ⟨hbodyLo, hbodyB.2.1, hbodyB.2.2⟩)
                  have hpb := hparams.2 p.span (mem_allSpansListA_of_mem hp)
                  constructor
                  · exact le_trans (min_le_left _ _)
                      (le_trans htgt.2.1 hpb.1)
                  · exact le_trans (hupEq4 ▸ hpb.2.2)
                      (le_trans hbodyB.1
                        (le_trans hbodyB.2.1 (le_max_right _ _)))
                have hcurrySpan :
                    (Function.curry (merge tgt.span body.span)
                      (p0 :: ps) body).span = merge tgt.span body.span := by
                  rw [curry_cons, span_Function]
                refine ⟨(hsuf8.trans hsuf5).trans
                  (hsuf34.trans (hsuf2.trans hsuf1)), ?_, ?_⟩
                · refine NodeOk_Define (NodeOk_Name htgtb) hcurry
                    (merge_bounds ⟨hst.1, hst.2.1, le_trans hst.2.2 hup1b⟩
                      ⟨hbodyLo, hbodyB.2.1, hbodyB.2.2⟩)
                    ?_ ?_ ?_ ?_
                  · exact le_trans (min_le_left _ _)
                      (le_trans hst.2.1 hsttgt)
                  · exact le_trans htgtbody
                      (le_trans hbodyB.2.1 (le_max_right _ _))
                  · rw [hcurrySpan]
                    exact le_min
                      (le_trans (min_le_left _ _) (le_trans hst.2.1 hsttgt))
                      (min_le_right _ _)
                  · rw [hcurrySpan]
                    exact max_le
                      (le_trans htgtbody
                        (le_trans hbodyB.2.1 (le_max_right _ _)))
                      (le_max_right _ _)
                · rw [hts]
                  exact min_le_left _ _
      | false =>
        dsimp only at h
        rcases h3' : consume_if ts2 [.colon] with ⟨b3', ts3'⟩
        rw [h3'] at h
        cases b3' with
        | true =>
          dsimp only at h
          cases h4' : parse_type fuel ts3' with
          | error e => rw [h4'] at h; simp [except_error_bind] at h
          | ok p4' =>
            obtain ⟨type_ann, ts4'⟩ := p4'
            rw [h4', except_ok_bind] at h
            dsimp only at h
            cases hv : tgt.value with
            | none =>
              rw [hv] at h
              dsimp only at h
              simp [except_error_bind] at h
            | some v =>
              rw [hv] at h
              dsimp only at h
              rw [except_pure_bind] at h
              dsimp only at h
              cases h8 : parse_body_section fuel ts4' with
              | error e => rw [h8] at h; simp [except_error_bind] at h
              | ok p8 =>
                obtain ⟨body, tsB⟩ := p8
                rw [h8, except_ok_bind] at h
                dsimp only at h
                simp only [Except.ok.injEq, Prod.mk.injEq] at h
                obtain ⟨rfl, rfl⟩ := h
                obtain ⟨ct, hts2'⟩ := consume_if_true_shape h3'
                have hsufT : ts4' <:+ ts2 :=
                  (ih.ptype ts3' type_ann ts4' h4').trans
                    (suffix_of_cons hts2')
                obtain ⟨hsuf8, hbody⟩ := ih.pbody tgt.span.2 hi ts4'
                  body tsB (hsort2.suffix hsufT) (hlotgt.of_suffix_lo hsufT)
                  (hhi2.of_suffix_hi hsufT) h8
                have hup2b : upTo ts2 hi ≤ upTo tsB hi :=
                  upTo_suffix_le hsort2 hhi2 (hsuf8.trans hsufT)
                have hup1b : upTo ts1 hi ≤ upTo tsB hi :=
                  le_trans (upTo_suffix_le hsort1 hhi1 hsuf2) hup2b
                have hbodyB := hbody.2 body.span (span_mem_allSpans body)
                have hbodyLo : lo ≤ body.span.1 :=
                  le_trans (le_trans htgt.1 htgt.2.1) hbodyB.1
                have htgtb : lo ≤ tgt.span.1 ∧
                    tgt.span.1 ≤ tgt.span.2 ∧
                    tgt.span.2 ≤ upTo tsB hi :=
                  ⟨htgt.1, htgt.2.1, le_trans htgt.2.2 hup2b⟩
                refine ⟨(hsuf8.trans hsufT).trans (hsuf2.trans hsuf1),
                  ?_, ?_⟩
                · refine NodeOk_Define (NodeOk_TypedName htgtb)
                    (hbody.mono_node (le_trans htgt.1 htgt.2.1) (le_refl _))
                    (merge_bounds ⟨hst.1, hst.2.1, le_trans hst.2.2 hup1b⟩
                      ⟨hbodyLo, hbodyB.2.1, hbodyB.2.2⟩)
                    ?_ ?_ (min_le_right _ _) (le_max_right _ _)
                  · exact le_trans (min_le_left _ _)
                      (le_trans hst.2.1 hsttgt)
                  · exact le_trans hbodyB.1
                      (le_trans hbodyB.2.1 (le_max_right _ _))
                · rw [hts]
                  exact min_le_left _ _
        | false =>
          dsimp only at h
          rw [except_pure_bind] at h
          dsimp only at h
          cases h8 : parse_body_section fuel ts2 with
          | error e => rw [h8] at h; simp [except_error_bind] at h
          | ok p8 =>
            obtain ⟨body, tsB⟩ := p8
            rw [h8, except_ok_bind] at h
            dsimp only at h
            simp only [Except.ok.injEq, Prod.mk.injEq] at h
            obtain ⟨rfl, rfl⟩ := h
            obtain ⟨hsuf8, hbody⟩ := ih.pbody tgt.span.2 hi ts2
              body tsB hsort2 hlotgt hhi2 h8
            have hup2b : upTo ts2 hi ≤ upTo tsB hi :=
              upTo_suffix_le hsort2 hhi2 hsuf8
            have hup1b : upTo ts1 hi ≤ upTo tsB hi :=
              le_trans (upTo_suffix_le hsort1 hhi1 hsuf2) hup2b
            have hbodyB := hbody.2 body.span (span_mem_allSpans body)
            have hbodyLo : lo ≤ body.span.1 :=
              le_trans (le_trans htgt.1 htgt.2.1) hbodyB.1
            have htgtb : lo ≤ tgt.span.1 ∧
                tgt.span.1 ≤ tgt.span.2 ∧
                tgt.span.2 ≤ upTo tsB hi :=
              ⟨htgt.1, htgt.2.1, le_trans htgt.2.2 hup2b⟩
            refine ⟨hsuf8.trans (hsuf2.trans hsuf1), ?_, ?_⟩
            · refine NodeOk_Define (NodeOk_Name htgtb)
                (hbody.mono_node (le_trans htgt.1 htgt.2.1) (le_refl _))
                (merge_bounds ⟨hst.1, hst.2.1, le_trans hst.2.2 hup1b⟩
                  ⟨hbodyLo, hbodyB.2.1, hbodyB.2.2⟩)
                ?_ ?_ (min_le_right _ _) (le_max_right _ _)
              · exact le_trans (min_le_left _ _) (le_trans hst.2.1 hsttgt)
              · exact le_trans hbodyB.1
                  (le_trans hbodyB.2.1 (le_max_right _ _))
            · rw [hts]
              exact min_le_left _ _

/-- Every handler in the prefix dispatch table keeps the containment
invariant. -/
theorem prefix_handler_ok (fuel : Nat) (ih : ∀ m, m ≤ fuel → ParserInv m)
    (tt : TokenTypes)
    (handler : List Token → Except ParseError (ASTNode × List Token))
    (h : prefix_parsers fuel tt = some handler) : PrefixFnOk handler := by
  cases fuel with
  | zero => simp [prefix_parsers] at h
  | succ m =>
    have ihm : ParserInv m := ih m (Nat.le_succ m)
    cases tt <;> simp only [prefix_parsers, Option.some.injEq] at h <;>
      try exact Option.noConfusion h
    all_goals subst h
    all_goals first
      | exact ihm.pif
      | exact ihm.pfunc
      | exact parse_name_ok
      | exact ihm.plist
      | exact ihm.pgroup
      | exact ihm.pdefine
      | exact ihm.pnot
      | exact ihm.pnegate
      | exact parse_scalar_ok

/-- Every handler in the infix dispatch table keeps the containment
invariant. -/
theorem infix_handler_ok (fuel : Nat) (ih : ∀ m, m ≤ fuel → ParserInv m)
    (tt : TokenTypes)
    (handler : ASTNode → List Token → Except ParseError (ASTNode × List Token))
    (h : infix_parsers fuel tt = some handler) : InfixFnOk handler := by
  cases fuel with
  | zero => simp [infix_parsers] at h
  | succ m =>
    have ihm : ParserInv m := ih m (Nat.le_succ m)
    cases tt <;> simp only [infix_parsers, Option.some.injEq] at h <;>
      try exact Option.noConfusion h
    all_goals subst h
    all_goals first
      | exact ihm.pinfixOp _ _
      | exact ihm.papply
      | exact ihm.ppair
      | exact parse_dot_ok

/-- Induction step for `parseExprLoop`. -/
theorem inv_step_exprLoop (fuel : Nat) (ih : ∀ m, m ≤ fuel → ParserInv m) :
    ∀ prec, InfixFnOk (fun left ts => parseExprLoop (fuel + 1) prec left ts) := by
  intro prec lo hi ts left n rest hsort hlo hhi hwl hspl hstart h
  simp only [parseExprLoop] at h
  cases hpv : preview ts with
  | none =>
    rw [hpv] at h
    dsimp only at h
    simp only [Except.ok.injEq, Prod.mk.injEq] at h
    obtain ⟨rfl, rfl⟩ := h
    exact ⟨List.suffix_refl _, ⟨hwl, hspl⟩, le_refl _⟩
  | some op =>
    rw [hpv] at h
    dsimp only at h
    by_cases hc : ((precedence_table op.type_).getD (-1)) > prec
    · rw [if_pos hc] at h
      cases hip : infix_parsers fuel op.type_ with
      | none =>
        rw [hip] at h
        dsimp only at h
        simp only [Except.ok.injEq, Prod.mk.injEq] at h
        obtain ⟨rfl, rfl⟩ := h
        exact ⟨List.suffix_refl _, ⟨hwl, hspl⟩, le_refl _⟩
      | some handler =>
        rw [hip] at h
        dsimp only at h
        cases h1 : handler left ts with
        | error e => rw [h1] at h; simp [except_error_bind] at h
        | ok p =>
          obtain ⟨left', ts1⟩ := p
          rw [h1, except_ok_bind] at h
          dsimp only at h
          have hh := infix_handler_ok fuel ih op.type_ handler hip
          obtain ⟨hsuf1, hnode1, hle1⟩ :=
            hh lo hi ts left left' ts1 hsort hlo hhi hwl hspl hstart h1
          have hstart1 : left'.span.1 ≤ headStart ts1 hi :=
            le_trans hle1 (le_trans hstart
              (headStart_suffix_le hsort hhi hsuf1))
          obtain ⟨hsuf2, hnode2, hle2⟩ :=
            (ih fuel le_rfl).pexprLoop prec lo hi ts1 left' n rest
              (hsort.suffix hsuf1) (hlo.of_suffix_lo hsuf1) (hhi.of_suffix_hi hsuf1)
              hnode1.1 hnode1.2 hstart1 h
          exact ⟨hsuf2.trans hsuf1, hnode2, le_trans hle2 hle1⟩
    · rw [if_neg hc] at h
      simp only [Except.ok.injEq, Prod.mk.injEq] at h
      obtain ⟨rfl, rfl⟩ := h
      exact ⟨List.suffix_refl _, ⟨hwl, hspl⟩, le_refl _⟩

/-- Induction step for `parse_expr`. -/
theorem inv_step_expr (fuel : Nat) (ih : ∀ m, m ≤ fuel → ParserInv m) :
    ∀ prec, PrefixFnOk (parse_expr (fuel + 1) prec) := by
  intro prec lo hi ts n rest hsort hlo hhi h
  simp only [parse_expr] at h
  cases hpv : preview ts with
  | none => rw [hpv] at h; dsimp only at h; exact Except.noConfusion h
  | some first_token =>
    rw [hpv] at h
    dsimp only at h
    cases hip : prefix_parsers fuel first_token.type_ with
    | none => rw [hip] at h; dsimp only at h; exact Except.noConfusion h
    | some ph =>
      rw [hip] at h
      dsimp only at h
      cases h1 : ph ts with
      | error e => rw [h1] at h; simp [except_error_bind] at h
      | ok p =>
        obtain ⟨left, ts1⟩ := p
        rw [h1, except_ok_bind] at h
        dsimp only at h
        have hh := prefix_handler_ok fuel ih first_token.type_ ph hip
        obtain ⟨hsuf1, hnode1, hst1⟩ := hh lo hi ts left ts1 hsort hlo hhi h1
        have hstart1 : left.span.1 ≤ headStart ts1 hi :=
          le_trans hst1 (headStart_suffix_le hsort hhi hsuf1)
        obtain ⟨hsuf2, hnode2, hle2⟩ :=
          (ih fuel le_rfl).pexprLoop prec lo hi ts1 left n rest
            (hsort.suffix hsuf1) (hlo.of_suffix_lo hsuf1) (hhi.of_suffix_hi hsuf1)
            hnode1.1 hnode1.2 hstart1 h
        exact ⟨hsuf2.trans hsuf1, hnode2, le_trans hle2 hst1⟩

/-- The containment invariant holds up to any fuel bound. -/
theorem parserInvAux : ∀ fuel, ∀ k, k ≤ fuel → ParserInv k := by
  intro fuel
  induction fuel with
  | zero =>
    intro k hk
    have : k = 0 := Nat.le_zero.mp hk
    subst this
    exact inv_zero
  | succ m ihm =>
    intro k hk
    by_cases hk' : k ≤ m
    · exact ihm k hk'
    · have hkm : k = m + 1 := by omega
      subst hkm
      have ihP : ParserInv m := ihm m (le_refl m)
      exact ⟨inv_step_type m ihP, inv_step_tuple m ihP,
        inv_step_tupleElems m ihP, inv_step_generic m ihP,
        inv_step_genericArgs m ihP, inv_step_body m ihP,
        inv_step_block m ihP, inv_step_blockItems m ihP,
        inv_step_elements m ihP, inv_step_paramsLoop m ihP,
        inv_step_params m ihP, inv_step_infixOp m ihP,
        inv_step_apply m ihP, inv_step_pair m ihP,
        inv_step_exprLoop m ihm, inv_step_expr m ihm,
        inv_step_define m ihP, inv_step_func m ihP, inv_step_if m ihP,
        inv_step_list m ihP, inv_step_negate m ihP, inv_step_not m ihP,
        inv_step_group m ihP⟩

/-- The containment invariant of every parser function, at every fuel. -/
theorem parserInv (fuel : Nat) : ParserInv fuel :=
  parserInvAux fuel fuel (le_refl _)

/-- The top-level program loop only builds trees satisfying the containment
invariant, given that the accumulated expressions already satisfy it and sit
before the remaining stream. -/
theorem parseLoop_ok : ∀ (fuel : Nat) (lo hi : Int) (acc : List ASTNode)
    (ts : List Token) (n : ASTNode),
    SortedTokens ts → LoBound lo ts → HiBound hi ts →
    ChainOk lo (headStart ts hi) acc →
    parseLoop fuel acc ts = .ok n → spanWithin n = true := by
  intro fuel
  induction fuel with
  | zero => intro lo hi acc ts n _ _ _ _ h; simp [parseLoop] at h
  | succ m ihm =>
    intro lo hi acc ts n hsort hlo hhi hacc h
    simp only [parseLoop] at h
    cases ts with
    | nil =>
      dsimp only at h
      cases acc with
      | nil =>
        dsimp only at h
        simp only [Except.ok.injEq] at h
        subst h
        rfl
      | cons e tail =>
        cases tail with
        | nil =>
          dsimp only at h
          simp only [Except.ok.injEq] at h
          subst h
          exact (ListOk_cons.mp hacc.1).1.1
        | cons e2 tail2 =>
          dsimp only at h
          simp only [Except.ok.injEq] at h
          subst h
          exact (NodeOk_Block_chain hacc).1
    | cons t ts' =>
      dsimp only at h
      cases h1 : parse_expr m 0 (t :: ts') with
      | error e => rw [h1] at h; simp [except_error_bind] at h
      | ok p =>
        obtain ⟨expr, ts1⟩ := p
        rw [h1, except_ok_bind] at h
        dsimp only at h
        cases h2 : consume ts1 [.eol] with
        | error e => rw [h2] at h; simp [except_error_bind] at h
        | ok q =>
          obtain ⟨e0, ts2⟩ := q
          rw [h2, except_ok_bind] at h
          dsimp only at h
          obtain ⟨hsuf1, hexpr, -⟩ := (parserInv m).pexpr 0
            (headStart (t :: ts') hi) hi (t :: ts') expr ts1 hsort
            (sorted_lo_head hsort hi) hhi h1
          have hts1 := consume_ok_shape h2
          have hsort1 := hsort.suffix hsuf1
          have hhi1 := hhi.of_suffix_hi hsuf1
          have hsort1' : SortedTokens (e0 :: ts2) := hts1 ▸ hsort1
          have hhi1' : HiBound hi (e0 :: ts2) := hts1 ▸ hhi1
          have hsuf2 : ts2 <:+ ts1 := suffix_of_cons hts1
          have hupEq : upTo ts1 hi = e0.span.2 := by rw [hts1]; rfl
          have hsufA : ts2 <:+ (t :: ts') := hsuf2.trans hsuf1
          have hHSle : headStart (t :: ts') hi ≤ headStart ts2 hi :=
            headStart_suffix_le hsort hhi hsufA
          have hupHS : upTo ts1 hi ≤ headStart ts2 hi := by
            rw [hupEq]
            exact upTo_le_headStart_tail hsort1' hhi1'
          have hloHS : lo ≤ headStart (t :: ts') hi := hlo t (by simp)
          apply ihm lo hi (acc ++ [expr]) ts2 n (hsort.suffix hsufA)
            (hlo.of_suffix_lo hsufA) (hhi.of_suffix_hi hsufA) ?_ h
          constructor
          · refine ListOk_append.mpr ⟨hacc.1.mono_list (le_refl _) hHSle, ?_⟩
            exact ListOk_cons.mpr
              ⟨hexpr.mono_node hloHS hupHS, ListOk_nil⟩
          · rw [List.chain'_append]
            refine ⟨hacc.2, List.chain'_singleton _, ?_⟩
            intro x hx y hy
            have hy' : expr = y := by simpa using hy
            intro sp hsp
            have hxmem : x ∈ acc := List.mem_of_mem_getLast? hx
            have hsp2 : sp.2 ≤ headStart (t :: ts') hi :=
              (hacc.1.2 sp (allSpans_mem_allSpansListA hxmem hsp)).2.2
            have hexprLo : headStart (t :: ts') hi ≤ expr.span.1 :=
              (hexpr.2 expr.span (span_mem_allSpans expr)).1
            exact le_trans hsp2 (hy' ▸ hexprLo)

/-- C2: the claim says every composite node's span equals the merge of its
children's spans.  `parse_group` and `parse_apply` overwrite spans to include
the parenthesis tokens (see `parse_group_breaks_span_equality`), so equality
fails; the correct invariant is containment: on every well-formed (sorted,
non-overlapping) token stream, every tree the parser returns satisfies
`spanWithin` — each node's span contains every child's span, recursively. -/
theorem parser_spans_contain_children (fuel : Nat) (ts : List Token)
    (n : ASTNode) (hs : SortedTokens ts) (h : parse fuel ts = .ok n) :
    spanWithin n = true := by
  obtain ⟨hi, hhi⟩ := exists_hi ts
  exact parseLoop_ok fuel (headStart ts hi) hi [] ts n hs
    (sorted_lo_head hs hi) hhi ⟨ListOk_nil, trivial⟩ h

/-- Witness for C2's amended theorem at the concrete stream `"(1 + 2)"`. -/
theorem parser_spans_contain_children_witness :
    SortedTokens groupTokens ∧ spanWithin groupTree = true :=
  ⟨by unfold SortedTokens
      refine ⟨by decide, ?_⟩
      simp [groupTokens, List.chain'_cons],
    parser_spans_contain_children 30 groupTokens groupTree
      (by unfold SortedTokens
          refine ⟨by decide, ?_⟩
          simp [groupTokens, List.chain'_cons]) rfl⟩

end Hanno
